import Mathlib

/-!
# Event identifier derivation (`cmd/wasm/main.go`)

A shallow embedding of `eventIDForEvent`, the function tardis exports to JavaScript to
compute the event ID of an event JSON under a room version, together with the properties
of it that the specification states.

Go strings and byte slices holding text are lists of characters.  The functions imported
from `gomatrixserverlib` (`GetRoomVersion`, `RedactEventJSON`, `CanonicalJSON`) and
`crypto/sha256` are fields of an environment, so every theorem holds for whatever those
collaborators compute.  `encoding/json` and `encoding/base64` are modelled concretely, as
far as `eventIDForEvent` uses them.  A reference environment instantiates the collaborators
(SHA-256 itself, a key-sorting canonical serialization, a redaction that decodes and
re-encodes the event) for the examples.

`eventIDForEvent` only ever reads the event as redacted, so properties of "the event" are
stated on the redacted event.
-/

namespace Tardis

/-- Text held in a Go `string` or `[]byte`. -/
abbrev Text := List Char

/-! ## `encoding/json`: scanning -/

namespace JSON

/-- A parsed JSON value.  Number literals and string bodies are kept as written; each object
member carries its key body, the raw text of its value and the parsed value. -/
inductive Value where
  | null : Value
  | bool (b : Bool) : Value
  | number (lit : Text) : Value
  | string (body : Text) : Value
  | array (elems : List Value) : Value
  | object (members : List (Text × Text × Value)) : Value

/-- The scanner's `isSpace`. -/
def isSpace (c : Char) : Bool :=
  c.toNat == 32 || c.toNat == 9 || c.toNat == 13 || c.toNat == 10

def isDigit (c : Char) : Bool := 48 ≤ c.toNat && c.toNat ≤ 57

def isHex (c : Char) : Bool :=
  isDigit c || (97 ≤ c.toNat && c.toNat ≤ 102) || (65 ≤ c.toNat && c.toNat ≤ 70)

/-- The characters that may follow a backslash, `u` apart. -/
def isSimpleEscape (c : Char) : Bool :=
  c == '"' || c == '\\' || c == '/' || c == 'b' || c == 'f' || c == 'n' || c == 'r' || c == 't'

def skipSpace : Text → Text
  | [] => []
  | c :: cs => if isSpace c then skipSpace cs else c :: cs

/-- Removes a literal from the front of the input. -/
def stripLit : Text → Text → Option Text
  | [], s => some s
  | _ :: _, [] => none
  | p :: ps, c :: cs => if p = c then stripLit ps cs else none

/-- Scans a string literal after its opening quote: the body and what follows the closing
quote.  Control characters and malformed escapes are rejected, as by the scanner. -/
def scanString : Text → Option (Text × Text)
  | [] => none
  | c :: rest =>
    if c = '"' then some ([], rest)
    else if c = '\\' then
      match rest with
      | [] => none
      | e :: rest1 =>
        if e = 'u' then
          match rest1 with
          | h1 :: h2 :: h3 :: h4 :: rest2 =>
            if isHex h1 && isHex h2 && isHex h3 && isHex h4 then
              (scanString rest2).map
                fun p => ('\\' :: 'u' :: h1 :: h2 :: h3 :: h4 :: p.1, p.2)
            else none
          | _ => none
        else if isSimpleEscape e then
          (scanString rest1).map fun p => ('\\' :: e :: p.1, p.2)
        else none
    else if c.toNat < 32 then none
    else (scanString rest).map fun p => (c :: p.1, p.2)

def scanInt : Text → Option (Text × Text)
  | [] => none
  | c :: rest =>
    if c = '0' then some (['0'], rest)
    else if isDigit c then some (c :: rest.takeWhile isDigit, rest.dropWhile isDigit)
    else none

def scanFrac : Text → Option (Text × Text)
  | [] => some ([], [])
  | c :: rest =>
    if c = '.' then
      if (rest.takeWhile isDigit).isEmpty then none
      else some (c :: rest.takeWhile isDigit, rest.dropWhile isDigit)
    else some ([], c :: rest)

def scanSign : Text → Text × Text
  | [] => ([], [])
  | c :: rest => if c = '+' ∨ c = '-' then ([c], rest) else ([], c :: rest)

def scanExp : Text → Option (Text × Text)
  | [] => some ([], [])
  | c :: rest =>
    if c = 'e' ∨ c = 'E' then
      let sr := scanSign rest
      if (sr.2.takeWhile isDigit).isEmpty then none
      else some (c :: sr.1 ++ sr.2.takeWhile isDigit, sr.2.dropWhile isDigit)
    else some ([], c :: rest)

def scanMinus : Text → Text × Text
  | [] => ([], [])
  | c :: rest => if c = '-' then ([c], rest) else ([], c :: rest)

/-- Scans a number literal: the literal and what follows it. -/
def scanNumber (s : Text) : Option (Text × Text) :=
  let m := scanMinus s
  match scanInt m.2 with
  | none => none
  | some (i, s2) =>
    match scanFrac s2 with
    | none => none
    | some (f, s3) =>
      match scanExp s3 with
      | none => none
      | some (e, s4) => some (m.1 ++ i ++ f ++ e, s4)

/-- The scanner's `maxNestingDepth`. -/
def maxNestingDepth : Nat := 10000

/-- The text consumed between an input and one of its suffixes. -/
def consumed (s rest : Text) : Text := s.take (s.length - rest.length)

mutual
/-- Parses one value, after optional leading space, at nesting depth `depth`. -/
def parseValue : Nat → Nat → Text → Option (Value × Text)
  | 0, _, _ => none
  | fuel + 1, depth, s =>
    match skipSpace s with
    | [] => none
    | c :: rest =>
      if c = '{' then
        if maxNestingDepth ≤ depth then none
        else
          match skipSpace rest with
          | [] => none
          | d :: rest1 =>
            if d = '}' then some (Value.object [], rest1)
            else (parseMembers fuel (depth + 1) (d :: rest1)).map
              fun p => (Value.object p.1, p.2)
      else if c = '[' then
        if maxNestingDepth ≤ depth then none
        else
          match skipSpace rest with
          | [] => none
          | d :: rest1 =>
            if d = ']' then some (Value.array [], rest1)
            else (parseElems fuel (depth + 1) (d :: rest1)).map
              fun p => (Value.array p.1, p.2)
      else if c = '"' then
        (scanString rest).map fun p => (Value.string p.1, p.2)
      else if c = 't' then
        (stripLit ['r', 'u', 'e'] rest).map fun r => (Value.bool true, r)
      else if c = 'f' then
        (stripLit ['a', 'l', 's', 'e'] rest).map fun r => (Value.bool false, r)
      else if c = 'n' then
        (stripLit ['u', 'l', 'l'] rest).map fun r => (Value.null, r)
      else
        (scanNumber (c :: rest)).map fun p => (Value.number p.1, p.2)
/-- Parses the elements of a non-empty array up to and including the closing bracket. -/
def parseElems : Nat → Nat → Text → Option (List Value × Text)
  | 0, _, _ => none
  | fuel + 1, depth, s =>
    match parseValue fuel depth s with
    | none => none
    | some (v, rest) =>
      match skipSpace rest with
      | [] => none
      | c :: rest1 =>
        if c = ',' then
          (parseElems fuel depth rest1).map fun p => (v :: p.1, p.2)
        else if c = ']' then some ([v], rest1)
        else none
/-- Parses the members of a non-empty object up to and including the closing brace. -/
def parseMembers : Nat → Nat → Text → Option (List (Text × Text × Value) × Text)
  | 0, _, _ => none
  | fuel + 1, depth, s =>
    match skipSpace s with
    | [] => none
    | q :: rest =>
      if q = '"' then
        match scanString rest with
        | none => none
        | some (key, rest1) =>
          match skipSpace rest1 with
          | [] => none
          | c :: rest2 =>
            if c = ':' then
              match parseValue fuel depth rest2 with
              | none => none
              | some (v, rest3) =>
                let raw := consumed (skipSpace rest2) rest3
                match skipSpace rest3 with
                | [] => none
                | d :: rest4 =>
                  if d = ',' then
                    (parseMembers fuel depth rest4).map fun p => ((key, raw, v) :: p.1, p.2)
                  else if d = '}' then some ([(key, raw, v)], rest4)
                  else none
            else none
      else none
end

/-- A whole document: one value with optional space on both sides (`checkValid`). -/
def parse (s : Text) : Option Value :=
  match parseValue (s.length + 1) 0 s with
  | some (v, rest) => if (skipSpace rest).isEmpty then some v else none
  | none => none

/-- A whole text holding one value that stands at nesting depth `depth`, with optional space
on both sides: `parse` is the case of depth zero, and the value of a member of the outermost
object stands at depth one. -/
def parseAt (depth : Nat) (s : Text) : Option Value :=
  match parseValue (s.length + 1) depth s with
  | some (v, rest) => if (skipSpace rest).isEmpty then some v else none
  | none => none


/-- A parse that succeeds with some fuel consumes input, and succeeds with the same result
with any fuel above the number of characters it consumes. -/
def FuelEnough {α : Type} (parser : Nat → Nat → Text → Option (α × Text)) (fuel : Nat) : Prop :=
  ∀ depth s x rest, parser fuel depth s = some (x, rest) →
    rest.length < s.length ∧
      ∀ g, s.length - rest.length < g → parser g depth s = some (x, rest)


/-! ## `encoding/json`: string literals -/

def hexVal (c : Char) : Nat :=
  if isDigit c then c.toNat - 48
  else if 97 ≤ c.toNat then c.toNat - 87
  else c.toNat - 55

/-- The decoder's `getu4` on four hexadecimal digits. -/
def u4 (h1 h2 h3 h4 : Char) : Nat :=
  hexVal h1 * 4096 + hexVal h2 * 256 + hexVal h3 * 16 + hexVal h4

/-- The function `utf16.IsSurrogate`. -/
def isSurrogate (r : Nat) : Bool := 0xd800 ≤ r && r < 0xe000

/-- The function `utf16.DecodeRune`, with `none` for the replacement character. -/
def decodeSurrogates (r1 r2 : Nat) : Option Nat :=
  if 0xd800 ≤ r1 && r1 < 0xdc00 && 0xdc00 ≤ r2 && r2 < 0xe000 then
    some ((r1 - 0xd800) * 1024 + (r2 - 0xdc00) + 0x10000)
  else none

/-- The value of a `\uXXXX` escape at the front of the text, if there is one (`getu4`). -/
def getu4 : Text → Option Nat
  | b :: u :: g1 :: g2 :: g3 :: g4 :: _ =>
    if b = '\\' ∧ u = 'u' ∧ isHex g1 ∧ isHex g2 ∧ isHex g3 ∧ isHex g4 then some (u4 g1 g2 g3 g4)
    else none
  | _ => none

/-- The decoder's `unquote` on the body of a scanned string literal, after dropping `skip`
characters.  A surrogate pair written as two escapes is one character; a lone surrogate is
the replacement character. -/
def unquoteFrom : Nat → Text → Text
  | _, [] => []
  | skip + 1, _ :: rest => unquoteFrom skip rest
  | 0, c :: rest =>
    if c = '\\' then
      match rest with
      | [] => []
      | e :: rest1 =>
        if e = 'u' then
          match rest1 with
          | h1 :: h2 :: h3 :: h4 :: rest2 =>
            if isSurrogate (u4 h1 h2 h3 h4) then
              match (getu4 rest2).bind (decodeSurrogates (u4 h1 h2 h3 h4)) with
              | some r => Char.ofNat r :: unquoteFrom 6 rest2
              | none => Char.ofNat 0xfffd :: unquoteFrom 0 rest2
            else Char.ofNat (u4 h1 h2 h3 h4) :: unquoteFrom 0 rest2
          | _ => []
        else if e = 'b' then Char.ofNat 8 :: unquoteFrom 0 rest1
        else if e = 'f' then Char.ofNat 12 :: unquoteFrom 0 rest1
        else if e = 'n' then Char.ofNat 10 :: unquoteFrom 0 rest1
        else if e = 'r' then Char.ofNat 13 :: unquoteFrom 0 rest1
        else if e = 't' then Char.ofNat 9 :: unquoteFrom 0 rest1
        else e :: unquoteFrom 0 rest1
    else c :: unquoteFrom 0 rest

def unquote (body : Text) : Text := unquoteFrom 0 body

def hexDigit (n : Nat) : Char := Char.ofNat (if n < 10 then 48 + n else 87 + n)

/-- The escape `\u00XX` of a character below 128. -/
def escapeU00 (c : Char) : Text :=
  ['\\', 'u', '0', '0', hexDigit (c.toNat / 16), hexDigit (c.toNat % 16)]

/-- The encoder's `appendString` with HTML escaping, without the surrounding quotes. -/
def quoteBody : Text → Text
  | [] => []
  | c :: rest =>
    (if c = '\\' ∨ c = '"' then ['\\', c]
     else if c.toNat = 8 then ['\\', 'b']
     else if c.toNat = 12 then ['\\', 'f']
     else if c.toNat = 10 then ['\\', 'n']
     else if c.toNat = 13 then ['\\', 'r']
     else if c.toNat = 9 then ['\\', 't']
     else if c.toNat < 32 ∨ c = '<' ∨ c = '>' ∨ c = '&' then escapeU00 c
     else if c.toNat = 0x2028 then ['\\', 'u', '2', '0', '2', '8']
     else if c.toNat = 0x2029 then ['\\', 'u', '2', '0', '2', '9']
     else [c]) ++ quoteBody rest

/-- The bytes `appendCompact` writes for valid input, with HTML escaping: space outside
string literals is dropped, and `<`, `>`, `&`, U+2028 and U+2029 are escaped. -/
def compactChars : Bool → Text → Text
  | _, [] => []
  | inString, c :: rest =>
    if c = '<' ∨ c = '>' ∨ c = '&' then escapeU00 c ++ compactChars inString rest
    else if c.toNat = 0x2028 then ['\\', 'u', '2', '0', '2', '8'] ++ compactChars inString rest
    else if c.toNat = 0x2029 then ['\\', 'u', '2', '0', '2', '9'] ++ compactChars inString rest
    else if inString then
      if c = '"' then c :: compactChars false rest
      else if c = '\\' then
        match rest with
        | [] => [c]
        | e :: rest1 => c :: e :: compactChars true rest1
      else c :: compactChars true rest
    else if c = '"' then c :: compactChars true rest
    else if isSpace c then compactChars false rest
    else c :: compactChars false rest

/-- The function `appendCompact` with HTML escaping: fails on invalid JSON. -/
def compact (raw : Text) : Option Text :=
  match parse raw with
  | some _ => some (compactChars false raw)
  | none => none

mutual
/-- The value that the compacted text of a value holds: string bodies and keys with the
escapes `compactChars` writes, the raw text of every member compacted. -/
def compactValue : Value → Value
  | .null => .null
  | .bool b => .bool b
  | .number lit => .number lit
  | .string body => .string (compactChars true body)
  | .array elems => .array (compactElems elems)
  | .object members => .object (compactMembers members)
def compactElems : List Value → List Value
  | [] => []
  | v :: vs => compactValue v :: compactElems vs
def compactMembers : List (Text × Text × Value) → List (Text × Text × Value)
  | [] => []
  | (key, raw, v) :: ms =>
    (compactChars true key, compactChars false raw, compactValue v) :: compactMembers ms
end

/-- A character that can stand in a number literal. -/
def isNumberChar (c : Char) : Bool :=
  isDigit c || c == '-' || c == '+' || c == '.' || c == 'e' || c == 'E'

end JSON

/-! ## `map[string]spec.RawJSON` and its JSON encoding -/

/-- A value of type `map[string]spec.RawJSON`: `none` is the nil map; the entries of a
non-nil map have distinct keys. -/
abbrev RawMap := Option (List (Text × Text))

/-- The assignment `m[k] = v` on the entries of a map. -/
def setEntry (k v : Text) : List (Text × Text) → List (Text × Text)
  | [] => [(k, v)]
  | (k1, v1) :: es => if k1 = k then (k, v) :: es else (k1, v1) :: setEntry k v es

/-- The built-in `delete(m, k)`; a no-op on the nil map. -/
def mapDelete (m : RawMap) (k : Text) : RawMap :=
  m.map fun es => es.filter fun e => e.1 ≠ k

/-- The lookup `v, ok := m[k]`. -/
def mapLookup (m : RawMap) (k : Text) : Option Text :=
  match m with
  | none => none
  | some es => (es.find? fun e => e.1 = k).map Prod.snd

/-- The index expression `m[k]`: the nil `RawJSON` when the key is absent. -/
def mapIndex (m : RawMap) (k : Text) : Text := (mapLookup m k).getD []

/-- The call `json.Unmarshal(data, &m)` for a nil `m` of type `map[string]spec.RawJSON`:
a JSON object fills a new map, later members replacing earlier ones of the same key, the
literal `null` leaves the map nil, and anything else is an error. -/
def unmarshalMap (data : Text) : Option RawMap :=
  match JSON.parse data with
  | some (JSON.Value.object members) =>
    some (some (members.foldl (fun es mem => setEntry (JSON.unquote mem.1) mem.2.1 es) []))
  | some JSON.Value.null => some none
  | _ => none

/-- The call `json.Unmarshal(data, &s)` for a string `s` holding `current`: a JSON string
is decoded, the literal `null` leaves `s` as it is, anything else is an error. -/
def unmarshalString (data : Text) (current : Text) : Option Text :=
  match JSON.parse data with
  | some (JSON.Value.string body) => some (JSON.unquote body)
  | some JSON.Value.null => some current
  | _ => none

/-- The order in which `json.Marshal` sorts map keys: byte-wise, which on UTF-8 text is the
order of the code points. -/
def textLE : Text → Text → Bool
  | [], _ => true
  | _ :: _, [] => false
  | a :: as, b :: bs =>
    if a.toNat < b.toNat then true
    else if b.toNat < a.toNat then false
    else textLE as bs

/-- The order of the members `json.Marshal` writes: by key. -/
def entryLE (a b : Text × Text) : Prop := textLE a.1 b.1 = true

instance : DecidableRel entryLE := fun a b => inferInstanceAs (Decidable (textLE a.1 b.1 = true))

/-- One `"key":value` member as `json.Marshal` writes it. -/
def marshalEntry (e : Text × Text) : Option Text :=
  (JSON.compact e.2).map fun v => '"' :: JSON.quoteBody e.1 ++ '"' :: ':' :: v

/-- The members of an object, comma-separated. -/
def marshalEntries : List (Text × Text) → Option Text
  | [] => some []
  | [e] => marshalEntry e
  | e :: es =>
    match marshalEntry e, marshalEntries es with
    | some x, some xs => some (x ++ ',' :: xs)
    | _, _ => none

/-- The call `json.Marshal(m)`: `null` for the nil map, otherwise the object with its keys
sorted and each raw value compacted; an error when a raw value is not valid JSON. -/
def marshalMap (m : RawMap) : Option Text :=
  match m with
  | none => some ['n', 'u', 'l', 'l']
  | some es =>
    (marshalEntries (es.insertionSort entryLE)).map
      fun body => '{' :: body ++ ['}']

/-! ## `encoding/base64` -/

namespace Base64

/-- The alphabet of `base64.StdEncoding`. -/
def encodeStd : Text :=
  "ABCDEFGHIJKLMNOPQRSTUVWXYZabcdefghijklmnopqrstuvwxyz0123456789+/".toList

/-- The alphabet of `base64.URLEncoding`. -/
def encodeURL : Text :=
  "ABCDEFGHIJKLMNOPQRSTUVWXYZabcdefghijklmnopqrstuvwxyz0123456789-_".toList

/-- The character of a six-bit value. -/
def encodeSextet (alphabet : Text) (v : Nat) : Char := alphabet.getD (v % 64) 'A'

/-- The method `EncodeToString` of an encoding without padding: each three bytes give four
characters, a remainder of one byte gives two and a remainder of two bytes gives three. -/
def encodeToString (alphabet : Text) : List Nat → Text
  | a :: b :: c :: rest =>
    let val := a * 65536 + b * 256 + c
    encodeSextet alphabet (val / 262144) :: encodeSextet alphabet (val / 4096) ::
      encodeSextet alphabet (val / 64) :: encodeSextet alphabet val ::
      encodeToString alphabet rest
  | [a, b] =>
    let val := a * 65536 + b * 256
    [encodeSextet alphabet (val / 262144), encodeSextet alphabet (val / 4096),
      encodeSextet alphabet (val / 64)]
  | [a] =>
    let val := a * 65536
    [encodeSextet alphabet (val / 262144), encodeSextet alphabet (val / 4096)]
  | [] => []

/-- The six-bit value of a character (the encoding's `decodeMap`). -/
def decodeSextet (alphabet : Text) (c : Char) : Option Nat :=
  if c ∈ alphabet then some (alphabet.indexOf c) else none

/-- The sextets of a text: line breaks are skipped, a character outside the alphabet is
corrupt input. -/
def sextets (alphabet : Text) : Text → Option (List Nat)
  | [] => some []
  | c :: rest =>
    if c = '\n' ∨ c = '\r' then sextets alphabet rest
    else
      match decodeSextet alphabet c, sextets alphabet rest with
      | some v, some vs => some (v :: vs)
      | _, _ => none

/-- The bytes of a list of sextets: four sextets give three bytes, a final group of three
gives two bytes and one of two gives one byte; a single left-over sextet is corrupt. -/
def decodeQuanta : List Nat → Option (List Nat)
  | a :: b :: c :: d :: rest =>
    let val := a * 262144 + b * 4096 + c * 64 + d
    (decodeQuanta rest).map fun bytes =>
      (val / 65536) % 256 :: (val / 256) % 256 :: val % 256 :: bytes
  | [a, b, c] =>
    let val := a * 262144 + b * 4096 + c * 64
    some [(val / 65536) % 256, (val / 256) % 256]
  | [a, b] =>
    let val := a * 262144 + b * 4096
    some [(val / 65536) % 256]
  | [_] => none
  | [] => some []

/-- The method `DecodeString` of an encoding without padding. -/
def decodeString (alphabet : Text) (s : Text) : Option (List Nat) :=
  (sextets alphabet s).bind decodeQuanta

/-- The sextets `EncodeToString` writes, before they are mapped to characters. -/
def sextetsOf : List Nat → List Nat
  | a :: b :: c :: rest =>
    let val := a * 65536 + b * 256 + c
    val / 262144 % 64 :: val / 4096 % 64 :: val / 64 % 64 :: val % 64 :: sextetsOf rest
  | [a, b] =>
    let val := a * 65536 + b * 256
    [val / 262144 % 64, val / 4096 % 64, val / 64 % 64]
  | [a] =>
    let val := a * 65536
    [val / 262144 % 64, val / 4096 % 64]
  | [] => []

/-- What the proofs use of an alphabet: sixty-four distinct characters, none of them a line
break or the padding character. -/
structure GoodAlphabet (alphabet : Text) : Prop where
  length_eq : alphabet.length = 64
  nodup : alphabet.Nodup
  no_newline : '\n' ∉ alphabet
  no_return : '\r' ∉ alphabet
  no_padding : '=' ∉ alphabet

end Base64

/-! ## The collaborators of `eventIDForEvent`

The formats are the integer constants of `gomatrixserverlib`; the proofs use only that they
differ from one another. -/

/-- The type `gomatrixserverlib.EventFormat`, an integer. -/
abbrev EventFormat := Int

/-- The type `gomatrixserverlib.EventIDFormat`, an integer. -/
abbrev EventIDFormat := Int

/-- Events whose identifier is their own `event_id` field. -/
def EventFormatV1 : EventFormat := 1

/-- Events whose identifier is derived from their hash. -/
def EventFormatV2 : EventFormat := 2

/-- Identifiers that are the standard Base64 of the hash. -/
def EventIDFormatV2 : EventIDFormat := 2

/-- Identifiers that are the URL-safe Base64 of the hash. -/
def EventIDFormatV3 : EventIDFormat := 3

/-- The value a `[32]byte` holds. -/
structure Digest where
  bytes : List Nat
  size_eq : bytes.length = 32
  byte_lt : ∀ b ∈ bytes, b < 256

/-- What `eventIDForEvent` uses of `gomatrixserverlib.IRoomVersion`: the rule set of a room
version. -/
structure RoomVersionImpl where
  /-- The method `RedactEventJSON`; `none` is an error. -/
  redactEventJSON : Text → Option Text
  /-- The method `EventFormat`. -/
  eventFormat : EventFormat
  /-- The method `EventIDFormat`. -/
  eventIDFormat : EventIDFormat

/-- The imported functions `eventIDForEvent` calls. -/
structure Env where
  /-- The function `gomatrixserverlib.GetRoomVersion`; `none` is an error. -/
  getRoomVersion : Text → Option RoomVersionImpl
  /-- The function `gomatrixserverlib.CanonicalJSON`; `none` is an error. -/
  canonicalJSON : Text → Option Text
  /-- The function `sha256.Sum256`. -/
  sum256 : Text → Digest

/-! ## `eventIDForEvent` -/

/-- The place at which `eventIDForEvent` gives up and returns the empty string. -/
inductive Failure where
  | arguments
  | roomVersion
  | redaction
  | parse
  | marshal
  | canonicalJSON
  | existingEventID
  | eventIDFormat
  | eventFormat
  deriving DecidableEq, Repr

def signaturesKey : Text := "signatures".toList

def unsignedKey : Text := "unsigned".toList

def eventIDKey : Text := "event_id".toList

/-- The body of `eventIDForEvent` with each `return ""` that follows a failed check kept
apart from the final `return eventID`. -/
def deriveEventID (env : Env) (args : List Text) : Except Failure Text :=
  match args with
  | [eventJSON, roomVerStr] =>
    match env.getRoomVersion roomVerStr with
    | none => .error .roomVersion
    | some verImpl =>
      match verImpl.redactEventJSON eventJSON with
      | none => .error .redaction
      | some redactedJSON =>
        match unmarshalMap redactedJSON with
        | none => .error .parse
        | some event =>
          let event := mapDelete event signaturesKey
          let event := mapDelete event unsignedKey
          let existingEventID := mapIndex event eventIDKey
          let event := mapDelete event eventIDKey
          match marshalMap event with
          | none => .error .marshal
          | some hashableEventJSON =>
            match env.canonicalJSON hashableEventJSON with
            | none => .error .canonicalJSON
            | some hashableEventJSON =>
              let sha256Hash := env.sum256 hashableEventJSON
              if verImpl.eventFormat = EventFormatV1 then
                match unmarshalString existingEventID [] with
                | none => .error .existingEventID
                | some eventID => .ok eventID
              else if verImpl.eventFormat = EventFormatV2 then
                if verImpl.eventIDFormat = EventIDFormatV2 then
                  .ok ('$' :: Base64.encodeToString Base64.encodeStd sha256Hash.bytes)
                else if verImpl.eventIDFormat = EventIDFormatV3 then
                  .ok ('$' :: Base64.encodeToString Base64.encodeURL sha256Hash.bytes)
                else .error .eventIDFormat
              else .error .eventFormat
  | _ => .error .arguments

/-- The function `eventIDForEvent`: the identifier, or the empty string on any failure. -/
def eventIDForEvent (env : Env) (args : List Text) : Text :=
  match deriveEventID env args with
  | .ok eventID => eventID
  | .error _ => []

/-- The final `switch` of `eventIDForEvent` on the event format. -/
def encodeByFormat (verImpl : RoomVersionImpl) (existingEventID : Text) (sha256Hash : Digest) :
    Except Failure Text :=
  if verImpl.eventFormat = EventFormatV1 then
    match unmarshalString existingEventID [] with
    | none => .error .existingEventID
    | some eventID => .ok eventID
  else if verImpl.eventFormat = EventFormatV2 then
    if verImpl.eventIDFormat = EventIDFormatV2 then
      .ok ('$' :: Base64.encodeToString Base64.encodeStd sha256Hash.bytes)
    else if verImpl.eventIDFormat = EventIDFormatV3 then
      .ok ('$' :: Base64.encodeToString Base64.encodeURL sha256Hash.bytes)
    else .error .eventIDFormat
  else .error .eventFormat

/-! ## A reference environment

The collaborators instantiated: SHA-256 itself, a canonical serialization that sorts the
members of every object, and room versions whose redaction decodes the event, checks its
type and keeps the top-level keys of the redaction algorithm. -/

namespace SHA256

def mask (x : Nat) : Nat := x % 4294967296

def rotr (x n : Nat) : Nat := (x >>> n) ||| mask (x <<< (32 - n))

def ch (x y z : Nat) : Nat := (x &&& y) ^^^ ((x ^^^ 4294967295) &&& z)

def maj (x y z : Nat) : Nat := (x &&& y) ^^^ (x &&& z) ^^^ (y &&& z)

def bsig0 (x : Nat) : Nat := rotr x 2 ^^^ rotr x 13 ^^^ rotr x 22

def bsig1 (x : Nat) : Nat := rotr x 6 ^^^ rotr x 11 ^^^ rotr x 25

def ssig0 (x : Nat) : Nat := rotr x 7 ^^^ rotr x 18 ^^^ (x >>> 3)

def ssig1 (x : Nat) : Nat := rotr x 17 ^^^ rotr x 19 ^^^ (x >>> 10)

def roundConstants : List Nat :=
  [ 0x428a2f98, 0x71374491, 0xb5c0fbcf, 0xe9b5dba5, 0x3956c25b, 0x59f111f1, 0x923f82a4, 0xab1c5ed5,
    0xd807aa98, 0x12835b01, 0x243185be, 0x550c7dc3, 0x72be5d74, 0x80deb1fe, 0x9bdc06a7, 0xc19bf174,
    0xe49b69c1, 0xefbe4786, 0x0fc19dc6, 0x240ca1cc, 0x2de92c6f, 0x4a7484aa, 0x5cb0a9dc, 0x76f988da,
    0x983e5152, 0xa831c66d, 0xb00327c8, 0xbf597fc7, 0xc6e00bf3, 0xd5a79147, 0x06ca6351, 0x14292967,
    0x27b70a85, 0x2e1b2138, 0x4d2c6dfc, 0x53380d13, 0x650a7354, 0x766a0abb, 0x81c2c92e, 0x92722c85,
    0xa2bfe8a1, 0xa81a664b, 0xc24b8b70, 0xc76c51a3, 0xd192e819, 0xd6990624, 0xf40e3585, 0x106aa070,
    0x19a4c116, 0x1e376c08, 0x2748774c, 0x34b0bcb5, 0x391c0cb3, 0x4ed8aa4a, 0x5b9cca4f, 0x682e6ff3,
    0x748f82ee, 0x78a5636f, 0x84c87814, 0x8cc70208, 0x90befffa, 0xa4506ceb, 0xbef9a3f7, 0xc67178f2 ]

/-- The eight working variables. -/
structure State where
  a : Nat
  b : Nat
  c : Nat
  d : Nat
  e : Nat
  f : Nat
  g : Nat
  h : Nat

def initial : State :=
  ⟨0x6a09e667, 0xbb67ae85, 0x3c6ef372, 0xa54ff53a, 0x510e527f, 0x9b05688c, 0x1f83d9ab, 0x5be0cd19⟩

def step (s : State) (kw : Nat × Nat) : State :=
  let t1 := s.h + bsig1 s.e + ch s.e s.f s.g + kw.1 + kw.2
  let t2 := bsig0 s.a + maj s.a s.b s.c
  ⟨mask (t1 + t2), s.a, s.b, s.c, mask (s.d + t1), s.e, s.f, s.g⟩

/-- The big-endian words of a block. -/
def words : List Nat → List Nat
  | a :: b :: c :: d :: rest => (a * 16777216 + b * 65536 + c * 256 + d) :: words rest
  | _ => []

/-- The message schedule, extended by `n` words. -/
def expand : Nat → List Nat → List Nat
  | 0, w => w
  | n + 1, w =>
    let t := w.length
    expand n (w ++ [mask (ssig1 (w.getD (t - 2) 0) + w.getD (t - 7) 0 +
      ssig0 (w.getD (t - 15) 0) + w.getD (t - 16) 0)])

def compress (s : State) (block : List Nat) : State :=
  let r := (roundConstants.zip (expand 48 (words block))).foldl step s
  ⟨mask (s.a + r.a), mask (s.b + r.b), mask (s.c + r.c), mask (s.d + r.d),
    mask (s.e + r.e), mask (s.f + r.f), mask (s.g + r.g), mask (s.h + r.h)⟩

def bigEndian64 (n : Nat) : List Nat :=
  [n / 72057594037927936 % 256, n / 281474976710656 % 256, n / 1099511627776 % 256,
    n / 4294967296 % 256, n / 16777216 % 256, n / 65536 % 256, n / 256 % 256, n % 256]

def pad (msg : List Nat) : List Nat :=
  msg ++ 128 :: List.replicate ((119 - msg.length % 64) % 64) 0 ++ bigEndian64 (8 * msg.length)

def blocks : Nat → List Nat → List (List Nat)
  | 0, _ => []
  | _ + 1, [] => []
  | fuel + 1, b :: bs => (b :: bs).take 64 :: blocks fuel ((b :: bs).drop 64)

def wordBytes (w : Nat) : List Nat :=
  [w / 16777216 % 256, w / 65536 % 256, w / 256 % 256, w % 256]

def stateBytes (s : State) : List Nat :=
  wordBytes s.a ++ wordBytes s.b ++ wordBytes s.c ++ wordBytes s.d ++
    wordBytes s.e ++ wordBytes s.f ++ wordBytes s.g ++ wordBytes s.h

/-- The UTF-8 bytes of a character. -/
def utf8 (c : Char) : List Nat :=
  let n := c.toNat
  if n < 128 then [n]
  else if n < 2048 then [192 + n / 64, 128 + n % 64]
  else if n < 65536 then [224 + n / 4096, 128 + n / 64 % 64, 128 + n % 64]
  else [240 + n / 262144, 128 + n / 4096 % 64, 128 + n / 64 % 64, 128 + n % 64]

def hash (msg : List Nat) : State :=
  ((blocks (pad msg).length (pad msg)).foldl compress initial)

/-- SHA-256 of the UTF-8 bytes of a text. -/
def sum256 (t : Text) : Digest where
  bytes := stateBytes (hash (t.flatMap utf8))
  size_eq := rfl
  byte_lt := by
    intro b hb
    simp only [stateBytes, wordBytes, List.mem_append, List.mem_cons, List.mem_singleton,
      List.not_mem_nil, or_false] at hb
    omega

end SHA256

namespace Canonical

/-- Texts separated by commas. -/
def commaJoin : List Text → Text
  | [] => []
  | [x] => x
  | x :: xs => x ++ ',' :: commaJoin xs

def memberText (m : Text × Text) : Text := '"' :: m.1 ++ '"' :: ':' :: m.2

/-- The order of the members of a canonical object: by key, the keys compared as the strings
they denote. -/
def memberLE (a b : Text × Text) : Prop := textLE (JSON.unquote a.1) (JSON.unquote b.1) = true

instance : DecidableRel memberLE :=
  fun a b => inferInstanceAs (Decidable (textLE (JSON.unquote a.1) (JSON.unquote b.1) = true))

mutual
/-- A value with no insignificant space and the members of every object sorted by key. -/
def render : JSON.Value → Text
  | .null => ['n', 'u', 'l', 'l']
  | .bool true => ['t', 'r', 'u', 'e']
  | .bool false => ['f', 'a', 'l', 's', 'e']
  | .number lit => lit
  | .string body => '"' :: body ++ ['"']
  | .array elems => '[' :: commaJoin (renderElems elems) ++ [']']
  | .object members =>
    '{' :: commaJoin (((renderMembers members).insertionSort memberLE).map memberText) ++ ['}']
def renderElems : List JSON.Value → List Text
  | [] => []
  | v :: vs => render v :: renderElems vs
def renderMembers : List (Text × Text × JSON.Value) → List (Text × Text)
  | [] => []
  | (key, _, v) :: ms => (key, render v) :: renderMembers ms
end

/-- A canonical serialization; invalid JSON is an error. -/
def canonicalJSON (input : Text) : Option Text := (JSON.parse input).map render

end Canonical

/-- The top-level keys the redaction algorithm keeps. -/
def keptKeys : List Text :=
  ["event_id", "type", "room_id", "sender", "state_key", "content", "hashes", "signatures",
    "depth", "prev_events", "prev_state", "auth_events", "origin", "origin_server_ts",
    "membership"].map String.toList

/-- A redaction in the manner of one that decodes the event into a Go value and encodes it
again: the input must decode (so `null` is accepted), a `type` that is present must be a
string, and only the kept top-level keys are written back. -/
def sampleRedactEventJSON (eventJSON : Text) : Option Text :=
  match unmarshalMap eventJSON with
  | none => none
  | some event =>
    match (mapLookup event "type".toList).map fun raw => unmarshalString raw [] with
    | some none => none
    | _ => marshalMap (event.map fun es => es.filter fun e => e.1 ∈ keptKeys)

/-- The rule set of room versions 1 and 2: the identifier is the `event_id` of the event. -/
def sampleLegacy : RoomVersionImpl := ⟨sampleRedactEventJSON, EventFormatV1, 1⟩

/-- The rule set of room version 3: the hash in standard Base64. -/
def sampleHashStd : RoomVersionImpl := ⟨sampleRedactEventJSON, EventFormatV2, EventIDFormatV2⟩

/-- The rule set of room versions 4 to 11: the hash in URL-safe Base64. -/
def sampleHashURL : RoomVersionImpl := ⟨sampleRedactEventJSON, EventFormatV2, EventIDFormatV3⟩

def sampleGetRoomVersion (roomVersion : Text) : Option RoomVersionImpl :=
  if roomVersion ∈ ["1", "2"].map String.toList then some sampleLegacy
  else if roomVersion = "3".toList then some sampleHashStd
  else if roomVersion ∈ ["4", "5", "6", "7", "8", "9", "10", "11"].map String.toList then
    some sampleHashURL
  else none

def sampleEnv : Env := ⟨sampleGetRoomVersion, Canonical.canonicalJSON, SHA256.sum256⟩

/-- The event of the specification's scenario. -/
def sampleEvent : Text :=
  "\x7b\"type\":\"m.room.message\",\"content\":\x7b\"body\":\"hi\"\x7d,\"event_id\":\"$legacyABC\"\x7d".toList

/-- An event whose `type` is a number. -/
def badTypeEvent : Text :=
  "\x7b\"type\":5,\"content\":\x7b\"body\":\"hi\"\x7d,\"event_id\":\"$legacyABC\"\x7d".toList

/-- An event whose `event_id` is the empty string. -/
def emptyIDEvent : Text := "\x7b\"type\":\"m.room.message\",\"event_id\":\"\"\x7d".toList

/-- An event whose `event_id` is a number. -/
def numericIDEvent : Text := "\x7b\"type\":\"m.room.message\",\"event_id\":5\x7d".toList

/-- An environment whose only rule set pairs hash-derived events with the identifier format
of legacy events, which `eventIDForEvent` does not encode. -/
def unsupportedEnv : Env :=
  ⟨fun _ => some ⟨sampleRedactEventJSON, EventFormatV2, 1⟩, Canonical.canonicalJSON,
    SHA256.sum256⟩

/-! ## Notions the specification uses -/

/-- The top-level keys removed before hashing. -/
def identityKeys : List Text := [signaturesKey, unsignedKey, eventIDKey]

/-- A map without the given keys. -/
def withoutKeys (m : RawMap) (ks : List Text) : RawMap :=
  m.map fun es => es.filter fun e => e.1 ∉ ks

/-- The mapping that is canonically serialized and hashed: the redacted event without its
top-level keys `signatures`, `unsigned` and `event_id`.  It is `none` when redaction or
parsing fails. -/
def hashedMap (verImpl : RoomVersionImpl) (eventJSON : Text) : Option RawMap :=
  ((verImpl.redactEventJSON eventJSON).bind unmarshalMap).map fun event =>
    withoutKeys event identityKeys

/-- The canonical serialization of a mapping: `json.Marshal`, then `CanonicalJSON`. -/
def canonicalSerialization (env : Env) (m : RawMap) : Option Text :=
  (marshalMap m).bind env.canonicalJSON

/-- The canonical JSON of the redacted event with its top-level keys `signatures`,
`unsigned` and `event_id` removed: the text that is hashed.  It is `none` when redaction,
parsing or canonicalization fails. -/
def hashableEventJSON (env : Env) (verImpl : RoomVersionImpl) (eventJSON : Text) :
    Option Text :=
  (hashedMap verImpl eventJSON).bind (canonicalSerialization env)

/-- The alphabet of the Base64 scheme an identifier format declares. -/
def alphabetOf (format : EventIDFormat) : Text :=
  if format = EventIDFormatV2 then Base64.encodeStd else Base64.encodeURL

/-- The string a JSON text holds, when it is a string literal. -/
def jsonString (data : Text) : Option Text :=
  match JSON.parse data with
  | some (JSON.Value.string body) => some (JSON.unquote body)
  | _ => none

/-- The string held by a top-level field of an event, when the event is a JSON object with
that field and the field is a JSON string. -/
def topLevelString (eventJSON key : Text) : Option Text :=
  (unmarshalMap eventJSON).bind fun event => (mapLookup event key).bind jsonString


/-- The keys of the entries of a map. -/
def entryKeys (es : List (Text × Text)) : List Text := es.map Prod.fst

/-- Two maps hold the same value, or both none, under every key outside `ks`. -/
def agreeOutside (ks : List Text) (a b : List (Text × Text)) : Prop :=
  ∀ k ∈ entryKeys a ++ entryKeys b, k ∉ ks → mapLookup (some a) k = mapLookup (some b) k

instance (ks : List Text) (a b : List (Text × Text)) : Decidable (agreeOutside ks a b) :=
  inferInstanceAs (Decidable (∀ k ∈ entryKeys a ++ entryKeys b, _))

/-- Two events are JSON objects that differ at most in the presence or the value of the
top-level fields `ks`. -/
def differOnlyIn (ks : List Text) (event1 event2 : Text) : Prop :=
  match unmarshalMap event1, unmarshalMap event2 with
  | some (some a), some (some b) => agreeOutside ks a b
  | _, _ => False

instance (ks : List Text) (event1 event2 : Text) : Decidable (differOnlyIn ks event1 event2) := by
  unfold differOnlyIn
  split <;> infer_instance

/-- The scenario event with signatures, unsigned data and another identifier. -/
def signedEvent : Text :=
  ("\x7b\"signatures\":\x7b\"example.org\":\x7b\"ed25519:1\":\"c2ln\"\x7d\x7d," ++
    "\"type\":\"m.room.message\",\"unsigned\":\x7b\"age\":7\x7d," ++
    "\"content\":\x7b\"body\":\"hi\"\x7d,\"event_id\":\"$other\"\x7d").toList

/-- Two JSON texts hold, at nesting depth `depth`, the same value up to the order of object
keys and insignificant space: both are valid there and their renderings with sorted keys and
no space coincide. -/
def sameAt (depth : Nat) (a b : Text) : Prop :=
  match JSON.parseAt depth a, JSON.parseAt depth b with
  | some x, some y => Canonical.render x = Canonical.render y
  | _, _ => False

instance (depth : Nat) (a b : Text) : Decidable (sameAt depth a b) := by
  unfold sameAt
  split <;> infer_instance

/-- Two JSON documents are structurally equal: they hold the same value up to the order of
object keys and insignificant space. -/
def sameText (a b : Text) : Prop := sameAt 0 a b

instance (a b : Text) : Decidable (sameText a b) := inferInstanceAs (Decidable (sameAt 0 a b))

/-- Two raw values of members of the outermost object hold the same value up to the order of
object keys and insignificant space. -/
def sameValue (a b : Text) : Prop := sameAt 1 a b

instance (a b : Text) : Decidable (sameValue a b) := inferInstanceAs (Decidable (sameAt 1 a b))

/-- Two optional raw values are both present and hold the same value. -/
def valuesAlike (x y : Option Text) : Prop :=
  match x, y with
  | some a, some b => sameValue a b
  | _, _ => False

instance (x y : Option Text) : Decidable (valuesAlike x y) := by
  unfold valuesAlike
  split <;> infer_instance

/-- Two mappings are structurally equal: they have the same keys, and under each key values
that are the same up to the order of object keys and insignificant space. -/
def entriesAlike (a b : List (Text × Text)) : Prop :=
  ∀ k ∈ entryKeys a ++ entryKeys b, valuesAlike (mapLookup (some a) k) (mapLookup (some b) k)

instance (a b : List (Text × Text)) : Decidable (entriesAlike a b) :=
  inferInstanceAs (Decidable (∀ k ∈ entryKeys a ++ entryKeys b, _))

/-- Structural equality of two non-nil maps. -/
def mapsAlike (m1 m2 : RawMap) : Prop :=
  match m1, m2 with
  | some a, some b => entriesAlike a b
  | _, _ => False

instance (m1 m2 : RawMap) : Decidable (mapsAlike m1 m2) := by
  unfold mapsAlike
  split <;> infer_instance

/-- Two texts are serializations of the same logical event mapping: both are JSON objects,
and they differ only in the order of object keys and in insignificant space. -/
def sameEvent (event1 event2 : Text) : Prop :=
  match unmarshalMap event1, unmarshalMap event2 with
  | some m1, some m2 => mapsAlike m1 m2
  | _, _ => False

instance (event1 event2 : Text) : Decidable (sameEvent event1 event2) := by
  unfold sameEvent
  split <;> infer_instance

/-- The proviso of the specification on the canonical serialization: it maps structurally
equal documents to identical bytes. -/
def canonicalProviso (env : Env) : Prop :=
  ∀ a b, sameText a b → env.canonicalJSON a = env.canonicalJSON b

/-- The scenario event with the keys of the event and of its content in another order and
with extra space. -/
def contentEvent : Text :=
  ("\x7b\"type\":\"m.room.message\"," ++
    "\"content\":\x7b\"body\":\"hi\",\"msgtype\":\"m.text\"\x7d\x7d").toList

def contentEventReordered : Text :=
  ("\x7b \"content\" : \x7b \"msgtype\" : \"m.text\", \"body\" : \"hi\" \x7d,\n" ++
    "  \"type\" : \"m.room.message\" \x7d").toList

/-- The event whose `type` is a number, with its keys in another order and extra space. -/
def badTypeEventReordered : Text :=
  ("\x7b \"event_id\" : \"$legacyABC\", \"content\" : \x7b \"body\" : \"hi\" \x7d, " ++
    "\"type\" : 5 \x7d").toList

/-- A key with its ASCII letters in lower case: `encoding/json` matches the keys of an object
with the fields of a struct without regard to case. -/
def foldKey (k : Text) : Text :=
  k.map fun c => if 65 ≤ c.toNat ∧ c.toNat ≤ 90 then Char.ofNat (c.toNat + 32) else c

/-- A redaction in the manner of one that decodes the event into a Go struct with a field
tagged `type` and encodes it again: every member whose key matches `type` without regard to
case sets the field, in the order of the text, so the last one stays. -/
def structRedactEventJSON (eventJSON : Text) : Option Text :=
  match JSON.parse eventJSON with
  | some (JSON.Value.object members) =>
    match (members.filter fun m => foldKey (JSON.unquote m.1) = "type".toList).getLast? with
    | some m => marshalMap (some [("type".toList, m.2.1)])
    | none => marshalMap (some [])
  | _ => none

/-- An environment whose only rule set redacts by decoding into a struct; its events are
hash-derived with URL-safe Base64. -/
def structEnv : Env :=
  ⟨fun _ => some ⟨structRedactEventJSON, EventFormatV2, EventIDFormatV3⟩,
    Canonical.canonicalJSON, SHA256.sum256⟩

/-- An event with two keys that differ in case only. -/
def caseEvent : Text := "\x7b\"Type\":\"a\",\"type\":\"b\"\x7d".toList

/-- The same event with its two keys in the other order. -/
def caseEventReordered : Text := "\x7b\"type\":\"b\",\"Type\":\"a\"\x7d".toList

/-- What `json.Unmarshal` into a string makes of a value: the body of a string, nothing for
`null`, and an error for anything else. -/
def stringOrNull : JSON.Value → Option (Option Text)
  | .string body => some (some body)
  | .null => some none
  | _ => none

/-- A number literal starts with a minus sign or a digit. -/
def numberStart : JSON.Value → Prop
  | .number lit => ∃ c rest, lit = c :: rest ∧ (c = '-' ∨ JSON.isDigit c = true)
  | _ => True

/-! ## Notions for the metatheory of the JSON model -/

namespace JSON

/-- A character that `compactChars` copies in every state, leaving the state as it is. -/
def isPlain (c : Char) : Bool :=
  !(c == '<' || c == '>' || c == '&' || c.toNat == 0x2028 || c.toNat == 0x2029 ||
    c == '"' || c == '\\' || isSpace c)

/-- The bodies of the string literals the scanner accepts. -/
inductive ValidBody : Text → Prop where
  | nil : ValidBody []
  | unicode (h1 h2 h3 h4 : Char) (body : Text) :
      (isHex h1 && isHex h2 && isHex h3 && isHex h4) = true → ValidBody body →
      ValidBody ('\\' :: 'u' :: h1 :: h2 :: h3 :: h4 :: body)
  | escape (e : Char) (body : Text) :
      e ≠ 'u' → isSimpleEscape e = true → ValidBody body → ValidBody ('\\' :: e :: body)
  | char (c : Char) (body : Text) :
      c ≠ '"' → c ≠ '\\' → ¬ c.toNat < 32 → ValidBody body → ValidBody (c :: body)

/-- A text that is empty or starts with a character that fails `p`. -/
def HeadNot (p : Char → Bool) (t : Text) : Prop := ∀ c rest, t = c :: rest → p c = false

/-- Compaction commutes with a parser: what the parser consumes is compacted to a text on
which, in front of any text that ends a number, the parser yields the compacted result. -/
def Compacts {α : Type} (parser : Nat → Nat → Text → Option (α × Text)) (esc : α → α)
    (fuel : Nat) : Prop :=
  ∀ depth s x rest, parser fuel depth s = some (x, rest) →
    ∃ p q, s = p ++ rest ∧
      (∃ c q1, q = c :: q1 ∧ isSpace c = false ∧ c ≠ ']' ∧ c ≠ '}') ∧
      (∀ z, compactChars false (p ++ z) = q ++ compactChars false z) ∧
      ∀ t, HeadNot isNumberChar t → parser fuel depth (q ++ t) = some (esc x, t)

end JSON


/-- Every result of a parser has a property. -/
def Yields {α : Type} (parser : Nat → Nat → Text → Option (α × Text)) (P : α → Prop)
    (fuel : Nat) : Prop :=
  ∀ depth s x rest, parser fuel depth s = some (x, rest) → P x

/-- The canonical rendering of the compacted value is the compacted canonical rendering of
the value, in front of any text. -/
def RendersCompact (v : JSON.Value) : Prop :=
  ∀ z, JSON.compactChars false (Canonical.render v ++ z) =
    Canonical.render (JSON.compactValue v) ++ JSON.compactChars false z

/-- What compaction makes of a member of a rendered object. -/
def compactMember (m : Text × Text) : Text × Text :=
  (JSON.compactChars true m.1, JSON.compactChars false m.2)

/-- The member of the canonical rendering that an entry of a marshalled map gives: the key
as `json.Marshal` writes it, and the compacted rendering of the value. -/
def renderedEntry (e : Text × Text) : Text × Text :=
  (JSON.quoteBody e.1,
    match JSON.parseAt 1 e.2 with
    | some v => JSON.compactChars false (Canonical.render v)
    | none => [])

/-- The canonical rendering of an object, given its rendered members. -/
def renderObject (members : List (Text × Text)) : Text :=
  '{' :: Canonical.commaJoin ((members.insertionSort Canonical.memberLE).map
    Canonical.memberText) ++ ['}']
/-! ## The shape of a derivation -/

theorem withoutKeys_identityKeys (m : RawMap) :
    mapDelete (mapDelete (mapDelete m signaturesKey) unsignedKey) eventIDKey =
      withoutKeys m identityKeys := by
  cases m with
  | none => rfl
  | some es =>
    simp only [mapDelete, withoutKeys, identityKeys, Option.map_some', List.filter_filter]
    congr 1
    apply List.filter_congr
    intro e _
    simp only [List.mem_cons, List.mem_singleton, List.not_mem_nil, or_false, not_or,
      decide_not, Bool.and_eq_true, Bool.not_eq_true', decide_eq_false_iff_not, ne_eq,
      Bool.decide_and, decide_eq_true_eq]
    cases decide (e.1 = eventIDKey) <;> cases decide (e.1 = unsignedKey) <;>
      cases decide (e.1 = signaturesKey) <;> rfl

theorem find_filter_of_ne (es : List (Text × Text)) (k j : Text) (h : j ≠ k) :
    (es.filter fun e => e.1 ≠ j).find? (fun e => e.1 = k) = es.find? fun e => e.1 = k := by
  induction es with
  | nil => rfl
  | cons e es ih =>
    obtain ⟨k1, v1⟩ := e
    by_cases hj : k1 = j
    · subst hj
      have hk : ¬ k1 = k := h
      rw [List.filter_cons, List.find?_cons]
      simpa [hk] using ih
    · rw [List.filter_cons]
      simp only [ne_eq, hj, not_false_eq_true, decide_True, ↓reduceIte, List.find?_cons]
      split
      · rfl
      · exact ih

theorem mapLookup_mapDelete_of_ne (m : RawMap) (k j : Text) (h : j ≠ k) :
    mapLookup (mapDelete m j) k = mapLookup m k := by
  cases m with
  | none => rfl
  | some es =>
    simp only [mapLookup, mapDelete, Option.map_some']
    rw [find_filter_of_ne es k j h]

theorem deriveEventID_eq (env : Env) (eventJSON roomVerStr : Text) (verImpl : RoomVersionImpl)
    (hver : env.getRoomVersion roomVerStr = some verImpl) :
    deriveEventID env [eventJSON, roomVerStr] =
      match verImpl.redactEventJSON eventJSON with
      | none => .error .redaction
      | some redactedJSON =>
        match unmarshalMap redactedJSON with
        | none => .error .parse
        | some event =>
          match marshalMap (withoutKeys event identityKeys) with
          | none => .error .marshal
          | some hashable =>
            match env.canonicalJSON hashable with
            | none => .error .canonicalJSON
            | some canonical =>
              encodeByFormat verImpl (mapIndex event eventIDKey) (env.sum256 canonical) := by
  have hidx : ∀ event : RawMap,
      mapIndex (mapDelete (mapDelete event signaturesKey) unsignedKey) eventIDKey =
        mapIndex event eventIDKey := by
    intro event
    simp only [mapIndex]
    rw [mapLookup_mapDelete_of_ne _ _ _ (by decide), mapLookup_mapDelete_of_ne _ _ _ (by decide)]
  simp only [deriveEventID, hver, hidx, withoutKeys_identityKeys]
  cases verImpl.redactEventJSON eventJSON with
  | none => rfl
  | some r =>
    dsimp only
    cases unmarshalMap r with
    | none => rfl
    | some event =>
      dsimp only
      cases marshalMap (withoutKeys event identityKeys) with
      | none => rfl
      | some h =>
        dsimp only
        cases env.canonicalJSON h with
        | none => rfl
        | some c => rfl

/-! ## Base64 without padding -/

namespace Base64

theorem encodeSextet_mod (alphabet : Text) (v : Nat) :
    encodeSextet alphabet (v % 64) = encodeSextet alphabet v := by
  simp [encodeSextet]

theorem encodeToString_eq_map (alphabet : Text) (bytes : List Nat) :
    encodeToString alphabet bytes = (sextetsOf bytes).map (encodeSextet alphabet) := by
  induction bytes using sextetsOf.induct with
  | case1 a b c rest ih =>
    simp only [encodeToString, sextetsOf, List.map_cons, encodeSextet_mod, ih]
  | case2 a b => simp only [encodeToString, sextetsOf, List.map_cons, encodeSextet_mod, List.map_nil]
  | case3 a => simp only [encodeToString, sextetsOf, List.map_cons, encodeSextet_mod, List.map_nil]
  | case4 => rfl

theorem sextetsOf_lt (bytes : List Nat) : ∀ v ∈ sextetsOf bytes, v < 64 := by
  induction bytes using sextetsOf.induct with
  | case1 a b c rest ih =>
    intro v hv
    simp only [sextetsOf, List.mem_cons] at hv
    rcases hv with h | h | h | h | h
    · omega
    · omega
    · omega
    · omega
    · exact ih v h
  | case2 a b =>
    intro v hv
    simp only [sextetsOf, List.mem_cons, List.mem_singleton, List.not_mem_nil, or_false] at hv
    omega
  | case3 a =>
    intro v hv
    simp only [sextetsOf, List.mem_cons, List.mem_singleton, List.not_mem_nil, or_false] at hv
    omega
  | case4 => intro v hv; simp [sextetsOf] at hv

theorem length_sextetsOf (bytes : List Nat) :
    (sextetsOf bytes).length = (bytes.length * 4 + 2) / 3 := by
  induction bytes using sextetsOf.induct with
  | case1 a b c rest ih =>
    simp only [sextetsOf, List.length_cons, ih]
    omega
  | case2 a b => simp [sextetsOf]
  | case3 a => simp [sextetsOf]
  | case4 => rfl

theorem sextets_recompose (val : Nat) (h : val < 16777216) :
    val / 262144 % 64 * 262144 + val / 4096 % 64 * 4096 + val / 64 % 64 * 64 + val % 64 =
      val := by
  omega

theorem decodeQuanta_sextetsOf (bytes : List Nat) (h : ∀ b ∈ bytes, b < 256) :
    decodeQuanta (sextetsOf bytes) = some bytes := by
  induction bytes using sextetsOf.induct with
  | case1 a b c rest ih =>
    have ha : a < 256 := h a (by simp)
    have hb : b < 256 := h b (by simp)
    have hc : c < 256 := h c (by simp)
    have hrest : ∀ x ∈ rest, x < 256 := fun x hx => h x (by simp [hx])
    simp only [sextetsOf, decodeQuanta, ih hrest, Option.map_some', Option.some.injEq,
      List.cons.injEq, and_true]
    rw [sextets_recompose _ (by omega)]
    refine ⟨?_, ?_, ?_⟩ <;> omega
  | case2 a b =>
    have ha : a < 256 := h a (by simp)
    have hb : b < 256 := h b (by simp)
    simp only [sextetsOf, decodeQuanta, Option.some.injEq, List.cons.injEq, and_true]
    refine ⟨?_, ?_⟩ <;> omega
  | case3 a =>
    have ha : a < 256 := h a (by simp)
    simp only [sextetsOf, decodeQuanta, Option.some.injEq, List.cons.injEq, and_true]
    omega
  | case4 => rfl

theorem goodAlphabet_encodeStd : GoodAlphabet encodeStd :=
  ⟨by decide, by decide, by decide, by decide, by decide⟩

theorem goodAlphabet_encodeURL : GoodAlphabet encodeURL :=
  ⟨by decide, by decide, by decide, by decide, by decide⟩

theorem encodeSextet_mem {alphabet : Text} (h : GoodAlphabet alphabet) (v : Nat) :
    encodeSextet alphabet v ∈ alphabet := by
  have hlt : v % 64 < alphabet.length := by rw [h.length_eq]; omega
  simp only [encodeSextet, List.getD_eq_getElem?_getD, List.getElem?_eq_getElem hlt,
    Option.getD_some]
  exact List.getElem_mem _

theorem decodeSextet_encodeSextet {alphabet : Text} (h : GoodAlphabet alphabet) (v : Nat)
    (hv : v < 64) : decodeSextet alphabet (encodeSextet alphabet v) = some v := by
  have hlt : v < alphabet.length := by rw [h.length_eq]; exact hv
  have hmod : v % 64 = v := Nat.mod_eq_of_lt hv
  have henc : encodeSextet alphabet v = alphabet[v] := by
    simp only [encodeSextet, hmod, List.getD_eq_getElem?_getD, List.getElem?_eq_getElem hlt,
      Option.getD_some]
  rw [henc, decodeSextet, if_pos (List.getElem_mem _)]
  congr 1
  exact List.indexOf_getElem h.nodup v hlt

theorem sextets_map_encodeSextet {alphabet : Text} (h : GoodAlphabet alphabet) (vs : List Nat)
    (hvs : ∀ v ∈ vs, v < 64) : sextets alphabet (vs.map (encodeSextet alphabet)) = some vs := by
  induction vs with
  | nil => rfl
  | cons v vs ih =>
    have hmem := encodeSextet_mem h v
    have hn : ¬ (encodeSextet alphabet v = '\n' ∨ encodeSextet alphabet v = '\r') := by
      rintro (e | e)
      · exact h.no_newline (e ▸ hmem)
      · exact h.no_return (e ▸ hmem)
    simp only [List.map_cons, sextets, if_neg hn,
      decodeSextet_encodeSextet h v (hvs v (by simp)), ih fun x hx => hvs x (by simp [hx])]

theorem decodeString_encodeToString {alphabet : Text} (h : GoodAlphabet alphabet)
    (bytes : List Nat) (hbytes : ∀ b ∈ bytes, b < 256) :
    decodeString alphabet (encodeToString alphabet bytes) = some bytes := by
  rw [decodeString, encodeToString_eq_map, sextets_map_encodeSextet h _ (sextetsOf_lt bytes)]
  exact decodeQuanta_sextetsOf bytes hbytes

theorem length_encodeToString (alphabet : Text) (bytes : List Nat) :
    (encodeToString alphabet bytes).length = (bytes.length * 4 + 2) / 3 := by
  rw [encodeToString_eq_map, List.length_map, length_sextetsOf]

theorem mem_alphabet_of_mem_encodeToString {alphabet : Text} (h : GoodAlphabet alphabet)
    (bytes : List Nat) : ∀ c ∈ encodeToString alphabet bytes, c ∈ alphabet := by
  intro c hc
  rw [encodeToString_eq_map, List.mem_map] at hc
  obtain ⟨v, _, rfl⟩ := hc
  exact encodeSextet_mem h v

end Base64

/-! ## The fuel of the JSON parser -/

namespace JSON

theorem length_skipSpace_le (s : Text) : (skipSpace s).length ≤ s.length := by
  induction s with
  | nil => simp [skipSpace]
  | cons c cs ih =>
    simp only [skipSpace]
    split
    · exact Nat.le_succ_of_le ih
    · exact Nat.le_refl _

theorem length_stripLit (p s rest : Text) (h : stripLit p s = some rest) :
    rest.length ≤ s.length := by
  induction p generalizing s with
  | nil => simp only [stripLit, Option.some.injEq] at h; rw [h]
  | cons x xs ih =>
    cases s with
    | nil => simp [stripLit] at h
    | cons c cs =>
      simp only [stripLit] at h
      split at h
      · exact Nat.le_succ_of_le (ih cs h)
      · exact absurd h (by simp)

theorem length_scanString_aux (n : Nat) : ∀ (s body rest : Text), s.length ≤ n →
    scanString s = some (body, rest) → rest.length < s.length := by
  induction n with
  | zero =>
    intro s body rest hn h
    cases s with
    | nil => simp [scanString] at h
    | cons c cs => simp at hn
  | succ n ih =>
    intro s body rest hn h
    unfold scanString at h
    split at h
    · exact absurd h (by simp)
    · next c cs =>
      simp only [List.length_cons] at hn ⊢
      split at h
      · simp only [Option.some.injEq, Prod.mk.injEq] at h
        rw [← h.2]; omega
      · split at h
        · split at h
          · exact absurd h (by simp)
          · next e rest1 =>
            split at h
            · split at h
              · next h1 h2 h3 h4 rest2 =>
                split at h
                · simp only [Option.map_eq_some', Prod.mk.injEq] at h
                  obtain ⟨p, hp, _, hr⟩ := h
                  have := ih rest2 p.1 p.2 (by simp only [List.length_cons] at hn; omega) hp
                  rw [← hr]
                  simp only [List.length_cons]
                  omega
                · exact absurd h (by simp)
              · exact absurd h (by simp)
            · split at h
              · simp only [Option.map_eq_some', Prod.mk.injEq] at h
                obtain ⟨p, hp, _, hr⟩ := h
                have := ih rest1 p.1 p.2 (by simp only [List.length_cons] at hn; omega) hp
                rw [← hr]
                simp only [List.length_cons]
                omega
              · exact absurd h (by simp)
        · split at h
          · exact absurd h (by simp)
          · simp only [Option.map_eq_some', Prod.mk.injEq] at h
            obtain ⟨p, hp, _, hr⟩ := h
            have := ih cs p.1 p.2 (by omega) hp
            rw [← hr]
            omega

theorem length_scanString (s body rest : Text) (h : scanString s = some (body, rest)) :
    rest.length < s.length :=
  length_scanString_aux s.length s body rest (Nat.le_refl _) h

theorem length_dropWhile_le (p : Char → Bool) (s : Text) : (s.dropWhile p).length ≤ s.length := by
  induction s with
  | nil => simp
  | cons c cs ih =>
    simp only [List.dropWhile_cons]
    split
    · exact Nat.le_succ_of_le ih
    · exact Nat.le_refl _

theorem length_scanMinus (s : Text) : (scanMinus s).2.length ≤ s.length := by
  cases s with
  | nil => simp [scanMinus]
  | cons c cs =>
    simp only [scanMinus]
    split <;> simp

theorem length_scanSign (s : Text) : (scanSign s).2.length ≤ s.length := by
  cases s with
  | nil => simp [scanSign]
  | cons c cs =>
    simp only [scanSign]
    split <;> simp

theorem length_scanInt (s i rest : Text) (h : scanInt s = some (i, rest)) :
    rest.length < s.length := by
  cases s with
  | nil => simp [scanInt] at h
  | cons c cs =>
    simp only [scanInt] at h
    split at h
    · simp only [Option.some.injEq, Prod.mk.injEq] at h
      rw [← h.2]; simp
    · split at h
      · simp only [Option.some.injEq, Prod.mk.injEq] at h
        rw [← h.2]
        have := length_dropWhile_le isDigit cs
        simp only [List.length_cons]
        omega
      · exact absurd h (by simp)

theorem length_scanFrac (s f rest : Text) (h : scanFrac s = some (f, rest)) :
    rest.length ≤ s.length := by
  cases s with
  | nil =>
    simp only [scanFrac, Option.some.injEq, Prod.mk.injEq] at h
    rw [← h.2]
  | cons c cs =>
    simp only [scanFrac] at h
    split at h
    · split at h
      · exact absurd h (by simp)
      · simp only [Option.some.injEq, Prod.mk.injEq] at h
        rw [← h.2]
        have := length_dropWhile_le isDigit cs
        simp only [List.length_cons]
        omega
    · simp only [Option.some.injEq, Prod.mk.injEq] at h
      rw [← h.2]

theorem length_scanExp (s e rest : Text) (h : scanExp s = some (e, rest)) :
    rest.length ≤ s.length := by
  cases s with
  | nil =>
    simp only [scanExp, Option.some.injEq, Prod.mk.injEq] at h
    rw [← h.2]
  | cons c cs =>
    simp only [scanExp] at h
    split at h
    · split at h
      · exact absurd h (by simp)
      · simp only [Option.some.injEq, Prod.mk.injEq] at h
        rw [← h.2]
        have h1 := length_dropWhile_le isDigit (scanSign cs).2
        have h2 := length_scanSign cs
        simp only [List.length_cons]
        omega
    · simp only [Option.some.injEq, Prod.mk.injEq] at h
      rw [← h.2]

theorem length_scanNumber (s lit rest : Text) (h : scanNumber s = some (lit, rest)) :
    rest.length < s.length := by
  unfold scanNumber at h
  dsimp only at h
  have hminus := length_scanMinus s
  split at h
  · exact absurd h (by simp)
  · next i s2 hi =>
    have hint := length_scanInt _ _ _ hi
    split at h
    · exact absurd h (by simp)
    · next f s3 hf =>
      have hfrac := length_scanFrac _ _ _ hf
      split at h
      · exact absurd h (by simp)
      · next e s4 he =>
        have hexp := length_scanExp _ _ _ he
        simp only [Option.some.injEq, Prod.mk.injEq] at h
        rw [← h.2]
        omega

theorem fuelEnough_parseValue_succ (f : Nat) (hE : FuelEnough parseElems f)
    (hM : FuelEnough parseMembers f) : FuelEnough parseValue (f + 1) := by
  intro depth s v rest h
  unfold parseValue at h
  have hs := length_skipSpace_le s
  split at h
  · exact absurd h (by simp)
  · next c cs hsk =>
    rw [hsk] at hs
    simp only [List.length_cons] at hs
    have hcs := length_skipSpace_le cs
    split at h
    · next hc =>
      split at h
      · exact absurd h (by simp)
      · next hdepth =>
        split at h
        · exact absurd h (by simp)
        · next d rest1 hsk1 =>
          rw [hsk1] at hcs
          simp only [List.length_cons] at hcs
          split at h
          · next hd =>
            simp only [Option.some.injEq, Prod.mk.injEq] at h
            obtain ⟨hv, hr⟩ := h
            subst hr
            refine ⟨by omega, ?_⟩
            intro g hg
            cases g with
            | zero => omega
            | succ g =>
              simp only [parseValue, hsk, hc, if_true, hdepth, if_false, hsk1, hd, hv]
          · next hd =>
            simp only [Option.map_eq_some', Prod.mk.injEq] at h
            obtain ⟨p, hp, hv, hr⟩ := h
            obtain ⟨hlen, hfuel⟩ := hM _ _ _ _ hp
            simp only [List.length_cons] at hlen
            subst hr
            refine ⟨by omega, ?_⟩
            intro g hg
            cases g with
            | zero => omega
            | succ g =>
              simp only [parseValue, hsk, hc, if_true, hdepth, if_false, hsk1, hd,
                hfuel g (by simp only [List.length_cons]; omega), Option.map_some', hv]
    · next hc =>
      split at h
      · next hc2 =>
        split at h
        · exact absurd h (by simp)
        · next hdepth =>
          split at h
          · exact absurd h (by simp)
          · next d rest1 hsk1 =>
            rw [hsk1] at hcs
            simp only [List.length_cons] at hcs
            split at h
            · next hd =>
              simp only [Option.some.injEq, Prod.mk.injEq] at h
              obtain ⟨hv, hr⟩ := h
              subst hr
              refine ⟨by omega, ?_⟩
              intro g hg
              cases g with
              | zero => omega
              | succ g =>
                simp only [parseValue, hsk, hc2, (by decide : ¬ ('[' : Char) = '{'), if_true, if_false,
                  hdepth, hsk1, hd, hv]
            · next hd =>
              simp only [Option.map_eq_some', Prod.mk.injEq] at h
              obtain ⟨p, hp, hv, hr⟩ := h
              obtain ⟨hlen, hfuel⟩ := hE _ _ _ _ hp
              simp only [List.length_cons] at hlen
              subst hr
              refine ⟨by omega, ?_⟩
              intro g hg
              cases g with
              | zero => omega
              | succ g =>
                simp only [parseValue, hsk, hc2, (by decide : ¬ ('[' : Char) = '{'), if_true, if_false,
                  hdepth, hsk1, hd,
                  hfuel g (by simp only [List.length_cons]; omega), Option.map_some', hv]
      · next hc2 =>
        have hatom : ∀ (r : Option (Value × Text)),
            (∀ g, parseValue (g + 1) depth s = r) → r = some (v, rest) →
            rest.length ≤ cs.length →
            rest.length < s.length ∧
              ∀ g, s.length - rest.length < g → parseValue g depth s = some (v, rest) := by
          intro r hr1 hr2 hlen
          refine ⟨by omega, ?_⟩
          intro g hg
          cases g with
          | zero => omega
          | succ g => rw [hr1 g, hr2]
        split at h
        · next hc3 =>
          refine hatom _ (fun g => by
            simp only [parseValue, hsk, if_neg hc, if_neg hc2, if_pos hc3]) h ?_
          simp only [Option.map_eq_some', Prod.mk.injEq] at h
          obtain ⟨p, hp, _, hr⟩ := h
          have := length_scanString _ _ _ hp
          rw [← hr]
          omega
        · next hc3 =>
          split at h
          · next hc4 =>
            refine hatom _ (fun g => by
              simp only [parseValue, hsk, if_neg hc, if_neg hc2, if_neg hc3, if_pos hc4]) h ?_
            simp only [Option.map_eq_some', Prod.mk.injEq] at h
            obtain ⟨p, hp, _, hr⟩ := h
            have := length_stripLit _ _ _ hp
            rw [← hr]
            omega
          · next hc4 =>
            split at h
            · next hc5 =>
              refine hatom _ (fun g => by
                simp only [parseValue, hsk, if_neg hc, if_neg hc2, if_neg hc3, if_neg hc4,
                  if_pos hc5]) h ?_
              simp only [Option.map_eq_some', Prod.mk.injEq] at h
              obtain ⟨p, hp, _, hr⟩ := h
              have := length_stripLit _ _ _ hp
              rw [← hr]
              omega
            · next hc5 =>
              split at h
              · next hc6 =>
                refine hatom _ (fun g => by
                  simp only [parseValue, hsk, if_neg hc, if_neg hc2, if_neg hc3, if_neg hc4,
                    if_neg hc5, if_pos hc6]) h ?_
                simp only [Option.map_eq_some', Prod.mk.injEq] at h
                obtain ⟨p, hp, _, hr⟩ := h
                have := length_stripLit _ _ _ hp
                rw [← hr]
                omega
              · next hc6 =>
                refine hatom _ (fun g => by
                  simp only [parseValue, hsk, if_neg hc, if_neg hc2, if_neg hc3, if_neg hc4,
                    if_neg hc5, if_neg hc6]) h ?_
                simp only [Option.map_eq_some', Prod.mk.injEq] at h
                obtain ⟨p, hp, _, hr⟩ := h
                have := length_scanNumber _ _ _ hp
                simp only [List.length_cons] at this
                rw [← hr]
                omega

theorem fuelEnough_parseElems_succ (f : Nat) (hV : FuelEnough parseValue f)
    (hE : FuelEnough parseElems f) : FuelEnough parseElems (f + 1) := by
  intro depth s vs rest h
  unfold parseElems at h
  split at h
  · exact absurd h (by simp)
  · next v rest0 hv =>
    obtain ⟨hlen, hfuel⟩ := hV _ _ _ _ hv
    have hsk0 := length_skipSpace_le rest0
    split at h
    · exact absurd h (by simp)
    · next c rest1 hsk =>
      rw [hsk] at hsk0
      simp only [List.length_cons] at hsk0
      split at h
      · next hc =>
        simp only [Option.map_eq_some', Prod.mk.injEq] at h
        obtain ⟨p, hp, hvs, hr⟩ := h
        obtain ⟨hlen1, hfuel1⟩ := hE _ _ _ _ hp
        subst hr
        refine ⟨by omega, ?_⟩
        intro g hg
        cases g with
        | zero => omega
        | succ g =>
          simp only [parseElems, hfuel g (by omega), hsk, if_pos hc, hfuel1 g (by omega),
            Option.map_some', hvs]
      · next hc =>
        split at h
        · next hc2 =>
          simp only [Option.some.injEq, Prod.mk.injEq] at h
          obtain ⟨hvs, hr⟩ := h
          subst hr
          refine ⟨by omega, ?_⟩
          intro g hg
          cases g with
          | zero => omega
          | succ g =>
            simp only [parseElems, hfuel g (by omega), hsk, if_neg hc, if_pos hc2, hvs]
        · exact absurd h (by simp)

theorem fuelEnough_parseMembers_succ (f : Nat) (hV : FuelEnough parseValue f)
    (hM : FuelEnough parseMembers f) : FuelEnough parseMembers (f + 1) := by
  intro depth s ms rest h
  unfold parseMembers at h
  have hs := length_skipSpace_le s
  split at h
  · exact absurd h (by simp)
  · next q rest0 hsk =>
    rw [hsk] at hs
    simp only [List.length_cons] at hs
    split at h
    · next hq =>
      split at h
      · exact absurd h (by simp)
      · next key rest1 hkey =>
        have hk := length_scanString _ _ _ hkey
        have hsk1' := length_skipSpace_le rest1
        split at h
        · exact absurd h (by simp)
        · next c rest2 hsk1 =>
          rw [hsk1] at hsk1'
          simp only [List.length_cons] at hsk1'
          split at h
          · next hc =>
            split at h
            · exact absurd h (by simp)
            · next v rest3 hv =>
              obtain ⟨hlen, hfuel⟩ := hV _ _ _ _ hv
              have hsk3' := length_skipSpace_le rest3
              dsimp only at h
              split at h
              · exact absurd h (by simp)
              · next d rest4 hsk3 =>
                rw [hsk3] at hsk3'
                simp only [List.length_cons] at hsk3'
                split at h
                · next hd =>
                  simp only [Option.map_eq_some', Prod.mk.injEq] at h
                  obtain ⟨p, hp, hms, hr⟩ := h
                  obtain ⟨hlen1, hfuel1⟩ := hM _ _ _ _ hp
                  subst hr
                  refine ⟨by omega, ?_⟩
                  intro g hg
                  cases g with
                  | zero => omega
                  | succ g =>
                    simp only [parseMembers, hsk, if_pos hq, hkey, hsk1, if_pos hc,
                      hfuel g (by omega), hsk3, if_pos hd, hfuel1 g (by omega),
                      Option.map_some', hms]
                · next hd =>
                  split at h
                  · next hd2 =>
                    simp only [Option.some.injEq, Prod.mk.injEq] at h
                    obtain ⟨hms, hr⟩ := h
                    subst hr
                    refine ⟨by omega, ?_⟩
                    intro g hg
                    cases g with
                    | zero => omega
                    | succ g =>
                      simp only [parseMembers, hsk, if_pos hq, hkey, hsk1, if_pos hc,
                        hfuel g (by omega), hsk3, if_neg hd, if_pos hd2, hms]
                  · exact absurd h (by simp)
          · exact absurd h (by simp)
    · exact absurd h (by simp)

theorem fuelEnough_all (f : Nat) :
    FuelEnough parseValue f ∧ FuelEnough parseElems f ∧ FuelEnough parseMembers f := by
  induction f with
  | zero =>
    refine ⟨?_, ?_, ?_⟩ <;> intro depth s x rest h
    · simp [parseValue] at h
    · simp [parseElems] at h
    · simp [parseMembers] at h
  | succ f ih =>
    exact ⟨fuelEnough_parseValue_succ f ih.2.1 ih.2.2,
      fuelEnough_parseElems_succ f ih.1 ih.2.1, fuelEnough_parseMembers_succ f ih.1 ih.2.2⟩

/-- The fuel `parse` gives the parser is enough: a document that parses with some amount of
fuel parses with that of `parse`, to the same value. -/
theorem parse_of_parseValue (fuel : Nat) (s : Text) (v : Value) (rest : Text)
    (h : parseValue fuel 0 s = some (v, rest)) (hrest : skipSpace rest = []) :
    parse s = some v := by
  obtain ⟨_, hfuel⟩ := (fuelEnough_all fuel).1 0 s v rest h
  simp only [parse, hfuel (s.length + 1) (by omega), hrest, List.isEmpty_nil, if_true]

end JSON

/-! ## Maps and the order of their keys -/

theorem textLE_total (a b : Text) : textLE a b = true ∨ textLE b a = true := by
  induction a generalizing b with
  | nil => exact Or.inl (by cases b <;> rfl)
  | cons x xs ih =>
    cases b with
    | nil => exact Or.inr rfl
    | cons y ys =>
      simp only [textLE]
      by_cases h1 : x.toNat < y.toNat
      · simp [h1]
      · by_cases h2 : y.toNat < x.toNat
        · simp [h2]
        · simp only [h1, h2, if_false]
          exact ih ys

theorem textLE_trans (a b c : Text) (hab : textLE a b = true) (hbc : textLE b c = true) :
    textLE a c = true := by
  induction a generalizing b c with
  | nil => cases c <;> rfl
  | cons x xs ih =>
    cases b with
    | nil => simp [textLE] at hab
    | cons y ys =>
      cases c with
      | nil => simp [textLE] at hbc
      | cons z zs =>
        simp only [textLE] at hab hbc ⊢
        by_cases hxy : x.toNat < y.toNat
        · by_cases hyz : y.toNat < z.toNat
          · simp [show x.toNat < z.toNat by omega]
          · by_cases hzy : z.toNat < y.toNat
            · simp [hyz, hzy] at hbc
            · simp [show x.toNat < z.toNat by omega]
        · by_cases hyx : y.toNat < x.toNat
          · simp [hxy, hyx] at hab
          · simp only [hxy, hyx, if_false] at hab
            by_cases hyz : y.toNat < z.toNat
            · simp [show x.toNat < z.toNat by omega]
            · by_cases hzy : z.toNat < y.toNat
              · simp [hyz, hzy] at hbc
              · simp only [hyz, hzy, if_false] at hbc
                simp only [show ¬ x.toNat < z.toNat by omega, show ¬ z.toNat < x.toNat by omega,
                  if_false]
                exact ih ys zs hab hbc

theorem char_eq_of_toNat_eq (x y : Char) (h : x.toNat = y.toNat) : x = y := by
  apply Char.ext
  apply UInt32.ext
  exact h

theorem textLE_antisymm (a b : Text) (hab : textLE a b = true) (hba : textLE b a = true) :
    a = b := by
  induction a generalizing b with
  | nil =>
    cases b with
    | nil => rfl
    | cons y ys => simp [textLE] at hba
  | cons x xs ih =>
    cases b with
    | nil => simp [textLE] at hab
    | cons y ys =>
      simp only [textLE] at hab hba
      by_cases hxy : x.toNat < y.toNat
      · simp [hxy, show ¬ y.toNat < x.toNat by omega] at hba
      · by_cases hyx : y.toNat < x.toNat
        · simp [hxy, hyx] at hab
        · simp only [hxy, hyx, if_false] at hab hba
          rw [char_eq_of_toNat_eq x y (by omega), ih ys hab hba]

theorem entryKeys_setEntry_nodup (k v : Text) (es : List (Text × Text))
    (h : (entryKeys es).Nodup) : (entryKeys (setEntry k v es)).Nodup := by
  have hmem : ∀ es : List (Text × Text), ∀ j, j ∈ entryKeys (setEntry k v es) →
      j = k ∨ j ∈ entryKeys es := by
    intro es
    induction es with
    | nil => intro j hj; simpa [setEntry, entryKeys] using hj
    | cons e es ih =>
      intro j hj
      obtain ⟨k1, v1⟩ := e
      simp only [setEntry] at hj
      split at hj
      · simp only [entryKeys, List.map_cons, List.mem_cons] at hj ⊢
        rcases hj with h | h
        · exact Or.inl h
        · exact Or.inr (Or.inr h)
      · simp only [entryKeys, List.map_cons, List.mem_cons] at hj ⊢
        rcases hj with h | h
        · exact Or.inr (Or.inl h)
        · rcases ih j h with h | h
          · exact Or.inl h
          · exact Or.inr (Or.inr h)
  induction es with
  | nil => simp [setEntry, entryKeys]
  | cons e es ih =>
    obtain ⟨k1, v1⟩ := e
    simp only [entryKeys, List.map_cons, List.nodup_cons] at h
    simp only [setEntry]
    split
    · next heq =>
      subst heq
      simpa [entryKeys] using h
    · next hne =>
      simp only [entryKeys, List.map_cons, List.nodup_cons]
      refine ⟨?_, ih h.2⟩
      intro hk1
      rcases hmem es k1 hk1 with h' | h'
      · exact hne h'
      · exact h.1 h'

theorem entryKeys_foldl_setEntry_nodup {α : Type} (f : α → Text × Text) (xs : List α)
    (es : List (Text × Text)) (h : (entryKeys es).Nodup) :
    (entryKeys (xs.foldl (fun es x => setEntry (f x).1 (f x).2 es) es)).Nodup := by
  induction xs generalizing es with
  | nil => exact h
  | cons x xs ih => exact ih _ (entryKeys_setEntry_nodup _ _ es h)

theorem entryKeys_nodup_of_unmarshalMap (data : Text) (es : List (Text × Text))
    (h : unmarshalMap data = some (some es)) : (entryKeys es).Nodup := by
  unfold unmarshalMap at h
  split at h
  · next members _ =>
    simp only [Option.some.injEq] at h
    rw [← h]
    exact entryKeys_foldl_setEntry_nodup (fun mem => (JSON.unquote mem.1, mem.2.1)) members []
      (by simp [entryKeys])
  · simp at h
  · simp at h

theorem mem_iff_mapLookup (es : List (Text × Text)) (h : (entryKeys es).Nodup) (k v : Text) :
    (k, v) ∈ es ↔ mapLookup (some es) k = some v := by
  induction es with
  | nil => simp [mapLookup]
  | cons e es ih =>
    obtain ⟨k1, v1⟩ := e
    simp only [entryKeys, List.map_cons, List.nodup_cons] at h
    have ih' := ih h.2
    simp only [mapLookup, List.find?_cons, List.mem_cons, Prod.mk.injEq] at ih' ⊢
    by_cases hk : k1 = k
    · subst hk
      simp only [decide_True, Option.map_some', Option.some.injEq, true_and]
      constructor
      · rintro (h' | h')
        · exact h'.symm
        · exact absurd (List.mem_map_of_mem Prod.fst h') h.1
      · intro h'
        exact Or.inl h'.symm
    · simp only [hk, decide_False]
      rw [← ih']
      constructor
      · rintro (h' | h')
        · exact absurd h'.1.symm hk
        · exact h'
      · intro h'
        exact Or.inr h'

theorem nodup_of_entryKeys_nodup (es : List (Text × Text)) (h : (entryKeys es).Nodup) :
    es.Nodup := List.Nodup.of_map Prod.fst h

theorem entryKeys_filter_nodup (p : Text × Text → Bool) (es : List (Text × Text))
    (h : (entryKeys es).Nodup) : (entryKeys (es.filter p)).Nodup := by
  unfold entryKeys at h ⊢
  exact List.Nodup.sublist (List.Sublist.map _ (List.filter_sublist es)) h

theorem filter_perm_of_agreeOutside (ks : List Text) (a b : List (Text × Text))
    (ha : (entryKeys a).Nodup) (hb : (entryKeys b).Nodup) (h : agreeOutside ks a b) :
    (a.filter fun e => e.1 ∉ ks).Perm (b.filter fun e => e.1 ∉ ks) := by
  have hmem : ∀ (a b : List (Text × Text)), (entryKeys a).Nodup → (entryKeys b).Nodup →
      agreeOutside ks a b → ∀ e, e ∈ a.filter (fun e => e.1 ∉ ks) →
        e ∈ b.filter (fun e => e.1 ∉ ks) := by
    intro a b ha hb h e he
    obtain ⟨k, v⟩ := e
    simp only [List.mem_filter, decide_eq_true_eq] at he ⊢
    refine ⟨?_, he.2⟩
    have hk : k ∈ entryKeys a ++ entryKeys b :=
      List.mem_append_left _ (List.mem_map_of_mem Prod.fst he.1)
    rw [mem_iff_mapLookup b hb, ← h k hk he.2, ← mem_iff_mapLookup a ha]
    exact he.1
  have hsymm : agreeOutside ks b a := by
    intro k hk hks
    exact (h k (by simpa [or_comm] using hk) hks).symm
  rw [List.perm_ext_iff_of_nodup
    (nodup_of_entryKeys_nodup _ (entryKeys_filter_nodup _ a ha))
    (nodup_of_entryKeys_nodup _ (entryKeys_filter_nodup _ b hb))]
  exact fun e => ⟨hmem a b ha hb h e, hmem b a hb ha hsymm e⟩

theorem insertionSort_eq_of_perm (a b : List (Text × Text)) (ha : (entryKeys a).Nodup)
    (h : a.Perm b) : a.insertionSort entryLE = b.insertionSort entryLE := by
  haveI : IsTotal (Text × Text) entryLE := ⟨fun a b => textLE_total a.1 b.1⟩
  haveI : IsTrans (Text × Text) entryLE := ⟨fun a b c => textLE_trans a.1 b.1 c.1⟩
  have hp : (a.insertionSort entryLE).Perm (b.insertionSort entryLE) :=
    (List.perm_insertionSort entryLE a).trans (h.trans (List.perm_insertionSort entryLE b).symm)
  refine List.Perm.eq_of_sorted ?_ (List.sorted_insertionSort entryLE a)
    (List.sorted_insertionSort entryLE b) hp
  intro x y hx hy hxy hyx
  have hx' : x ∈ a := (List.perm_insertionSort entryLE a).subset hx
  have hy' : y ∈ a := (h.trans (List.perm_insertionSort entryLE b).symm).symm.subset hy
  have hkey : x.1 = y.1 := textLE_antisymm x.1 y.1 hxy hyx
  obtain ⟨k, v⟩ := x
  obtain ⟨k', v'⟩ := y
  simp only at hkey
  subst hkey
  have h1 := (mem_iff_mapLookup a ha k v).mp hx'
  have h2 := (mem_iff_mapLookup a ha k v').mp hy'
  rw [h1] at h2
  rw [Option.some.inj h2]

theorem marshalMap_withoutKeys_eq (ks : List Text) (a b : List (Text × Text))
    (ha : (entryKeys a).Nodup) (hb : (entryKeys b).Nodup) (h : agreeOutside ks a b) :
    marshalMap (withoutKeys (some a) ks) = marshalMap (withoutKeys (some b) ks) := by
  simp only [withoutKeys, Option.map_some', marshalMap]
  rw [insertionSort_eq_of_perm _ _ (entryKeys_filter_nodup _ a ha)
    (filter_perm_of_agreeOutside ks a b ha hb h)]

/-! ## Space, compaction and string literals -/

namespace JSON


theorem isSpace_cases (c : Char) (h : isSpace c = true) :
    c = ' ' ∨ c = '\t' ∨ c = '\r' ∨ c = '\n' := by
  simp only [isSpace, Bool.or_eq_true, beq_iff_eq] at h
  rcases h with ((h | h) | h) | h
  · exact Or.inl (char_eq_of_toNat_eq _ _ h)
  · exact Or.inr (Or.inl (char_eq_of_toNat_eq _ _ h))
  · exact Or.inr (Or.inr (Or.inl (char_eq_of_toNat_eq _ _ h)))
  · exact Or.inr (Or.inr (Or.inr (char_eq_of_toNat_eq _ _ h)))

theorem skipSpace_of_not_space (c : Char) (s : Text) (h : isSpace c = false) :
    skipSpace (c :: s) = c :: s := by
  simp [skipSpace, h]

theorem skipSpace_head (s : Text) (c : Char) (rest : Text) (h : skipSpace s = c :: rest) :
    isSpace c = false := by
  induction s with
  | nil => simp [skipSpace] at h
  | cons a s ih =>
    unfold skipSpace at h
    split at h
    · exact ih h
    · rename_i hs
      simp only [List.cons.injEq] at h
      rw [← h.1]
      simpa using hs

theorem skipSpace_idem (s : Text) : skipSpace (skipSpace s) = skipSpace s := by
  cases h : skipSpace s with
  | nil => rfl
  | cons c rest => exact skipSpace_of_not_space c rest (skipSpace_head s c rest h)

theorem skipSpace_append (s t : Text) (c : Char) (rest : Text) (h : skipSpace s = c :: rest) :
    skipSpace (s ++ t) = c :: rest ++ t := by
  induction s with
  | nil => simp [skipSpace] at h
  | cons a s ih =>
    unfold skipSpace at h
    rw [List.cons_append]
    unfold skipSpace
    split at h
    · rename_i hs
      rw [if_pos hs]
      exact ih h
    · rename_i hs
      rw [if_neg hs, ← h]
      rfl

/-- Space in front of a text that does not start with space is skipped. -/
theorem skipSpace_spaces_append (ws t : Text) (h : ∀ c ∈ ws, isSpace c = true) :
    skipSpace (ws ++ t) = skipSpace t := by
  induction ws with
  | nil => rfl
  | cons a ws ih =>
    rw [List.cons_append, skipSpace, if_pos (h a (List.mem_cons_self _ _))]
    exact ih fun c hc => h c (List.mem_cons_of_mem _ hc)

theorem skipSpace_decomp (s : Text) :
    ∃ ws, s = ws ++ skipSpace s ∧ ∀ c ∈ ws, isSpace c = true := by
  induction s with
  | nil => exact ⟨[], rfl, by simp⟩
  | cons a s ih =>
    obtain ⟨ws, h1, h2⟩ := ih
    unfold skipSpace
    by_cases hs : isSpace a = true
    · rw [if_pos hs]
      refine ⟨a :: ws, by rw [List.cons_append, ← h1], ?_⟩
      intro c hc
      rcases List.mem_cons.1 hc with rfl | hc
      · exact hs
      · exact h2 c hc
    · rw [if_neg hs]
      exact ⟨[], rfl, by simp⟩

theorem skipSpace_eq_nil_iff (s : Text) : skipSpace s = [] ↔ ∀ c ∈ s, isSpace c = true := by
  induction s with
  | nil => simp [skipSpace]
  | cons a s ih =>
    unfold skipSpace
    by_cases hs : isSpace a = true
    · rw [if_pos hs, ih]
      simp [hs]
    · rw [if_neg hs]
      simp [hs]

/-! ### `compactChars` on single characters -/

theorem compactChars_cons (st : Bool) (c : Char) (z : Text) :
    compactChars st (c :: z) =
      if c = '<' ∨ c = '>' ∨ c = '&' then escapeU00 c ++ compactChars st z
      else if c.toNat = 0x2028 then ['\\', 'u', '2', '0', '2', '8'] ++ compactChars st z
      else if c.toNat = 0x2029 then ['\\', 'u', '2', '0', '2', '9'] ++ compactChars st z
      else if st then
        if c = '"' then c :: compactChars false z
        else if c = '\\' then
          match z with
          | [] => [c]
          | e :: rest1 => c :: e :: compactChars true rest1
        else c :: compactChars true z
      else if c = '"' then c :: compactChars true z
      else if isSpace c then compactChars false z
      else c :: compactChars false z := by
  conv_lhs => unfold compactChars
  rfl

theorem compactChars_plain (st : Bool) (c : Char) (z : Text) (h : isPlain c = true) :
    compactChars st (c :: z) = c :: compactChars st z := by
  simp only [isPlain, Bool.not_eq_true', Bool.or_eq_false_iff, beq_eq_false_iff_ne, ne_eq,
    beq_iff_eq] at h
  obtain ⟨⟨⟨⟨⟨⟨⟨h1, h2⟩, h3⟩, h4⟩, h5⟩, h6⟩, h7⟩, h8⟩ := h
  rw [compactChars_cons]
  cases st <;> simp [h1, h2, h3, h4, h5, h6, h7, h8]

theorem compactChars_space (c : Char) (z : Text) (h : isSpace c = true) :
    compactChars false (c :: z) = compactChars false z := by
  rcases isSpace_cases c h with rfl | rfl | rfl | rfl <;>
    (rw [compactChars_cons]; simp [isSpace])

theorem compactChars_spaces (ws z : Text) (h : ∀ c ∈ ws, isSpace c = true) :
    compactChars false (ws ++ z) = compactChars false z := by
  induction ws with
  | nil => rfl
  | cons a ws ih =>
    rw [List.cons_append, compactChars_space a _ (h a (List.mem_cons_self _ _))]
    exact ih fun c hc => h c (List.mem_cons_of_mem _ hc)

theorem compactChars_skipSpace (s : Text) :
    compactChars false s = compactChars false (skipSpace s) := by
  obtain ⟨ws, h1, h2⟩ := skipSpace_decomp s
  conv_lhs => rw [h1]
  exact compactChars_spaces ws _ h2

theorem compactChars_open_quote (z : Text) :
    compactChars false ('"' :: z) = '"' :: compactChars true z := by
  rw [compactChars_cons]; simp

theorem compactChars_close_quote (z : Text) :
    compactChars true ('"' :: z) = '"' :: compactChars false z := by
  rw [compactChars_cons]; simp

theorem compactChars_escape (e : Char) (z : Text) :
    compactChars true ('\\' :: e :: z) = '\\' :: e :: compactChars true z := by
  rw [compactChars_cons]; simp

theorem isPlain_of_isHex (c : Char) (h : isHex c = true) : isPlain c = true := by
  simp only [isHex, isDigit, Bool.or_eq_true, Bool.and_eq_true, decide_eq_true_eq] at h
  simp only [isPlain, isSpace, Bool.not_eq_true', Bool.or_eq_false_iff, beq_eq_false_iff_ne,
    ne_eq, beq_iff_eq]
  refine ⟨⟨⟨⟨⟨⟨⟨?_, ?_⟩, ?_⟩, ?_⟩, ?_⟩, ?_⟩, ?_⟩, ⟨⟨⟨?_, ?_⟩, ?_⟩, ?_⟩⟩ <;>
    first
    | (rintro rfl; revert h; decide)
    | omega

theorem isPlain_of_isNumberChar (c : Char) (h : isNumberChar c = true) : isPlain c = true := by
  simp only [isNumberChar, isDigit, Bool.or_eq_true, Bool.and_eq_true, decide_eq_true_eq,
    beq_iff_eq] at h
  simp only [isPlain, isSpace, Bool.not_eq_true', Bool.or_eq_false_iff, beq_eq_false_iff_ne,
    ne_eq, beq_iff_eq]
  rcases h with ((((h | rfl) | rfl) | rfl) | rfl) | rfl
  · refine ⟨⟨⟨⟨⟨⟨⟨?_, ?_⟩, ?_⟩, ?_⟩, ?_⟩, ?_⟩, ?_⟩, ⟨⟨⟨?_, ?_⟩, ?_⟩, ?_⟩⟩ <;>
      first
      | (rintro rfl; revert h; decide)
      | omega
  all_goals decide

theorem compactChars_plain_append (st : Bool) (p z : Text) (h : ∀ c ∈ p, isPlain c = true) :
    compactChars st (p ++ z) = p ++ compactChars st z := by
  induction p with
  | nil => rfl
  | cons a p ih =>
    rw [List.cons_append, compactChars_plain st a _ (h a (List.mem_cons_self _ _)),
      ih fun c hc => h c (List.mem_cons_of_mem _ hc)]
    rfl


theorem validBody_of_scanString_aux (n : Nat) : ∀ (s body rest : Text), s.length ≤ n →
    scanString s = some (body, rest) → ValidBody body ∧ s = body ++ '"' :: rest := by
  induction n with
  | zero =>
    intro s body rest hn h
    cases s with
    | nil => simp [scanString] at h
    | cons c cs => simp at hn
  | succ n ih =>
    intro s body rest hn h
    unfold scanString at h
    split at h
    · exact absurd h (by simp)
    · next c cs =>
      simp only [List.length_cons] at hn
      split at h
      · next hc =>
        simp only [Option.some.injEq, Prod.mk.injEq] at h
        rw [← h.1, ← h.2, hc]
        exact ⟨ValidBody.nil, rfl⟩
      · next hc =>
        split at h
        · next hb =>
          split at h
          · exact absurd h (by simp)
          · next e rest1 =>
            split at h
            · next he =>
              split at h
              · next h1 h2 h3 h4 rest2 =>
                split at h
                · next hhex =>
                  simp only [Option.map_eq_some', Prod.mk.injEq] at h
                  obtain ⟨p, hp, hbody, hr⟩ := h
                  have := ih rest2 p.1 p.2 (by simp only [List.length_cons] at hn; omega) hp
                  rw [← hbody, ← hr, hb, he]
                  refine ⟨ValidBody.unicode h1 h2 h3 h4 p.1 hhex this.1, ?_⟩
                  rw [this.2]
                  rfl
                · exact absurd h (by simp)
              · exact absurd h (by simp)
            · next he =>
              split at h
              · next hesc =>
                simp only [Option.map_eq_some', Prod.mk.injEq] at h
                obtain ⟨p, hp, hbody, hr⟩ := h
                have := ih rest1 p.1 p.2 (by simp only [List.length_cons] at hn; omega) hp
                rw [← hbody, ← hr, hb]
                refine ⟨ValidBody.escape e p.1 he hesc this.1, ?_⟩
                rw [this.2]
                rfl
              · exact absurd h (by simp)
        · next hb =>
          split at h
          · exact absurd h (by simp)
          · next hctl =>
            simp only [Option.map_eq_some', Prod.mk.injEq] at h
            obtain ⟨p, hp, hbody, hr⟩ := h
            have := ih cs p.1 p.2 (by omega) hp
            rw [← hbody, ← hr]
            refine ⟨ValidBody.char c p.1 hc hb hctl this.1, ?_⟩
            rw [this.2]
            rfl

/-- A scanned string literal is its body, the closing quote and the rest. -/
theorem validBody_of_scanString (s body rest : Text) (h : scanString s = some (body, rest)) :
    ValidBody body ∧ s = body ++ '"' :: rest :=
  validBody_of_scanString_aux s.length s body rest (Nat.le_refl _) h

theorem scanString_cons (c : Char) (rest : Text) :
    scanString (c :: rest) =
      if c = '"' then some ([], rest)
      else if c = '\\' then
        match rest with
        | [] => none
        | e :: rest1 =>
          if e = 'u' then
            match rest1 with
            | h1 :: h2 :: h3 :: h4 :: rest2 =>
              if isHex h1 && isHex h2 && isHex h3 && isHex h4 then
                (scanString rest2).map
                  fun p => ('\\' :: 'u' :: h1 :: h2 :: h3 :: h4 :: p.1, p.2)
              else none
            | _ => none
          else if isSimpleEscape e then
            (scanString rest1).map fun p => ('\\' :: e :: p.1, p.2)
          else none
      else if c.toNat < 32 then none
      else (scanString rest).map fun p => (c :: p.1, p.2) := by
  conv_lhs => unfold scanString
  rfl

/-- A valid body followed by a quote scans as that body. -/
theorem scanString_of_validBody (body : Text) (h : ValidBody body) (z : Text) :
    scanString (body ++ '"' :: z) = some (body, z) := by
  induction h with
  | nil => rw [List.nil_append, scanString_cons]; simp
  | unicode h1 h2 h3 h4 body hhex _ ih =>
    simp only [List.cons_append]
    rw [scanString_cons]
    simp only [ih, hhex]
    simp
  | escape e body he hesc _ ih =>
    simp only [List.cons_append]
    rw [scanString_cons]
    simp only [ih, he, hesc]
    simp
  | char c body hc hb hctl _ ih =>
    simp only [List.cons_append]
    rw [scanString_cons]
    simp [hc, hb, hctl, ih]

theorem isHex_and (h1 h2 h3 h4 : Char)
    (h : (isHex h1 && isHex h2 && isHex h3 && isHex h4) = true) :
    isHex h1 = true ∧ isHex h2 = true ∧ isHex h3 = true ∧ isHex h4 = true := by
  simp only [Bool.and_eq_true] at h
  exact ⟨h.1.1.1, h.1.1.2, h.1.2, h.2⟩

theorem compactChars_unicode (h1 h2 h3 h4 : Char) (z : Text)
    (h : (isHex h1 && isHex h2 && isHex h3 && isHex h4) = true) :
    compactChars true ('\\' :: 'u' :: h1 :: h2 :: h3 :: h4 :: z) =
      '\\' :: 'u' :: h1 :: h2 :: h3 :: h4 :: compactChars true z := by
  obtain ⟨a1, a2, a3, a4⟩ := isHex_and h1 h2 h3 h4 h
  rw [compactChars_escape, compactChars_plain _ _ _ (isPlain_of_isHex _ a1),
    compactChars_plain _ _ _ (isPlain_of_isHex _ a2),
    compactChars_plain _ _ _ (isPlain_of_isHex _ a3),
    compactChars_plain _ _ _ (isPlain_of_isHex _ a4)]

/-- Inside a string literal a character other than the quote and the backslash is copied or
escaped, and the literal goes on. -/
theorem compactChars_char (c : Char) (z : Text) (hc : c ≠ '"') (hb : c ≠ '\\') :
    compactChars true (c :: z) = compactChars true [c] ++ compactChars true z := by
  rw [compactChars_cons, compactChars_cons true c []]
  by_cases h1 : c = '<' ∨ c = '>' ∨ c = '&'
  · simp [h1, compactChars]
  · by_cases h2 : c.toNat = 0x2028
    · simp [h1, h2, compactChars]
    · by_cases h3 : c.toNat = 0x2029
      · simp [h1, h2, h3, compactChars]
      · simp [h1, h2, h3, hc, hb, compactChars]

/-- Compaction runs through the body of a string literal without leaving it. -/
theorem compactChars_validBody_append (body : Text) (h : ValidBody body) (w : Text) :
    compactChars true (body ++ w) = compactChars true body ++ compactChars true w := by
  induction h with
  | nil => simp [compactChars]
  | unicode h1 h2 h3 h4 body hhex _ ih =>
    simp only [List.cons_append]
    rw [compactChars_unicode _ _ _ _ _ hhex, compactChars_unicode _ _ _ _ _ hhex, ih]
    rfl
  | escape e body he hesc _ ih =>
    simp only [List.cons_append]
    rw [compactChars_escape, compactChars_escape, ih]
    rfl
  | char c body hc hb hctl _ ih =>
    simp only [List.cons_append]
    rw [compactChars_char c _ hc hb, compactChars_char c body hc hb, ih, List.append_assoc]

theorem compactChars_validBody_quote (body : Text) (h : ValidBody body) (z : Text) :
    compactChars true (body ++ '"' :: z) =
      compactChars true body ++ '"' :: compactChars false z := by
  rw [compactChars_validBody_append body h, compactChars_close_quote]

theorem escapeU00_lt : escapeU00 '<' = ['\\', 'u', '0', '0', '3', 'c'] := by decide
theorem escapeU00_gt : escapeU00 '>' = ['\\', 'u', '0', '0', '3', 'e'] := by decide
theorem escapeU00_amp : escapeU00 '&' = ['\\', 'u', '0', '0', '2', '6'] := by decide

/-- What compaction writes for one character of a string body other than the quote and the
backslash. -/
theorem compactChars_single (c : Char) (hc : c ≠ '"') (hb : c ≠ '\\') :
    (c = '<' ∧ compactChars true [c] = ['\\', 'u', '0', '0', '3', 'c']) ∨
    (c = '>' ∧ compactChars true [c] = ['\\', 'u', '0', '0', '3', 'e']) ∨
    (c = '&' ∧ compactChars true [c] = ['\\', 'u', '0', '0', '2', '6']) ∨
    (c = Char.ofNat 0x2028 ∧ compactChars true [c] = ['\\', 'u', '2', '0', '2', '8']) ∨
    (c = Char.ofNat 0x2029 ∧ compactChars true [c] = ['\\', 'u', '2', '0', '2', '9']) ∨
    compactChars true [c] = [c] := by
  by_cases h1 : c = '<'
  · subst h1; exact Or.inl ⟨rfl, by decide⟩
  by_cases h2 : c = '>'
  · subst h2; exact Or.inr (Or.inl ⟨rfl, by decide⟩)
  by_cases h3 : c = '&'
  · subst h3; exact Or.inr (Or.inr (Or.inl ⟨rfl, by decide⟩))
  by_cases h4 : c.toNat = 0x2028
  · have : c = Char.ofNat 0x2028 := char_eq_of_toNat_eq _ _ (by rw [h4]; decide)
    subst this; exact Or.inr (Or.inr (Or.inr (Or.inl ⟨rfl, by decide⟩)))
  by_cases h5 : c.toNat = 0x2029
  · have : c = Char.ofNat 0x2029 := char_eq_of_toNat_eq _ _ (by rw [h5]; decide)
    subst this; exact Or.inr (Or.inr (Or.inr (Or.inr (Or.inl ⟨rfl, by decide⟩))))
  refine Or.inr (Or.inr (Or.inr (Or.inr (Or.inr ?_))))
  rw [compactChars_cons]
  simp [h1, h2, h3, h4, h5, hc, hb, compactChars]

/-- The compacted body of a string literal is the body of a string literal. -/
theorem validBody_compactChars (body : Text) (h : ValidBody body) :
    ValidBody (compactChars true body) := by
  induction h with
  | nil => simpa [compactChars] using ValidBody.nil
  | unicode h1 h2 h3 h4 body hhex _ ih =>
    rw [compactChars_unicode _ _ _ _ _ hhex]
    exact ValidBody.unicode h1 h2 h3 h4 _ hhex ih
  | escape e body he hesc _ ih =>
    rw [compactChars_escape]
    exact ValidBody.escape e _ he hesc ih
  | char c body hc hb hctl _ ih =>
    rw [compactChars_char c body hc hb]
    rcases compactChars_single c hc hb with h | h | h | h | h | h
    · rw [h.2]; exact ValidBody.unicode '0' '0' '3' 'c' _ (by decide) ih
    · rw [h.2]; exact ValidBody.unicode '0' '0' '3' 'e' _ (by decide) ih
    · rw [h.2]; exact ValidBody.unicode '0' '0' '2' '6' _ (by decide) ih
    · rw [h.2]; exact ValidBody.unicode '2' '0' '2' '8' _ (by decide) ih
    · rw [h.2]; exact ValidBody.unicode '2' '0' '2' '9' _ (by decide) ih
    · rw [h]; exact ValidBody.char c _ hc hb hctl ih

theorem unquoteFrom_zero_cons (c : Char) (rest : Text) :
    unquoteFrom 0 (c :: rest) =
      if c = '\\' then
        match rest with
        | [] => []
        | e :: rest1 =>
          if e = 'u' then
            match rest1 with
            | h1 :: h2 :: h3 :: h4 :: rest2 =>
              if isSurrogate (u4 h1 h2 h3 h4) then
                match (getu4 rest2).bind (decodeSurrogates (u4 h1 h2 h3 h4)) with
                | some r => Char.ofNat r :: unquoteFrom 6 rest2
                | none => Char.ofNat 0xfffd :: unquoteFrom 0 rest2
              else Char.ofNat (u4 h1 h2 h3 h4) :: unquoteFrom 0 rest2
            | _ => []
          else if e = 'b' then Char.ofNat 8 :: unquoteFrom 0 rest1
          else if e = 'f' then Char.ofNat 12 :: unquoteFrom 0 rest1
          else if e = 'n' then Char.ofNat 10 :: unquoteFrom 0 rest1
          else if e = 'r' then Char.ofNat 13 :: unquoteFrom 0 rest1
          else if e = 't' then Char.ofNat 9 :: unquoteFrom 0 rest1
          else e :: unquoteFrom 0 rest1
      else c :: unquoteFrom 0 rest := by
  conv_lhs => unfold unquoteFrom
  rfl

theorem unquoteFrom_unicode (h1 h2 h3 h4 : Char) (z : Text) :
    unquoteFrom 0 ('\\' :: 'u' :: h1 :: h2 :: h3 :: h4 :: z) =
      if isSurrogate (u4 h1 h2 h3 h4) then
        match (getu4 z).bind (decodeSurrogates (u4 h1 h2 h3 h4)) with
        | some r => Char.ofNat r :: unquoteFrom 6 z
        | none => Char.ofNat 0xfffd :: unquoteFrom 0 z
      else Char.ofNat (u4 h1 h2 h3 h4) :: unquoteFrom 0 z := by
  rw [unquoteFrom_zero_cons]
  simp

theorem unquoteFrom_six (a b c d e f : Char) (z : Text) :
    unquoteFrom 6 (a :: b :: c :: d :: e :: f :: z) = unquoteFrom 0 z := by
  simp [unquoteFrom]

theorem getu4_unicode (h1 h2 h3 h4 : Char) (z : Text)
    (h : (isHex h1 && isHex h2 && isHex h3 && isHex h4) = true) :
    getu4 ('\\' :: 'u' :: h1 :: h2 :: h3 :: h4 :: z) = some (u4 h1 h2 h3 h4) := by
  obtain ⟨a1, a2, a3, a4⟩ := isHex_and h1 h2 h3 h4 h
  simp [getu4, a1, a2, a3, a4]

theorem getu4_of_ne (c : Char) (z : Text) (h : c ≠ '\\') : getu4 (c :: z) = none := by
  unfold getu4
  split
  · next heq =>
    simp only [List.cons.injEq] at heq
    rw [if_neg]
    rintro ⟨hb, _⟩
    exact h (heq.1 ▸ hb)
  · rfl

theorem getu4_escape (e : Char) (z : Text) (h : e ≠ 'u') : getu4 ('\\' :: e :: z) = none := by
  unfold getu4
  split
  · next heq =>
    simp only [List.cons.injEq] at heq
    rw [if_neg]
    rintro ⟨_, hu, _⟩
    exact h (heq.2.1 ▸ hu)
  · rfl

theorem unquoteFrom_escape (e : Char) (he : e ≠ 'u') :
    ∃ x, ∀ z, unquoteFrom 0 ('\\' :: e :: z) = x :: unquoteFrom 0 z := by
  refine ⟨if e = 'b' then Char.ofNat 8 else if e = 'f' then Char.ofNat 12
    else if e = 'n' then Char.ofNat 10 else if e = 'r' then Char.ofNat 13
    else if e = 't' then Char.ofNat 9 else e, ?_⟩
  intro z
  rw [unquoteFrom_zero_cons]
  simp only [if_true, if_neg he]
  split_ifs <;> rfl

theorem unquoteFrom_char (c : Char) (z : Text) (hb : c ≠ '\\') :
    unquoteFrom 0 (c :: z) = c :: unquoteFrom 0 z := by
  rw [unquoteFrom_zero_cons, if_neg hb]

/-- Decoding the compacted body of a string literal gives the string the body denotes. -/
theorem unquoteFrom_compactChars (body : Text) (h : ValidBody body) :
    unquoteFrom 0 (compactChars true body) = unquoteFrom 0 body ∧
      (∀ r, getu4 body = some r →
        unquoteFrom 6 (compactChars true body) = unquoteFrom 6 body) ∧
      ∀ r1, (getu4 (compactChars true body)).bind (decodeSurrogates r1) =
        (getu4 body).bind (decodeSurrogates r1) := by
  induction h with
  | nil => simp [compactChars, getu4]
  | unicode h1 h2 h3 h4 body hhex _ ih =>
    rw [compactChars_unicode _ _ _ _ _ hhex]
    refine ⟨?_, ?_, ?_⟩
    · rw [unquoteFrom_unicode, unquoteFrom_unicode, ih.2.2, ih.1]
      split
      · cases hg : (getu4 body).bind (decodeSurrogates (u4 h1 h2 h3 h4)) with
        | none => rfl
        | some r =>
          cases hg2 : getu4 body with
          | none => rw [hg2] at hg; simp at hg
          | some r2 => simp only [ih.2.1 r2 hg2]
      · rfl
    · intro r _
      rw [unquoteFrom_six, unquoteFrom_six, ih.1]
    · intro r1
      rw [getu4_unicode _ _ _ _ _ hhex, getu4_unicode _ _ _ _ _ hhex]
  | escape e body he hesc _ ih =>
    rw [compactChars_escape]
    refine ⟨?_, ?_, ?_⟩
    · obtain ⟨x, hx⟩ := unquoteFrom_escape e he
      rw [hx, hx, ih.1]
    · intro r hr
      rw [getu4_escape e body he] at hr
      exact absurd hr (by simp)
    · intro r1
      rw [getu4_escape e _ he, getu4_escape e _ he]
  | char c body hc hb hctl _ ih =>
    rw [compactChars_char c body hc hb]
    refine ⟨?_, ?_, ?_⟩
    · rcases compactChars_single c hc hb with h | h | h | h | h | h
      · rw [h.2, h.1]
        simp only [List.cons_append, List.nil_append]
        rw [unquoteFrom_unicode, unquoteFrom_char _ _ (by decide), if_neg (by decide), ih.1]
        rfl
      · rw [h.2, h.1]
        simp only [List.cons_append, List.nil_append]
        rw [unquoteFrom_unicode, unquoteFrom_char _ _ (by decide), if_neg (by decide), ih.1]
        rfl
      · rw [h.2, h.1]
        simp only [List.cons_append, List.nil_append]
        rw [unquoteFrom_unicode, unquoteFrom_char _ _ (by decide), if_neg (by decide), ih.1]
        rfl
      · rw [h.2, h.1]
        simp only [List.cons_append, List.nil_append]
        rw [unquoteFrom_unicode, unquoteFrom_char _ _ (by decide), if_neg (by decide), ih.1]
        rfl
      · rw [h.2, h.1]
        simp only [List.cons_append, List.nil_append]
        rw [unquoteFrom_unicode, unquoteFrom_char _ _ (by decide), if_neg (by decide), ih.1]
        rfl
      · rw [h]
        simp only [List.cons_append, List.nil_append]
        rw [unquoteFrom_char c _ hb, unquoteFrom_char c _ hb, ih.1]
    · intro r hr
      rw [getu4_of_ne c body hb] at hr
      exact absurd hr (by simp)
    · intro r1
      rw [getu4_of_ne c body hb]
      rcases compactChars_single c hc hb with h | h | h | h | h | h
      · rw [h.2]
        simp only [List.cons_append, List.nil_append]
        rw [getu4_unicode _ _ _ _ _ (by decide)]
        simp [decodeSurrogates, u4, hexVal, isDigit]
      · rw [h.2]
        simp only [List.cons_append, List.nil_append]
        rw [getu4_unicode _ _ _ _ _ (by decide)]
        simp [decodeSurrogates, u4, hexVal, isDigit]
      · rw [h.2]
        simp only [List.cons_append, List.nil_append]
        rw [getu4_unicode _ _ _ _ _ (by decide)]
        simp [decodeSurrogates, u4, hexVal, isDigit]
      · rw [h.2]
        simp only [List.cons_append, List.nil_append]
        rw [getu4_unicode _ _ _ _ _ (by decide)]
        simp [decodeSurrogates, u4, hexVal, isDigit]
      · rw [h.2]
        simp only [List.cons_append, List.nil_append]
        rw [getu4_unicode _ _ _ _ _ (by decide)]
        simp [decodeSurrogates, u4, hexVal, isDigit]
      · rw [h]
        simp only [List.cons_append, List.nil_append]
        rw [getu4_of_ne c _ hb]

/-- Compaction does not change the string a key or a string literal denotes. -/
theorem unquote_compactChars (body : Text) (h : ValidBody body) :
    unquote (compactChars true body) = unquote body :=
  (unquoteFrom_compactChars body h).1

theorem isHex_hexDigit : ∀ n, n < 16 → isHex (hexDigit n) = true := by decide

theorem quoteBody_cons (c : Char) (rest : Text) :
    quoteBody (c :: rest) =
      (if c = '\\' ∨ c = '"' then ['\\', c]
       else if c.toNat = 8 then ['\\', 'b']
       else if c.toNat = 12 then ['\\', 'f']
       else if c.toNat = 10 then ['\\', 'n']
       else if c.toNat = 13 then ['\\', 'r']
       else if c.toNat = 9 then ['\\', 't']
       else if c.toNat < 32 ∨ c = '<' ∨ c = '>' ∨ c = '&' then escapeU00 c
       else if c.toNat = 0x2028 then ['\\', 'u', '2', '0', '2', '8']
       else if c.toNat = 0x2029 then ['\\', 'u', '2', '0', '2', '9']
       else [c]) ++ quoteBody rest := by
  conv_lhs => unfold quoteBody

/-- The key that `json.Marshal` writes is the body of a string literal. -/
theorem validBody_quoteBody (k : Text) : ValidBody (quoteBody k) := by
  induction k with
  | nil => exact ValidBody.nil
  | cons c rest ih =>
    rw [quoteBody_cons]
    split_ifs with h1 h2 h3 h4 h5 h6 h7 h8 h9
    · rcases h1 with rfl | rfl
      · exact ValidBody.escape _ _ (by decide) (by decide) ih
      · exact ValidBody.escape _ _ (by decide) (by decide) ih
    · exact ValidBody.escape _ _ (by decide) (by decide) ih
    · exact ValidBody.escape _ _ (by decide) (by decide) ih
    · exact ValidBody.escape _ _ (by decide) (by decide) ih
    · exact ValidBody.escape _ _ (by decide) (by decide) ih
    · exact ValidBody.escape _ _ (by decide) (by decide) ih
    · have hlt : c.toNat < 256 := by
        rcases h7 with h | rfl | rfl | rfl
        · omega
        all_goals decide
      refine ValidBody.unicode '0' '0' _ _ _ ?_ ih
      rw [isHex_hexDigit _ (by omega), isHex_hexDigit _ (Nat.mod_lt _ (by decide))]
      rfl
    · exact ValidBody.unicode '2' '0' '2' '8' _ (by decide) ih
    · exact ValidBody.unicode '2' '0' '2' '9' _ (by decide) ih
    · refine ValidBody.char c _ (fun h => h1 (Or.inr h)) (fun h => h1 (Or.inl h)) ?_ ih
      intro h
      exact h7 (Or.inl h)

/-! ### Number literals -/

theorem headNot_mono (p q : Char → Bool) (t : Text) (hpq : ∀ c, q c = true → p c = true)
    (h : HeadNot p t) : HeadNot q t := by
  intro c rest ht
  have := h c rest ht
  cases hq : q c with
  | false => rfl
  | true => rw [hpq c hq] at this; exact absurd this (by simp)

theorem headNot_digit_of_number (t : Text) (h : HeadNot isNumberChar t) : HeadNot isDigit t :=
  headNot_mono isNumberChar isDigit t (fun c hc => by simp [isNumberChar, hc]) h

theorem headNot_append (p : Char → Bool) (x t : Text) (ht : HeadNot p t)
    (hx : ∀ c rest, x = c :: rest → p c = false) : HeadNot p (x ++ t) := by
  cases x with
  | nil => exact ht
  | cons a x =>
    intro c rest h
    simp only [List.cons_append, List.cons.injEq] at h
    rw [← h.1]
    exact hx a x rfl

theorem takeWhile_append_headNot (p : Char → Bool) (x t : Text) (ht : HeadNot p t) :
    (x.takeWhile p ++ t).takeWhile p = x.takeWhile p ∧
      (x.takeWhile p ++ t).dropWhile p = t := by
  induction x with
  | nil =>
    cases t with
    | nil => simp
    | cons c t => simp [List.takeWhile, List.dropWhile, ht c t rfl]
  | cons a x ih =>
    cases hp : p a with
    | true => simp [List.takeWhile, List.dropWhile, hp, ih.1, ih.2]
    | false =>
      simp only [List.takeWhile, hp, List.nil_append]
      cases t with
      | nil => simp
      | cons c t => simp [List.takeWhile, List.dropWhile, ht c t rfl]

theorem scanInt_spec (s i rest : Text) (h : scanInt s = some (i, rest)) :
    s = i ++ rest ∧ (∃ c i1, i = c :: i1 ∧ isDigit c = true) ∧
      (∀ c ∈ i, isDigit c = true) ∧
      ∀ t, HeadNot isDigit t → scanInt (i ++ t) = some (i, t) := by
  unfold scanInt at h
  split at h
  · exact absurd h (by simp)
  · next c cs =>
    split at h
    · next hc =>
      simp only [Option.some.injEq, Prod.mk.injEq] at h
      rw [← h.1, ← h.2, hc]
      refine ⟨rfl, ⟨'0', [], rfl, by decide⟩, ?_, ?_⟩
      · intro c hc; simp only [List.mem_singleton] at hc; rw [hc]; decide
      · intro t _; simp [scanInt]
    · next hc =>
      split at h
      · next hd =>
        simp only [Option.some.injEq, Prod.mk.injEq] at h
        rw [← h.1, ← h.2]
        refine ⟨by simp [List.takeWhile_append_dropWhile], ⟨c, _, rfl, hd⟩, ?_, ?_⟩
        · intro x hx
          rcases List.mem_cons.1 hx with rfl | hx
          · exact hd
          · exact (List.mem_takeWhile_imp hx)
        · intro t ht
          have := takeWhile_append_headNot isDigit cs t ht
          simp only [List.cons_append, scanInt, if_neg hc, hd, if_true, this.1, this.2]
      · exact absurd h (by simp)

theorem scanFrac_headNot (t : Text) (h : HeadNot (fun c => isDigit c || c == '.') t) :
    scanFrac t = some ([], t) := by
  cases t with
  | nil => rfl
  | cons c t =>
    have hc := h c t rfl
    have : c ≠ '.' := by rintro rfl; exact absurd hc (by decide)
    simp [scanFrac, this]

theorem scanFrac_spec (s f rest : Text) (h : scanFrac s = some (f, rest)) :
    s = f ++ rest ∧ (∀ c ∈ f, isNumberChar c = true) ∧ (∀ c f1, f = c :: f1 → c = '.') ∧
      ∀ t, HeadNot (fun c => isDigit c || c == '.') t → scanFrac (f ++ t) = some (f, t) := by
  unfold scanFrac at h
  split at h
  · simp only [Option.some.injEq, Prod.mk.injEq] at h
    rw [← h.1, ← h.2]
    exact ⟨rfl, by simp, by simp, fun t ht => scanFrac_headNot t ht⟩
  · next c cs =>
    split at h
    · next hc =>
      split at h
      · exact absurd h (by simp)
      · next hne =>
        simp only [Option.some.injEq, Prod.mk.injEq] at h
        rw [← h.1, ← h.2]
        refine ⟨by simp [List.takeWhile_append_dropWhile], ?_, ?_, ?_⟩
        · intro x hx
          rcases List.mem_cons.1 hx with rfl | hx
          · rw [hc]; decide
          · simp [isNumberChar, List.mem_takeWhile_imp hx]
        · intro a f1 ha
          simp only [List.cons.injEq] at ha
          rw [← ha.1, hc]
        · intro t ht
          have := takeWhile_append_headNot isDigit cs t
            (headNot_mono _ isDigit t (fun c hc => by simp [hc]) ht)
          simp only [List.cons_append, scanFrac, hc, if_true, this.1, this.2, hne]
          simp
    · next hc =>
      simp only [Option.some.injEq, Prod.mk.injEq] at h
      rw [← h.1, ← h.2]
      exact ⟨rfl, by simp, by simp, fun t ht => scanFrac_headNot t ht⟩

theorem scanSign_spec (s : Text) :
    s = (scanSign s).1 ++ (scanSign s).2 ∧ (∀ c ∈ (scanSign s).1, isNumberChar c = true) ∧
      ∀ t, HeadNot (fun c => c == '+' || c == '-') t →
        scanSign ((scanSign s).1 ++ t) = ((scanSign s).1, t) := by
  have key : ∀ t, HeadNot (fun c => c == '+' || c == '-') t → scanSign t = ([], t) := by
    intro t ht
    cases t with
    | nil => rfl
    | cons c t =>
      have hc := ht c t rfl
      simp only [Bool.or_eq_false_iff, beq_eq_false_iff_ne, ne_eq] at hc
      simp [scanSign, hc.1, hc.2]
  cases s with
  | nil => exact ⟨rfl, by simp [scanSign], fun t ht => key t ht⟩
  | cons a s =>
    by_cases ha : a = '+' ∨ a = '-'
    · simp only [scanSign, if_pos ha, List.cons_append, List.nil_append, true_and]
      refine ⟨?_, fun t _ => trivial⟩
      intro c hc
      simp only [List.mem_singleton] at hc
      rcases ha with rfl | rfl <;> (rw [hc]; decide)
    · simp only [scanSign, if_neg ha, List.nil_append, true_and]
      exact ⟨by simp, fun t ht => key t ht⟩

theorem scanExp_headNot (t : Text)
    (h : HeadNot (fun c => isDigit c || c == 'e' || c == 'E') t) : scanExp t = some ([], t) := by
  cases t with
  | nil => rfl
  | cons c t =>
    have hc := h c t rfl
    have h1 : c ≠ 'e' := by rintro rfl; exact absurd hc (by decide)
    have h2 : c ≠ 'E' := by rintro rfl; exact absurd hc (by decide)
    simp [scanExp, h1, h2]

theorem scanExp_spec (s e rest : Text) (h : scanExp s = some (e, rest)) :
    s = e ++ rest ∧ (∀ c ∈ e, isNumberChar c = true) ∧
      (∀ c e1, e = c :: e1 → c = 'e' ∨ c = 'E') ∧
      ∀ t, HeadNot (fun c => isDigit c || c == 'e' || c == 'E') t →
        scanExp (e ++ t) = some (e, t) := by
  unfold scanExp at h
  split at h
  · simp only [Option.some.injEq, Prod.mk.injEq] at h
    rw [← h.1, ← h.2]
    exact ⟨rfl, by simp, by simp, fun t ht => scanExp_headNot t ht⟩
  · next c cs =>
    split at h
    · next hc =>
      dsimp only at h
      split at h
      · exact absurd h (by simp)
      · next hne =>
        simp only [Option.some.injEq, Prod.mk.injEq] at h
        obtain ⟨hs1, hs2, hs3⟩ := scanSign_spec cs
        rw [← h.1, ← h.2]
        refine ⟨?_, ?_, ?_, ?_⟩
        · simp only [List.cons_append, List.append_assoc, List.takeWhile_append_dropWhile]
          rw [← hs1]
        · intro x hx
          rcases List.mem_cons.1 hx with rfl | hx
          · rcases hc with rfl | rfl <;> decide
          · rcases List.mem_append.1 hx with hx | hx
            · exact hs2 x hx
            · simp [isNumberChar, List.mem_takeWhile_imp hx]
        · intro a e1 ha
          simp only [List.cons_append, List.cons.injEq] at ha
          rw [← ha.1]
          exact hc
        · intro t ht
          have htw := takeWhile_append_headNot isDigit (scanSign cs).2 t
            (headNot_mono _ isDigit t (fun c hc => by simp [hc]) ht)
          have hhead : HeadNot (fun c => c == '+' || c == '-')
              ((scanSign cs).2.takeWhile isDigit ++ t) := by
            cases hd : (scanSign cs).2.takeWhile isDigit with
            | nil => rw [hd] at hne; simp at hne
            | cons a l =>
              intro x rest hx
              simp only [List.cons_append, List.cons.injEq] at hx
              have hmem : a ∈ (scanSign cs).2.takeWhile isDigit := by rw [hd]; simp
              have hdig : isDigit a = true := List.mem_takeWhile_imp hmem
              rw [← hx.1]
              simp only [Bool.or_eq_false_iff, beq_eq_false_iff_ne, ne_eq]
              constructor <;> (rintro rfl; exact absurd hdig (by decide))
          have hsign := hs3 _ hhead
          simp only [List.cons_append, List.append_assoc]
          rw [scanExp]
          simp only [if_pos hc, hsign, htw.1, htw.2, hne]
          simp
    · next hc =>
      simp only [Option.some.injEq, Prod.mk.injEq] at h
      rw [← h.1, ← h.2]
      exact ⟨rfl, by simp, by simp, fun t ht => scanExp_headNot t ht⟩

theorem scanMinus_spec (s : Text) :
    s = (scanMinus s).1 ++ (scanMinus s).2 ∧ (∀ c ∈ (scanMinus s).1, c = '-') ∧
      ∀ t, HeadNot (fun c => c == '-') t →
        scanMinus ((scanMinus s).1 ++ t) = ((scanMinus s).1, t) := by
  have key : ∀ t, HeadNot (fun c => c == '-') t → scanMinus t = ([], t) := by
    intro t ht
    cases t with
    | nil => rfl
    | cons c t =>
      have hc := ht c t rfl
      simp only [beq_eq_false_iff_ne, ne_eq] at hc
      simp [scanMinus, hc]
  cases s with
  | nil => exact ⟨rfl, by simp [scanMinus], fun t ht => key t ht⟩
  | cons a s =>
    by_cases ha : a = '-'
    · simp only [scanMinus, if_pos ha, List.cons_append, List.nil_append, true_and]
      refine ⟨?_, fun t _ => trivial⟩
      intro c hc
      simp only [List.mem_singleton] at hc
      rw [hc, ha]
    · simp only [scanMinus, if_neg ha, List.nil_append, true_and]
      exact ⟨by simp, fun t ht => key t ht⟩

/-- A scanned number literal is a prefix of the input, holds number characters only, and is
scanned again in front of any text that ends a number. -/
theorem scanNumber_spec (s lit rest : Text) (h : scanNumber s = some (lit, rest)) :
    s = lit ++ rest ∧ (∀ c ∈ lit, isNumberChar c = true) ∧
      (∃ c l, lit = c :: l ∧ isNumberChar c = true) ∧
      ∀ t, HeadNot isNumberChar t → scanNumber (lit ++ t) = some (lit, t) := by
  unfold scanNumber at h
  dsimp only at h
  obtain ⟨hm1, hm2, hm3⟩ := scanMinus_spec s
  split at h
  · exact absurd h (by simp)
  · next i s2 hi =>
    split at h
    · exact absurd h (by simp)
    · next f s3 hf =>
      split at h
      · exact absurd h (by simp)
      · next e s4 he =>
        simp only [Option.some.injEq, Prod.mk.injEq] at h
        obtain ⟨hi1, ⟨ci, i1, hi2, hi3⟩, hi4, hi5⟩ := scanInt_spec _ _ _ hi
        obtain ⟨hf1, hf2, hf3, hf4⟩ := scanFrac_spec _ _ _ hf
        obtain ⟨he1, he2, he3, he4⟩ := scanExp_spec _ _ _ he
        rw [← h.1, ← h.2]
        refine ⟨?_, ?_, ?_, ?_⟩
        · conv_lhs => rw [hm1, hi1, hf1, he1]
          simp only [List.append_assoc]
        · intro c hc
          simp only [List.mem_append] at hc
          rcases hc with ((hc | hc) | hc) | hc
          · rw [hm2 c hc]; decide
          · simp [isNumberChar, hi4 c hc]
          · exact hf2 c hc
          · exact he2 c hc
        · cases hmm : (scanMinus s).1 with
          | nil =>
            refine ⟨ci, i1 ++ f ++ e, by simp [hi2], by simp [isNumberChar, hi3]⟩
          | cons a l =>
            refine ⟨a, l ++ i ++ f ++ e, by simp, ?_⟩
            rw [hm2 a (by rw [hmm]; simp)]
            decide
        · intro t ht
          have ht1 : HeadNot (fun c => isDigit c || c == 'e' || c == 'E') t :=
            headNot_mono _ _ t (fun c hc => by
              simp only [Bool.or_eq_true, beq_iff_eq] at hc
              rcases hc with (hc | rfl) | rfl
              · simp [isNumberChar, hc]
              · decide
              · decide) ht
          have ht2 : HeadNot (fun c => isDigit c || c == '.') (e ++ t) := by
            refine headNot_append _ _ _ (headNot_mono _ _ t (fun c hc => by
              simp only [Bool.or_eq_true, beq_iff_eq] at hc
              rcases hc with hc | rfl
              · simp [isNumberChar, hc]
              · decide) ht) ?_
            intro c e1 hc
            rcases he3 c e1 hc with rfl | rfl <;> decide
          have ht3 : HeadNot isDigit (f ++ (e ++ t)) := by
            refine headNot_append _ _ _ (headNot_mono _ _ _ (fun c hc => by simp [hc]) ht2) ?_
            intro c f1 hc
            rw [hf3 c f1 hc]
            decide
          have ht4 : HeadNot (fun c => c == '-') (i ++ (f ++ (e ++ t))) := by
            intro c r hc
            rw [hi2] at hc
            simp only [List.cons_append, List.cons.injEq] at hc
            rw [← hc.1]
            simp only [beq_eq_false_iff_ne, ne_eq]
            rintro rfl
            exact absurd hi3 (by decide)
          unfold scanNumber
          dsimp only
          simp only [List.append_assoc]
          rw [hm3 _ ht4]
          dsimp only
          rw [hi5 _ ht3]
          dsimp only
          rw [hf4 _ ht2]
          dsimp only
          rw [he4 _ ht1]

end JSON

/-! ## Compaction commutes with parsing -/

namespace JSON

theorem stripLit_spec (lit s rest : Text) (h : stripLit lit s = some rest) : s = lit ++ rest := by
  induction lit generalizing s with
  | nil => simp only [stripLit, Option.some.injEq] at h; simp [h]
  | cons p ps ih =>
    cases s with
    | nil => simp [stripLit] at h
    | cons c cs =>
      simp only [stripLit] at h
      split at h
      · next hpc => rw [List.cons_append, ← ih cs h, hpc]
      · exact absurd h (by simp)

theorem stripLit_append (lit t : Text) : stripLit lit (lit ++ t) = some t := by
  induction lit with
  | nil => simp [stripLit]
  | cons p ps ih => simp [stripLit, ih]

theorem consumed_append (p r : Text) : consumed (p ++ r) r = p := by
  simp [consumed]

/-- The raw text of a member value is compacted to what the value is compacted to. -/
theorem compactChars_consumed (pv r : Text) (c : Char) (q1 : Text)
    (hq : compactChars false pv = c :: q1) :
    compactChars false (consumed (skipSpace (pv ++ r)) r) = compactChars false pv := by
  cases hs : skipSpace pv with
  | nil =>
    rw [compactChars_skipSpace, hs] at hq
    simp [compactChars] at hq
  | cons a l =>
    rw [skipSpace_append pv r a l hs, consumed_append, ← hs, ← compactChars_skipSpace]

theorem parseValue_succ_cons (fuel depth : Nat) (c : Char) (rest : Text)
    (hc : isSpace c = false) :
    parseValue (fuel + 1) depth (c :: rest) =
      if c = '{' then
        if maxNestingDepth ≤ depth then none
        else
          match skipSpace rest with
          | [] => none
          | d :: rest1 =>
            if d = '}' then some (Value.object [], rest1)
            else (parseMembers fuel (depth + 1) (d :: rest1)).map
              fun p => (Value.object p.1, p.2)
      else if c = '[' then
        if maxNestingDepth ≤ depth then none
        else
          match skipSpace rest with
          | [] => none
          | d :: rest1 =>
            if d = ']' then some (Value.array [], rest1)
            else (parseElems fuel (depth + 1) (d :: rest1)).map
              fun p => (Value.array p.1, p.2)
      else if c = '"' then
        (scanString rest).map fun p => (Value.string p.1, p.2)
      else if c = 't' then
        (stripLit ['r', 'u', 'e'] rest).map fun r => (Value.bool true, r)
      else if c = 'f' then
        (stripLit ['a', 'l', 's', 'e'] rest).map fun r => (Value.bool false, r)
      else if c = 'n' then
        (stripLit ['u', 'l', 'l'] rest).map fun r => (Value.null, r)
      else
        (scanNumber (c :: rest)).map fun p => (Value.number p.1, p.2) := by
  conv_lhs => unfold parseValue
  rw [skipSpace_of_not_space c rest hc]

theorem parseValue_skipSpace (fuel depth : Nat) (s : Text) :
    parseValue fuel depth s = parseValue fuel depth (skipSpace s) := by
  cases fuel with
  | zero => simp [parseValue]
  | succ f =>
    conv_lhs => unfold parseValue
    conv_rhs => unfold parseValue
    rw [skipSpace_idem]

theorem compactChars_nil (st : Bool) : compactChars st [] = [] := by
  simp [compactChars]

/-- Leading space does not matter to what a parser consumes and to its compaction. -/
theorem compacts_of_skipSpace {α : Type} (parser : Nat → Nat → Text → Option (α × Text))
    (fuel depth : Nat) (s rest : Text) (y : α)
    (h : ∃ p q, skipSpace s = p ++ rest ∧
      (∃ c q1, q = c :: q1 ∧ isSpace c = false ∧ c ≠ ']' ∧ c ≠ '}') ∧
      (∀ z, compactChars false (p ++ z) = q ++ compactChars false z) ∧
      ∀ t, HeadNot isNumberChar t → parser fuel depth (q ++ t) = some (y, t)) :
    ∃ p q, s = p ++ rest ∧
      (∃ c q1, q = c :: q1 ∧ isSpace c = false ∧ c ≠ ']' ∧ c ≠ '}') ∧
      (∀ z, compactChars false (p ++ z) = q ++ compactChars false z) ∧
      ∀ t, HeadNot isNumberChar t → parser fuel depth (q ++ t) = some (y, t) := by
  obtain ⟨p, q, h1, h2, h3, h4⟩ := h
  obtain ⟨ws, hws, hsp⟩ := skipSpace_decomp s
  refine ⟨ws ++ p, q, ?_, h2, ?_, h4⟩
  · rw [List.append_assoc, ← h1, ← hws]
  · intro z
    rw [List.append_assoc, compactChars_spaces ws _ hsp, h3]

theorem isPlain_structural (c : Char)
    (h : c = '{' ∨ c = '}' ∨ c = '[' ∨ c = ']' ∨ c = ':' ∨ c = ',') : isPlain c = true := by
  rcases h with rfl | rfl | rfl | rfl | rfl | rfl <;> decide

theorem skipSpace_cons_append (c : Char) (q1 t : Text) (h : isSpace c = false) :
    skipSpace (c :: q1 ++ t) = c :: (q1 ++ t) := by
  rw [List.cons_append, skipSpace_of_not_space c _ h]

theorem compacts_parseValue_succ (f : Nat) (hE : Compacts parseElems compactElems f)
    (hM : Compacts parseMembers compactMembers f) :
    Compacts parseValue compactValue (f + 1) := by
  intro depth s v r h
  refine compacts_of_skipSpace parseValue (f + 1) depth s r (compactValue v) ?_
  cases hs : skipSpace s with
  | nil => rw [parseValue_skipSpace, hs] at h; simp [parseValue, skipSpace] at h
  | cons c rest =>
    have hc := skipSpace_head s c rest hs
    rw [parseValue_skipSpace, hs, parseValue_succ_cons _ _ _ _ hc] at h
    by_cases h1 : c = '{'
    · subst h1
      rw [if_pos rfl] at h
      by_cases hd : maxNestingDepth ≤ depth
      · rw [if_pos hd] at h; exact absurd h (by simp)
      rw [if_neg hd] at h
      obtain ⟨ws1, hws1, hsp1⟩ := skipSpace_decomp rest
      cases hs1 : skipSpace rest with
      | nil => rw [hs1] at h; exact absurd h (by simp)
      | cons dch rest1 =>
        rw [hs1] at h hws1
        dsimp only at h
        by_cases h2 : dch = '}'
        · subst h2
          rw [if_pos rfl] at h
          simp only [Option.some.injEq, Prod.mk.injEq] at h
          rw [← h.1, ← h.2]
          refine ⟨'{' :: ws1 ++ ['}'], ['{', '}'], ?_, ⟨'{', ['}'], rfl, by decide, by decide,
            by decide⟩, ?_, ?_⟩
          · rw [hws1]; simp
          · intro z
            simp only [List.cons_append, List.append_assoc, List.nil_append]
            rw [compactChars_plain _ _ _ (by decide), compactChars_spaces ws1 _ hsp1,
              compactChars_plain _ _ _ (by decide)]
          · intro t _
            simp only [List.cons_append, List.nil_append]
            rw [parseValue_succ_cons _ _ _ _ (by decide), if_pos rfl, if_neg hd,
              skipSpace_of_not_space _ _ (by decide)]
            simp [compactValue, compactMembers]
        · rw [if_neg h2] at h
          simp only [Option.map_eq_some', Prod.mk.injEq] at h
          obtain ⟨⟨ms, r1⟩, hpm, hv, hr⟩ := h
          dsimp only at hv hr
          subst hr
          obtain ⟨pm, qm, hpm1, ⟨cq, qm1, hqm, hcq1, _, hcq3⟩, hcomp, hre⟩ := hM _ _ _ _ hpm
          rw [← hv]
          refine ⟨'{' :: ws1 ++ pm, '{' :: qm, ?_, ⟨'{', qm, rfl, by decide, by decide,
            by decide⟩, ?_, ?_⟩
          · rw [hws1, hpm1]; simp
          · intro z
            simp only [List.cons_append, List.append_assoc]
            rw [compactChars_plain _ _ _ (by decide), compactChars_spaces ws1 _ hsp1, hcomp]
          · intro t ht
            have := hre t ht
            rw [hqm, List.cons_append] at this
            simp only [List.cons_append]
            rw [parseValue_succ_cons _ _ _ _ (by decide), if_pos rfl, if_neg hd, hqm,
              List.cons_append, skipSpace_of_not_space _ _ hcq1]
            dsimp only
            rw [if_neg hcq3, this]
            simp [compactValue]
    · rw [if_neg h1] at h
      by_cases h1a : c = '['
      · subst h1a
        rw [if_pos rfl] at h
        by_cases hd : maxNestingDepth ≤ depth
        · rw [if_pos hd] at h; exact absurd h (by simp)
        rw [if_neg hd] at h
        obtain ⟨ws1, hws1, hsp1⟩ := skipSpace_decomp rest
        cases hs1 : skipSpace rest with
        | nil => rw [hs1] at h; exact absurd h (by simp)
        | cons dch rest1 =>
          rw [hs1] at h hws1
          dsimp only at h
          by_cases h2 : dch = ']'
          · subst h2
            rw [if_pos rfl] at h
            simp only [Option.some.injEq, Prod.mk.injEq] at h
            rw [← h.1, ← h.2]
            refine ⟨'[' :: ws1 ++ [']'], ['[', ']'], ?_, ⟨'[', [']'], rfl, by decide, by decide,
              by decide⟩, ?_, ?_⟩
            · rw [hws1]; simp
            · intro z
              simp only [List.cons_append, List.append_assoc, List.nil_append]
              rw [compactChars_plain _ _ _ (by decide), compactChars_spaces ws1 _ hsp1,
                compactChars_plain _ _ _ (by decide)]
            · intro t _
              simp only [List.cons_append, List.nil_append]
              rw [parseValue_succ_cons _ _ _ _ (by decide), if_neg (by decide), if_pos rfl, if_neg hd,
                skipSpace_of_not_space _ _ (by decide)]
              simp [compactValue, compactElems]
          · rw [if_neg h2] at h
            simp only [Option.map_eq_some', Prod.mk.injEq] at h
            obtain ⟨⟨ms, r1⟩, hpm, hv, hr⟩ := h
            dsimp only at hv hr
            subst hr
            obtain ⟨pm, qm, hpm1, ⟨cq, qm1, hqm, hcq1, hcq3, _⟩, hcomp, hre⟩ := hE _ _ _ _ hpm
            rw [← hv]
            refine ⟨'[' :: ws1 ++ pm, '[' :: qm, ?_, ⟨'[', qm, rfl, by decide, by decide,
              by decide⟩, ?_, ?_⟩
            · rw [hws1, hpm1]; simp
            · intro z
              simp only [List.cons_append, List.append_assoc]
              rw [compactChars_plain _ _ _ (by decide), compactChars_spaces ws1 _ hsp1, hcomp]
            · intro t ht
              have := hre t ht
              rw [hqm, List.cons_append] at this
              simp only [List.cons_append]
              rw [parseValue_succ_cons _ _ _ _ (by decide), if_neg (by decide), if_pos rfl, if_neg hd, hqm,
                List.cons_append, skipSpace_of_not_space _ _ hcq1]
              dsimp only
              rw [if_neg hcq3, this]
              simp [compactValue]
      · rw [if_neg h1a] at h
        by_cases h2 : c = '"'
        · subst h2
          rw [if_pos rfl] at h
          simp only [Option.map_eq_some', Prod.mk.injEq] at h
          obtain ⟨⟨body, r1⟩, hscan, hv, hr⟩ := h
          dsimp only at hv hr
          subst hr
          obtain ⟨hvb, hrest⟩ := validBody_of_scanString _ _ _ hscan
          rw [← hv]
          refine ⟨'"' :: body ++ ['"'], '"' :: compactChars true body ++ ['"'], ?_,
            ⟨'"', compactChars true body ++ ['"'], rfl, by decide, by decide, by decide⟩, ?_, ?_⟩
          · rw [hrest]; simp
          · intro z
            simp only [List.cons_append, List.append_assoc, List.nil_append]
            rw [compactChars_open_quote, compactChars_validBody_quote body hvb]
          · intro t _
            simp only [List.cons_append, List.append_assoc, List.nil_append]
            rw [parseValue_succ_cons _ _ _ _ (by decide), if_neg (by decide),
              if_neg (by decide), if_pos rfl,
              scanString_of_validBody _ (validBody_compactChars body hvb)]
            simp [compactValue]
        · rw [if_neg h2] at h
          by_cases h3 : c = 't'
          · subst h3
            rw [if_pos rfl] at h
            simp only [Option.map_eq_some', Prod.mk.injEq] at h
            obtain ⟨r1, hlit, hv, hr⟩ := h
            subst hr
            rw [← hv, stripLit_spec _ _ _ hlit]
            refine ⟨['t', 'r', 'u', 'e'], ['t', 'r', 'u', 'e'], rfl,
              ⟨'t', ['r', 'u', 'e'], rfl, by decide, by decide, by decide⟩, ?_, ?_⟩
            · intro z
              exact compactChars_plain_append false _ z (by decide)
            · intro t _
              simp only [List.cons_append, List.nil_append]
              rw [parseValue_succ_cons _ _ _ _ (by decide)]
              simp [stripLit, compactValue]
          · rw [if_neg h3] at h
            by_cases h4 : c = 'f'
            · subst h4
              rw [if_pos rfl] at h
              simp only [Option.map_eq_some', Prod.mk.injEq] at h
              obtain ⟨r1, hlit, hv, hr⟩ := h
              subst hr
              rw [← hv, stripLit_spec _ _ _ hlit]
              refine ⟨['f', 'a', 'l', 's', 'e'], ['f', 'a', 'l', 's', 'e'], rfl,
                ⟨'f', ['a', 'l', 's', 'e'], rfl, by decide, by decide, by decide⟩, ?_, ?_⟩
              · intro z
                exact compactChars_plain_append false _ z (by decide)
              · intro t _
                simp only [List.cons_append, List.nil_append]
                rw [parseValue_succ_cons _ _ _ _ (by decide)]
                simp [stripLit, compactValue]
            · rw [if_neg h4] at h
              by_cases h5 : c = 'n'
              · subst h5
                rw [if_pos rfl] at h
                simp only [Option.map_eq_some', Prod.mk.injEq] at h
                obtain ⟨r1, hlit, hv, hr⟩ := h
                subst hr
                rw [← hv, stripLit_spec _ _ _ hlit]
                refine ⟨['n', 'u', 'l', 'l'], ['n', 'u', 'l', 'l'], rfl,
                  ⟨'n', ['u', 'l', 'l'], rfl, by decide, by decide, by decide⟩, ?_, ?_⟩
                · intro z
                  exact compactChars_plain_append false _ z (by decide)
                · intro t _
                  simp only [List.cons_append, List.nil_append]
                  rw [parseValue_succ_cons _ _ _ _ (by decide)]
                  simp [stripLit, compactValue]
              · rw [if_neg h5] at h
                simp only [Option.map_eq_some', Prod.mk.injEq] at h
                obtain ⟨⟨lit, r1⟩, hnum, hv, hr⟩ := h
                dsimp only at hv hr
                subst hr
                obtain ⟨hn1, hn2, ⟨c1, l1, hn3, hn4⟩, hn5⟩ := scanNumber_spec _ _ _ hnum
                have hcc : c1 = c := by
                  rw [hn3, List.cons_append] at hn1
                  simp only [List.cons.injEq] at hn1
                  exact hn1.1.symm
                subst hcc
                rw [← hv]
                refine ⟨lit, lit, hn1, ⟨c1, l1, hn3, hc, ?_, ?_⟩, ?_, ?_⟩
                · rintro rfl; exact absurd hn4 (by decide)
                · rintro rfl; exact absurd hn4 (by decide)
                · intro z
                  exact compactChars_plain_append false _ z
                    (fun x hx => isPlain_of_isNumberChar x (hn2 x hx))
                · intro t ht
                  have := hn5 t ht
                  rw [hn3, List.cons_append] at this ⊢
                  rw [parseValue_succ_cons _ _ _ _ hc, if_neg h1, if_neg h1a, if_neg h2,
                    if_neg h3, if_neg h4, if_neg h5, this]
                  simp [compactValue]

theorem headNot_cons (p : Char → Bool) (c : Char) (t : Text) (h : p c = false) :
    HeadNot p (c :: t) := by
  intro x rest hx
  simp only [List.cons.injEq] at hx
  rw [← hx.1]
  exact h

theorem parseElems_succ (fuel depth : Nat) (s : Text) :
    parseElems (fuel + 1) depth s =
      match parseValue fuel depth s with
      | none => none
      | some (v, rest) =>
        match skipSpace rest with
        | [] => none
        | c :: rest1 =>
          if c = ',' then
            (parseElems fuel depth rest1).map fun p => (v :: p.1, p.2)
          else if c = ']' then some ([v], rest1)
          else none := by
  conv_lhs => unfold parseElems

theorem compacts_parseElems_succ (f : Nat) (hV : Compacts parseValue compactValue f)
    (hE : Compacts parseElems compactElems f) :
    Compacts parseElems compactElems (f + 1) := by
  intro depth s vs r h
  rw [parseElems_succ] at h
  cases hv : parseValue f depth s with
  | none => rw [hv] at h; exact absurd h (by simp)
  | some pr =>
    obtain ⟨v, rest⟩ := pr
    rw [hv] at h
    dsimp only at h
    obtain ⟨pv, qv, hpv, ⟨cv, qv1, hqv, hcv1, hcv2, hcv3⟩, hcompv, hrev⟩ := hV _ _ _ _ hv
    obtain ⟨ws, hws, hsp⟩ := skipSpace_decomp rest
    cases hs : skipSpace rest with
    | nil => rw [hs] at h; exact absurd h (by simp)
    | cons c rest1 =>
      rw [hs] at h hws
      dsimp only at h
      by_cases h1 : c = ','
      · subst h1
        rw [if_pos rfl] at h
        simp only [Option.map_eq_some', Prod.mk.injEq] at h
        obtain ⟨⟨vs1, r1⟩, hpe, hvs, hr⟩ := h
        dsimp only at hvs hr
        subst hr
        obtain ⟨pe, qe, hpe1, _, hcompe, hree⟩ := hE _ _ _ _ hpe
        rw [← hvs]
        refine ⟨pv ++ ws ++ ',' :: pe, qv ++ ',' :: qe, ?_,
          ⟨cv, qv1 ++ ',' :: qe, by rw [hqv]; rfl, hcv1, hcv2, hcv3⟩, ?_, ?_⟩
        · rw [hpv, hws, hpe1]; simp
        · intro z
          simp only [List.cons_append, List.append_assoc]
          rw [hcompv, compactChars_spaces ws _ hsp, compactChars_plain _ _ _ (by decide), hcompe]
        · intro t ht
          simp only [List.cons_append, List.append_assoc]
          rw [parseElems_succ, hrev _ (headNot_cons _ _ _ (by decide))]
          dsimp only
          rw [skipSpace_of_not_space _ _ (by decide)]
          dsimp only
          rw [if_pos rfl, hree t ht]
          simp [compactElems]
      · rw [if_neg h1] at h
        by_cases h2 : c = ']'
        · subst h2
          rw [if_pos rfl] at h
          simp only [Option.some.injEq, Prod.mk.injEq] at h
          rw [← h.1, ← h.2]
          refine ⟨pv ++ ws ++ [']'], qv ++ [']'], ?_,
            ⟨cv, qv1 ++ [']'], by rw [hqv]; rfl, hcv1, hcv2, hcv3⟩, ?_, ?_⟩
          · rw [hpv, hws]; simp
          · intro z
            simp only [List.cons_append, List.append_assoc, List.nil_append]
            rw [hcompv, compactChars_spaces ws _ hsp, compactChars_plain _ _ _ (by decide)]
          · intro t _
            simp only [List.cons_append, List.append_assoc, List.nil_append]
            rw [parseElems_succ, hrev _ (headNot_cons _ _ _ (by decide))]
            dsimp only
            rw [skipSpace_of_not_space _ _ (by decide)]
            dsimp only
            rw [if_neg (by decide), if_pos rfl]
            simp [compactElems]
        · rw [if_neg h2] at h; exact absurd h (by simp)

theorem parseMembers_succ (fuel depth : Nat) (s : Text) :
    parseMembers (fuel + 1) depth s =
      match skipSpace s with
      | [] => none
      | q :: rest =>
        if q = '"' then
          match scanString rest with
          | none => none
          | some (key, rest1) =>
            match skipSpace rest1 with
            | [] => none
            | c :: rest2 =>
              if c = ':' then
                match parseValue fuel depth rest2 with
                | none => none
                | some (v, rest3) =>
                  let raw := consumed (skipSpace rest2) rest3
                  match skipSpace rest3 with
                  | [] => none
                  | d :: rest4 =>
                    if d = ',' then
                      (parseMembers fuel depth rest4).map fun p => ((key, raw, v) :: p.1, p.2)
                    else if d = '}' then some ([(key, raw, v)], rest4)
                    else none
              else none
        else none := by
  conv_lhs => unfold parseMembers

theorem compacts_parseMembers_succ (f : Nat) (hV : Compacts parseValue compactValue f)
    (hM : Compacts parseMembers compactMembers f) :
    Compacts parseMembers compactMembers (f + 1) := by
  intro depth s ms r h
  refine compacts_of_skipSpace parseMembers (f + 1) depth s r (compactMembers ms) ?_
  rw [parseMembers_succ] at h
  cases hs : skipSpace s with
  | nil => rw [hs] at h; exact absurd h (by simp)
  | cons q0 rest =>
    rw [hs] at h
    dsimp only at h
    by_cases hq : q0 = '"'
    swap
    · rw [if_neg hq] at h; exact absurd h (by simp)
    subst hq
    rw [if_pos rfl] at h
    cases hscan : scanString rest with
    | none => rw [hscan] at h; exact absurd h (by simp)
    | some kr =>
      obtain ⟨key, rest1⟩ := kr
      rw [hscan] at h
      dsimp only at h
      obtain ⟨hvb, hrest⟩ := validBody_of_scanString _ _ _ hscan
      obtain ⟨ws1, hws1, hsp1⟩ := skipSpace_decomp rest1
      cases hs1 : skipSpace rest1 with
      | nil => rw [hs1] at h; exact absurd h (by simp)
      | cons c rest2 =>
        rw [hs1] at h hws1
        dsimp only at h
        by_cases hcolon : c = ':'
        swap
        · rw [if_neg hcolon] at h; exact absurd h (by simp)
        subst hcolon
        rw [if_pos rfl] at h
        cases hv : parseValue f depth rest2 with
        | none => rw [hv] at h; exact absurd h (by simp)
        | some pr =>
          obtain ⟨v, rest3⟩ := pr
          rw [hv] at h
          dsimp only at h
          obtain ⟨pv, qv, hpv, ⟨cv, qv1, hqv, hcv1, hcv2, hcv3⟩, hcompv, hrev⟩ := hV _ _ _ _ hv
          have hqv0 : compactChars false pv = qv := by
            have := hcompv []
            simpa [compactChars_nil] using this
          have hraw : compactChars false (consumed (skipSpace rest2) rest3) = qv := by
            rw [hpv, compactChars_consumed pv rest3 cv qv1 (by rw [hqv0, hqv]), hqv0]
          have hraw2 : ∀ X, consumed (skipSpace (qv ++ X)) X = qv := by
            intro X
            rw [hqv, List.cons_append, skipSpace_of_not_space _ _ hcv1, ← List.cons_append,
              consumed_append]
          obtain ⟨ws3, hws3, hsp3⟩ := skipSpace_decomp rest3
          cases hs3 : skipSpace rest3 with
          | nil => rw [hs3] at h; exact absurd h (by simp)
          | cons d rest4 =>
            rw [hs3] at h hws3
            dsimp only at h
            by_cases h1 : d = ','
            · subst h1
              rw [if_pos rfl] at h
              simp only [Option.map_eq_some', Prod.mk.injEq] at h
              obtain ⟨⟨ms1, r1⟩, hpm, hms, hr⟩ := h
              dsimp only at hms hr
              subst hr
              obtain ⟨pm, qm, hpm1, _, hcompm, hrem⟩ := hM _ _ _ _ hpm
              rw [← hms]
              refine ⟨'"' :: key ++ '"' :: ws1 ++ ':' :: pv ++ ws3 ++ ',' :: pm,
                '"' :: compactChars true key ++ '"' :: ':' :: qv ++ ',' :: qm, ?_,
                ⟨'"', _, rfl, by decide, by decide, by decide⟩, ?_, ?_⟩
              · rw [hrest, hws1, hpv, hws3, hpm1]; simp
              · intro z
                simp only [List.cons_append, List.append_assoc]
                rw [compactChars_open_quote, compactChars_validBody_quote key hvb,
                  compactChars_spaces ws1 _ hsp1, compactChars_plain _ _ _ (by decide), hcompv,
                  compactChars_spaces ws3 _ hsp3, compactChars_plain _ _ _ (by decide), hcompm]
              · intro t ht
                simp only [List.cons_append, List.append_assoc]
                rw [parseMembers_succ, skipSpace_of_not_space _ _ (by decide)]
                dsimp only
                rw [if_pos rfl, scanString_of_validBody _ (validBody_compactChars key hvb)]
                dsimp only
                rw [skipSpace_of_not_space _ _ (by decide)]
                dsimp only
                rw [if_pos rfl, hrev _ (headNot_cons _ _ _ (by decide))]
                dsimp only
                rw [skipSpace_of_not_space _ _ (by decide)]
                dsimp only
                rw [if_pos rfl, hrem t ht, hraw2]
                simp [compactMembers, hraw]
            · rw [if_neg h1] at h
              by_cases h2 : d = '}'
              · subst h2
                rw [if_pos rfl] at h
                simp only [Option.some.injEq, Prod.mk.injEq] at h
                rw [← h.1, ← h.2]
                refine ⟨'"' :: key ++ '"' :: ws1 ++ ':' :: pv ++ ws3 ++ ['}'],
                  '"' :: compactChars true key ++ '"' :: ':' :: qv ++ ['}'], ?_,
                  ⟨'"', _, rfl, by decide, by decide, by decide⟩, ?_, ?_⟩
                · rw [hrest, hws1, hpv, hws3]; simp
                · intro z
                  simp only [List.cons_append, List.append_assoc, List.nil_append]
                  rw [compactChars_open_quote, compactChars_validBody_quote key hvb,
                    compactChars_spaces ws1 _ hsp1, compactChars_plain _ _ _ (by decide), hcompv,
                    compactChars_spaces ws3 _ hsp3, compactChars_plain _ _ _ (by decide)]
                · intro t _
                  simp only [List.cons_append, List.append_assoc, List.nil_append]
                  rw [parseMembers_succ, skipSpace_of_not_space _ _ (by decide)]
                  dsimp only
                  rw [if_pos rfl, scanString_of_validBody _ (validBody_compactChars key hvb)]
                  dsimp only
                  rw [skipSpace_of_not_space _ _ (by decide)]
                  dsimp only
                  rw [if_pos rfl, hrev _ (headNot_cons _ _ _ (by decide))]
                  dsimp only
                  rw [skipSpace_of_not_space _ _ (by decide)]
                  dsimp only
                  rw [if_neg (by decide), if_pos rfl, hraw2]
                  simp [compactMembers, hraw]
              · rw [if_neg h2] at h; exact absurd h (by simp)

/-- Compaction commutes with the three parsers, with any fuel. -/
theorem compacts_all (f : Nat) :
    Compacts parseValue compactValue f ∧ Compacts parseElems compactElems f ∧
      Compacts parseMembers compactMembers f := by
  induction f with
  | zero =>
    refine ⟨?_, ?_, ?_⟩ <;> intro depth s x rest h
    · simp [parseValue] at h
    · simp [parseElems] at h
    · simp [parseMembers] at h
  | succ f ih =>
    exact ⟨compacts_parseValue_succ f ih.2.1 ih.2.2, compacts_parseElems_succ f ih.1 ih.2.1,
      compacts_parseMembers_succ f ih.1 ih.2.2⟩

end JSON

open JSON Canonical

/-! ## Rendering and compaction -/

theorem orderedInsert_map_of_congr {α : Type} (r : α → α → Prop) [DecidableRel r] (g : α → α)
    (a : α) (l : List α) (h : ∀ b ∈ l, (r (g a) (g b) ↔ r a b)) :
    (l.map g).orderedInsert r (g a) = (l.orderedInsert r a).map g := by
  induction l with
  | nil => rfl
  | cons b l ih =>
    simp only [List.map_cons, List.orderedInsert]
    by_cases hab : r a b
    · rw [if_pos hab, if_pos ((h b (List.mem_cons_self _ _)).2 hab)]
      rfl
    · rw [if_neg hab, if_neg (fun hh => hab ((h b (List.mem_cons_self _ _)).1 hh)),
        ih fun x hx => h x (List.mem_cons_of_mem _ hx)]
      rfl

theorem insertionSort_map_of_congr {α : Type} (r : α → α → Prop) [DecidableRel r] (g : α → α)
    (l : List α) (h : ∀ a ∈ l, ∀ b ∈ l, (r (g a) (g b) ↔ r a b)) :
    (l.map g).insertionSort r = (l.insertionSort r).map g := by
  induction l with
  | nil => rfl
  | cons a l ih =>
    simp only [List.map_cons, List.insertionSort]
    rw [ih fun x hx y hy => h x (List.mem_cons_of_mem _ hx) y (List.mem_cons_of_mem _ hy)]
    refine orderedInsert_map_of_congr r g a _ ?_
    intro b hb
    exact h a (List.mem_cons_self _ _) b
      (List.mem_cons_of_mem _ ((List.perm_insertionSort r l).subset hb))

theorem rendersCompact_nil (v : JSON.Value) (h : RendersCompact v) :
    compactChars false (render v) = render (compactValue v) := by
  have := h []
  simpa [compactChars_nil] using this

theorem rendersCompact_split (v : JSON.Value) (h : RendersCompact v) (z : Text) :
    compactChars false (render v ++ z) =
      compactChars false (render v) ++ compactChars false z := by
  rw [h z, rendersCompact_nil v h]

theorem renderElems_cons (v : JSON.Value) (vs : List JSON.Value) :
    renderElems (v :: vs) = render v :: renderElems vs := by
  simp [renderElems]

theorem compactElems_cons (v : JSON.Value) (vs : List JSON.Value) :
    compactElems (v :: vs) = compactValue v :: compactElems vs := by
  simp [compactElems]

theorem commaJoin_cons_cons (x y : Text) (l : List Text) :
    commaJoin (x :: y :: l) = x ++ ',' :: commaJoin (y :: l) := by
  simp [commaJoin]

/-- The elements of a rendered array are compacted one by one. -/
theorem compactChars_commaJoin_elems (vs : List JSON.Value) (h : ∀ v ∈ vs, RendersCompact v)
    (z : Text) :
    compactChars false (commaJoin (renderElems vs) ++ z) =
      commaJoin (renderElems (compactElems vs)) ++ compactChars false z := by
  induction vs with
  | nil => simp [renderElems, compactElems, commaJoin]
  | cons v vs ih =>
    cases vs with
    | nil =>
      simp only [renderElems, compactElems, commaJoin]
      exact h v (List.mem_cons_self _ _) z
    | cons w ws =>
      have ih1 := ih fun x hx => h x (List.mem_cons_of_mem _ hx)
      have e1 : commaJoin (renderElems (v :: w :: ws)) =
          render v ++ ',' :: commaJoin (renderElems (w :: ws)) := by
        simp [renderElems, commaJoin]
      have e2 : commaJoin (renderElems (compactElems (v :: w :: ws))) =
          render (compactValue v) ++ ',' :: commaJoin (renderElems (compactElems (w :: ws))) := by
        simp [renderElems, compactElems, commaJoin]
      rw [e1, e2, List.append_assoc, h v (List.mem_cons_self _ _), List.cons_append,
        compactChars_plain _ _ _ (by decide), ih1]
      simp

theorem rendersCompact_array (vs : List JSON.Value) (h : ∀ v ∈ vs, RendersCompact v) :
    RendersCompact (JSON.Value.array vs) := by
  intro z
  simp only [render, compactValue, List.cons_append, List.append_assoc, List.nil_append]
  rw [compactChars_plain _ _ _ (by decide), compactChars_commaJoin_elems vs h,
    compactChars_plain _ _ _ (by decide)]

theorem rendersCompact_string (body : Text) (h : ValidBody body) :
    RendersCompact (JSON.Value.string body) := by
  intro z
  simp only [render, compactValue, List.cons_append, List.append_assoc, List.nil_append]
  rw [compactChars_open_quote, compactChars_validBody_quote body h]

theorem rendersCompact_number (lit : Text) (h : ∀ c ∈ lit, isNumberChar c = true) :
    RendersCompact (JSON.Value.number lit) := by
  intro z
  simp only [render, compactValue]
  exact compactChars_plain_append false lit z fun c hc => isPlain_of_isNumberChar c (h c hc)

theorem rendersCompact_null : RendersCompact JSON.Value.null := by
  intro z
  simp only [render, compactValue]
  exact compactChars_plain_append false _ z (by decide)

theorem rendersCompact_bool (b : Bool) : RendersCompact (JSON.Value.bool b) := by
  intro z
  cases b <;> simp only [render, compactValue] <;>
    exact compactChars_plain_append false _ z (by decide)

theorem renderMembers_compactMembers (ms : List (Text × Text × JSON.Value))
    (h : ∀ m ∈ ms, RendersCompact m.2.2) :
    renderMembers (compactMembers ms) = (renderMembers ms).map compactMember := by
  induction ms with
  | nil => simp [renderMembers, compactMembers]
  | cons m ms ih =>
    obtain ⟨k, raw, v⟩ := m
    simp only [renderMembers, compactMembers, List.map_cons, compactMember]
    rw [ih fun x hx => h x (List.mem_cons_of_mem _ hx),
      rendersCompact_nil v (h (k, raw, v) (List.mem_cons_self _ _))]

theorem mem_renderMembers (ms : List (Text × Text × JSON.Value)) (e : Text × Text)
    (he : e ∈ renderMembers ms) : ∃ m ∈ ms, e = (m.1, render m.2.2) := by
  induction ms with
  | nil => simp [renderMembers] at he
  | cons m ms ih =>
    obtain ⟨k, raw, v⟩ := m
    simp only [renderMembers, List.mem_cons] at he
    rcases he with he | he
    · exact ⟨(k, raw, v), List.mem_cons_self _ _, he⟩
    · obtain ⟨m, hm, hme⟩ := ih he
      exact ⟨m, List.mem_cons_of_mem _ hm, hme⟩

theorem memberLE_compactMember (a b : Text × Text) (ha : ValidBody a.1) (hb : ValidBody b.1) :
    memberLE (compactMember a) (compactMember b) ↔ memberLE a b := by
  simp only [memberLE, compactMember]
  rw [unquote_compactChars a.1 ha, unquote_compactChars b.1 hb]

theorem compactChars_memberText (e : Text × Text) (hk : ValidBody e.1)
    (hv : ∀ z, compactChars false (e.2 ++ z) = compactChars false e.2 ++ compactChars false z)
    (z : Text) :
    compactChars false (memberText e ++ z) =
      memberText (compactMember e) ++ compactChars false z := by
  simp only [memberText, compactMember, List.cons_append, List.append_assoc]
  rw [compactChars_open_quote, compactChars_validBody_quote e.1 hk,
    compactChars_plain _ _ _ (by decide), hv]

/-- The members of a rendered object are compacted one by one. -/
theorem compactChars_commaJoin_members (l : List (Text × Text))
    (h : ∀ e ∈ l, ValidBody e.1 ∧
      ∀ z, compactChars false (e.2 ++ z) = compactChars false e.2 ++ compactChars false z)
    (z : Text) :
    compactChars false (commaJoin (l.map memberText) ++ z) =
      commaJoin ((l.map compactMember).map memberText) ++ compactChars false z := by
  induction l with
  | nil => simp [commaJoin]
  | cons e l ih =>
    have he := h e (List.mem_cons_self _ _)
    cases l with
    | nil =>
      simp only [List.map_cons, List.map_nil, commaJoin]
      exact compactChars_memberText e he.1 he.2 z
    | cons e1 l1 =>
      have ih1 := ih fun x hx => h x (List.mem_cons_of_mem _ hx)
      have e1' : commaJoin ((e :: e1 :: l1).map memberText) =
          memberText e ++ ',' :: commaJoin ((e1 :: l1).map memberText) := by
        simp [commaJoin]
      have e2' : commaJoin (((e :: e1 :: l1).map compactMember).map memberText) =
          memberText (compactMember e) ++
            ',' :: commaJoin (((e1 :: l1).map compactMember).map memberText) := by
        simp [commaJoin]
      rw [e1', e2', List.append_assoc, compactChars_memberText e he.1 he.2, List.cons_append,
        compactChars_plain _ _ _ (by decide), ih1]
      simp

theorem rendersCompact_object (ms : List (Text × Text × JSON.Value))
    (h : ∀ m ∈ ms, ValidBody m.1 ∧ RendersCompact m.2.2) :
    RendersCompact (JSON.Value.object ms) := by
  intro z
  have hprop : ∀ e ∈ renderMembers ms, ValidBody e.1 ∧
      ∀ z, compactChars false (e.2 ++ z) = compactChars false e.2 ++ compactChars false z := by
    intro e he
    obtain ⟨m, hm, hme⟩ := mem_renderMembers ms e he
    rw [hme]
    exact ⟨(h m hm).1, fun z => rendersCompact_split m.2.2 (h m hm).2 z⟩
  simp only [render, compactValue, List.cons_append, List.append_assoc, List.nil_append]
  rw [renderMembers_compactMembers ms fun m hm => (h m hm).2,
    insertionSort_map_of_congr memberLE compactMember (renderMembers ms)
      (fun a ha b hb => memberLE_compactMember a b (hprop a ha).1 (hprop b hb).1),
    compactChars_plain _ _ _ (by decide),
    compactChars_commaJoin_members _ (fun e he =>
      hprop e ((List.perm_insertionSort memberLE (renderMembers ms)).subset he)),
    compactChars_plain _ _ _ (by decide)]

/-- The results of the parsers render to texts that compaction goes through. -/
theorem yields_rendersCompact (f : Nat) :
    Yields parseValue RendersCompact f ∧
      Yields parseElems (fun vs => ∀ v ∈ vs, RendersCompact v) f ∧
      Yields parseMembers (fun ms => ∀ m ∈ ms, ValidBody m.1 ∧ RendersCompact m.2.2) f := by
  induction f with
  | zero =>
    refine ⟨?_, ?_, ?_⟩ <;> intro depth s x rest h
    · simp [parseValue] at h
    · simp [parseElems] at h
    · simp [parseMembers] at h
  | succ f ih =>
    obtain ⟨ihV, ihE, ihM⟩ := ih
    refine ⟨?_, ?_, ?_⟩
    · intro depth s v r h
      cases hs : skipSpace s with
      | nil => rw [parseValue_skipSpace, hs] at h; simp [parseValue, skipSpace] at h
      | cons c rest =>
        have hc := skipSpace_head s c rest hs
        rw [parseValue_skipSpace, hs, parseValue_succ_cons _ _ _ _ hc] at h
        by_cases h1 : c = '{'
        · rw [if_pos h1] at h
          by_cases hd : maxNestingDepth ≤ depth
          · rw [if_pos hd] at h; exact absurd h (by simp)
          rw [if_neg hd] at h
          cases hs1 : skipSpace rest with
          | nil => rw [hs1] at h; exact absurd h (by simp)
          | cons d rest1 =>
            rw [hs1] at h
            dsimp only at h
            by_cases h9 : d = '}'
            · rw [if_pos h9] at h
              simp only [Option.some.injEq, Prod.mk.injEq] at h
              rw [← h.1]
              exact rendersCompact_object [] (by simp)
            · rw [if_neg h9] at h
              simp only [Option.map_eq_some', Prod.mk.injEq] at h
              obtain ⟨⟨ms, r1⟩, hpm, hv, _⟩ := h
              rw [← hv]
              exact rendersCompact_object ms (ihM _ _ _ _ hpm)
        rw [if_neg h1] at h
        by_cases h2 : c = '['
        · rw [if_pos h2] at h
          by_cases hd : maxNestingDepth ≤ depth
          · rw [if_pos hd] at h; exact absurd h (by simp)
          rw [if_neg hd] at h
          cases hs1 : skipSpace rest with
          | nil => rw [hs1] at h; exact absurd h (by simp)
          | cons d rest1 =>
            rw [hs1] at h
            dsimp only at h
            by_cases h9 : d = ']'
            · rw [if_pos h9] at h
              simp only [Option.some.injEq, Prod.mk.injEq] at h
              rw [← h.1]
              exact rendersCompact_array [] (by simp)
            · rw [if_neg h9] at h
              simp only [Option.map_eq_some', Prod.mk.injEq] at h
              obtain ⟨⟨vs, r1⟩, hpe, hv, _⟩ := h
              rw [← hv]
              exact rendersCompact_array vs (ihE _ _ _ _ hpe)
        rw [if_neg h2] at h
        by_cases h3 : c = '"'
        · rw [if_pos h3] at h
          simp only [Option.map_eq_some', Prod.mk.injEq] at h
          obtain ⟨⟨body, r1⟩, hscan, hv, _⟩ := h
          rw [← hv]
          exact rendersCompact_string body (validBody_of_scanString _ _ _ hscan).1
        rw [if_neg h3] at h
        by_cases h4 : c = 't'
        · rw [if_pos h4] at h
          simp only [Option.map_eq_some', Prod.mk.injEq] at h
          obtain ⟨r1, _, hv, _⟩ := h
          rw [← hv]
          exact rendersCompact_bool true
        rw [if_neg h4] at h
        by_cases h5 : c = 'f'
        · rw [if_pos h5] at h
          simp only [Option.map_eq_some', Prod.mk.injEq] at h
          obtain ⟨r1, _, hv, _⟩ := h
          rw [← hv]
          exact rendersCompact_bool false
        rw [if_neg h5] at h
        by_cases h6 : c = 'n'
        · rw [if_pos h6] at h
          simp only [Option.map_eq_some', Prod.mk.injEq] at h
          obtain ⟨r1, _, hv, _⟩ := h
          rw [← hv]
          exact rendersCompact_null
        rw [if_neg h6] at h
        simp only [Option.map_eq_some', Prod.mk.injEq] at h
        obtain ⟨⟨lit, r1⟩, hnum, hv, _⟩ := h
        rw [← hv]
        exact rendersCompact_number lit (scanNumber_spec _ _ _ hnum).2.1
    · intro depth s vs r h
      rw [parseElems_succ] at h
      cases hv : parseValue f depth s with
      | none => rw [hv] at h; exact absurd h (by simp)
      | some pr =>
        obtain ⟨v, rest⟩ := pr
        rw [hv] at h
        dsimp only at h
        have hv1 := ihV _ _ _ _ hv
        cases hs : skipSpace rest with
        | nil => rw [hs] at h; exact absurd h (by simp)
        | cons c rest1 =>
          rw [hs] at h
          dsimp only at h
          by_cases h1 : c = ','
          · rw [if_pos h1] at h
            simp only [Option.map_eq_some', Prod.mk.injEq] at h
            obtain ⟨⟨vs1, r1⟩, hpe, hvs, _⟩ := h
            rw [← hvs]
            intro x hx
            rcases List.mem_cons.1 hx with rfl | hx
            · exact hv1
            · exact ihE _ _ _ _ hpe x hx
          rw [if_neg h1] at h
          by_cases h2 : c = ']'
          · rw [if_pos h2] at h
            simp only [Option.some.injEq, Prod.mk.injEq] at h
            rw [← h.1]
            intro x hx
            rw [List.mem_singleton.1 hx]
            exact hv1
          · rw [if_neg h2] at h; exact absurd h (by simp)
    · intro depth s ms r h
      rw [parseMembers_succ] at h
      cases hs : skipSpace s with
      | nil => rw [hs] at h; exact absurd h (by simp)
      | cons q0 rest =>
        rw [hs] at h
        dsimp only at h
        by_cases hq : q0 = '"'
        swap
        · rw [if_neg hq] at h; exact absurd h (by simp)
        rw [if_pos hq] at h
        cases hscan : scanString rest with
        | none => rw [hscan] at h; exact absurd h (by simp)
        | some kr =>
          obtain ⟨key, rest1⟩ := kr
          rw [hscan] at h
          dsimp only at h
          have hvb := (validBody_of_scanString _ _ _ hscan).1
          cases hs1 : skipSpace rest1 with
          | nil => rw [hs1] at h; exact absurd h (by simp)
          | cons c rest2 =>
            rw [hs1] at h
            dsimp only at h
            by_cases hcolon : c = ':'
            swap
            · rw [if_neg hcolon] at h; exact absurd h (by simp)
            rw [if_pos hcolon] at h
            cases hv : parseValue f depth rest2 with
            | none => rw [hv] at h; exact absurd h (by simp)
            | some pr =>
              obtain ⟨v, rest3⟩ := pr
              rw [hv] at h
              dsimp only at h
              have hv1 := ihV _ _ _ _ hv
              cases hs3 : skipSpace rest3 with
              | nil => rw [hs3] at h; exact absurd h (by simp)
              | cons d rest4 =>
                rw [hs3] at h
                dsimp only at h
                by_cases h1 : d = ','
                · rw [if_pos h1] at h
                  simp only [Option.map_eq_some', Prod.mk.injEq] at h
                  obtain ⟨⟨ms1, r1⟩, hpm, hms, _⟩ := h
                  rw [← hms]
                  intro x hx
                  rcases List.mem_cons.1 hx with rfl | hx
                  · exact ⟨hvb, hv1⟩
                  · exact ihM _ _ _ _ hpm x hx
                rw [if_neg h1] at h
                by_cases h2 : d = '}'
                · rw [if_pos h2] at h
                  simp only [Option.some.injEq, Prod.mk.injEq] at h
                  rw [← h.1]
                  intro x hx
                  rw [List.mem_singleton.1 hx]
                  exact ⟨hvb, hv1⟩
                · rw [if_neg h2] at h; exact absurd h (by simp)

/-! ## Nesting depth -/

namespace JSON

/-- A value that parses at some nesting depth parses at every smaller depth to the same
result. -/
theorem depth_pred (f : Nat) :
    (∀ d s x, parseValue f (d + 1) s = some x → parseValue f d s = some x) ∧
      (∀ d s x, parseElems f (d + 1) s = some x → parseElems f d s = some x) ∧
      (∀ d s x, parseMembers f (d + 1) s = some x → parseMembers f d s = some x) := by
  induction f with
  | zero =>
    refine ⟨?_, ?_, ?_⟩ <;> intro d s x h
    · simp [parseValue] at h
    · simp [parseElems] at h
    · simp [parseMembers] at h
  | succ f ih =>
    obtain ⟨ihV, ihE, ihM⟩ := ih
    refine ⟨?_, ?_, ?_⟩
    · intro d s x h
      cases hs : skipSpace s with
      | nil => rw [parseValue_skipSpace, hs] at h; simp [parseValue, skipSpace] at h
      | cons c rest =>
        have hc := skipSpace_head s c rest hs
        rw [parseValue_skipSpace, hs, parseValue_succ_cons _ _ _ _ hc] at h
        rw [parseValue_skipSpace, hs, parseValue_succ_cons _ _ _ _ hc]
        by_cases h1 : c = '{'
        · rw [if_pos h1] at h ⊢
          by_cases hd : maxNestingDepth ≤ d + 1
          · rw [if_pos hd] at h; exact absurd h (by simp)
          rw [if_neg hd] at h
          rw [if_neg (by omega)]
          cases hs1 : skipSpace rest with
          | nil => rw [hs1] at h; exact absurd h (by simp)
          | cons e rest1 =>
            rw [hs1] at h
            dsimp only at h ⊢
            by_cases h9 : e = '}'
            · rw [if_pos h9] at h ⊢
              exact h
            · rw [if_neg h9] at h ⊢
              simp only [Option.map_eq_some'] at h ⊢
              obtain ⟨p, hp, hx⟩ := h
              exact ⟨p, ihM _ _ _ hp, hx⟩
        rw [if_neg h1] at h ⊢
        by_cases h2 : c = '['
        · rw [if_pos h2] at h ⊢
          by_cases hd : maxNestingDepth ≤ d + 1
          · rw [if_pos hd] at h; exact absurd h (by simp)
          rw [if_neg hd] at h
          rw [if_neg (by omega)]
          cases hs1 : skipSpace rest with
          | nil => rw [hs1] at h; exact absurd h (by simp)
          | cons e rest1 =>
            rw [hs1] at h
            dsimp only at h ⊢
            by_cases h9 : e = ']'
            · rw [if_pos h9] at h ⊢
              exact h
            · rw [if_neg h9] at h ⊢
              simp only [Option.map_eq_some'] at h ⊢
              obtain ⟨p, hp, hx⟩ := h
              exact ⟨p, ihE _ _ _ hp, hx⟩
        rw [if_neg h2] at h ⊢
        exact h
    · intro d s x h
      rw [parseElems_succ] at h ⊢
      cases hv : parseValue f (d + 1) s with
      | none => rw [hv] at h; exact absurd h (by simp)
      | some pr =>
        obtain ⟨v, rest⟩ := pr
        rw [hv] at h
        rw [ihV _ _ _ hv]
        dsimp only at h ⊢
        cases hs : skipSpace rest with
        | nil => rw [hs] at h; exact absurd h (by simp)
        | cons c rest1 =>
          rw [hs] at h
          dsimp only at h ⊢
          by_cases h1 : c = ','
          · rw [if_pos h1] at h ⊢
            simp only [Option.map_eq_some'] at h ⊢
            obtain ⟨p, hp, hx⟩ := h
            exact ⟨p, ihE _ _ _ hp, hx⟩
          · rw [if_neg h1] at h ⊢
            exact h
    · intro d s x h
      rw [parseMembers_succ] at h ⊢
      cases hs : skipSpace s with
      | nil => rw [hs] at h; exact absurd h (by simp)
      | cons q0 rest =>
        rw [hs] at h
        dsimp only at h ⊢
        by_cases hq : q0 = '"'
        swap
        · rw [if_neg hq] at h; exact absurd h (by simp)
        rw [if_pos hq] at h ⊢
        cases hscan : scanString rest with
        | none => rw [hscan] at h; exact absurd h (by simp)
        | some kr =>
          obtain ⟨key, rest1⟩ := kr
          rw [hscan] at h
          dsimp only at h ⊢
          cases hs1 : skipSpace rest1 with
          | nil => rw [hs1] at h; exact absurd h (by simp)
          | cons c rest2 =>
            rw [hs1] at h
            dsimp only at h ⊢
            by_cases hcolon : c = ':'
            swap
            · rw [if_neg hcolon] at h; exact absurd h (by simp)
            rw [if_pos hcolon] at h ⊢
            cases hv : parseValue f (d + 1) rest2 with
            | none => rw [hv] at h; exact absurd h (by simp)
            | some pr =>
              obtain ⟨v, rest3⟩ := pr
              rw [hv] at h
              rw [ihV _ _ _ hv]
              dsimp only at h ⊢
              cases hs3 : skipSpace rest3 with
              | nil => rw [hs3] at h; exact absurd h (by simp)
              | cons e rest4 =>
                rw [hs3] at h
                dsimp only at h ⊢
                by_cases h1 : e = ','
                · rw [if_pos h1] at h ⊢
                  simp only [Option.map_eq_some'] at h ⊢
                  obtain ⟨p, hp, hx⟩ := h
                  exact ⟨p, ihM _ _ _ hp, hx⟩
                · rw [if_neg h1] at h ⊢
                  exact h

theorem parseAt_pred (d : Nat) (s : Text) (v : Value) (h : parseAt (d + 1) s = some v) :
    parseAt d s = some v := by
  unfold parseAt at h ⊢
  cases hp : parseValue (s.length + 1) (d + 1) s with
  | none => rw [hp] at h; exact absurd h (by simp)
  | some pr =>
    rw [hp] at h
    rw [(depth_pred (s.length + 1)).1 d s pr hp]
    exact h

theorem parse_eq_parseAt (s : Text) : parse s = parseAt 0 s := rfl

end JSON

open JSON Canonical

/-! ## The text `json.Marshal` writes for a map -/

theorem compactChars_of_all_space (r : Text) (h : skipSpace r = []) :
    compactChars false r = [] := by
  have := compactChars_spaces r [] ((skipSpace_eq_nil_iff r).1 h)
  simpa [compactChars_nil] using this

/-- A raw value that is valid as the value of a member: `json.Marshal` compacts it, the
compacted text parses in front of any text that ends a number, to the compacted value, and
the rendering of that value is the compacted rendering of the value. -/
theorem member_value_facts (raw : Text) (v : JSON.Value) (h : parseAt 1 raw = some v) :
    compact raw = some (compactChars false raw) ∧
      (∃ c q1, compactChars false raw = c :: q1 ∧ isSpace c = false) ∧
      (∀ t, HeadNot isNumberChar t → ∀ g, (compactChars false raw).length < g →
        parseValue g 1 (compactChars false raw ++ t) = some (compactValue v, t)) ∧
      RendersCompact v := by
  have hparse : parse raw = some v := parseAt_pred 0 raw v h
  unfold parseAt at h
  cases hp : parseValue (raw.length + 1) 1 raw with
  | none => rw [hp] at h; exact absurd h (by simp)
  | some pr =>
    obtain ⟨v1, r0⟩ := pr
    rw [hp] at h
    dsimp only at h
    by_cases hr0 : (skipSpace r0).isEmpty = true
    swap
    · rw [if_neg hr0] at h; exact absurd h (by simp)
    rw [if_pos hr0] at h
    simp only [Option.some.injEq] at h
    subst h
    have hr0' : skipSpace r0 = [] := List.isEmpty_iff.1 hr0
    obtain ⟨p, q, hraw, ⟨c, q1, hq, hc, _, _⟩, hcomp, hre⟩ :=
      (compacts_all (raw.length + 1)).1 1 raw v1 r0 hp
    have hq0 : compactChars false raw = q := by
      rw [hraw, hcomp, compactChars_of_all_space r0 hr0', List.append_nil]
    refine ⟨?_, ⟨c, q1, by rw [hq0, hq], hc⟩, ?_, ?_⟩
    · simp only [compact, hparse]
    · intro t ht g hg
      rw [hq0] at hg ⊢
      have := (fuelEnough_all (raw.length + 1)).1 1 (q ++ t) (compactValue v1) t (hre t ht)
      exact this.2 g (by simp only [List.length_append]; omega)
    · exact (yields_rendersCompact (raw.length + 1)).1 1 raw v1 r0 hp

theorem parseMembers_entry (e : Text × Text) (v : JSON.Value) (h : parseAt 1 e.2 = some v)
    (X : Text) (hX : HeadNot isNumberChar X) (g : Nat)
    (hg : (compactChars false e.2).length < g) :
    parseMembers (g + 1) 1 ('"' :: quoteBody e.1 ++ '"' :: ':' :: compactChars false e.2 ++ X) =
      match skipSpace X with
      | [] => none
      | d :: rest4 =>
        if d = ',' then
          (parseMembers g 1 rest4).map fun p =>
            ((quoteBody e.1, compactChars false e.2, compactValue v) :: p.1, p.2)
        else if d = '}' then
          some ([(quoteBody e.1, compactChars false e.2, compactValue v)], rest4)
        else none := by
  obtain ⟨_, ⟨c, q1, hq, hc⟩, hre, _⟩ := member_value_facts e.2 v h
  have hraw : consumed (skipSpace (compactChars false e.2 ++ X)) X = compactChars false e.2 := by
    rw [hq, List.cons_append, skipSpace_of_not_space _ _ hc, ← List.cons_append,
      consumed_append]
  simp only [List.cons_append, List.append_assoc]
  rw [parseMembers_succ, skipSpace_of_not_space _ _ (by decide)]
  dsimp only
  rw [if_pos rfl, scanString_of_validBody _ (validBody_quoteBody e.1)]
  dsimp only
  rw [skipSpace_of_not_space _ _ (by decide)]
  dsimp only
  rw [if_pos rfl, hre X hX g hg]
  dsimp only
  rw [hraw]

theorem marshalEntry_eq (e : Text × Text) (v : JSON.Value) (h : parseAt 1 e.2 = some v) :
    marshalEntry e = some ('"' :: quoteBody e.1 ++ '"' :: ':' :: compactChars false e.2) := by
  simp only [marshalEntry, (member_value_facts e.2 v h).1, Option.map_some']

theorem renderedEntry_eq (e : Text × Text) (v : JSON.Value) (h : parseAt 1 e.2 = some v) :
    renderedEntry e = (quoteBody e.1, render (compactValue v)) := by
  simp only [renderedEntry, h, rendersCompact_nil v (member_value_facts e.2 v h).2.2.2]

/-- The members that `json.Marshal` writes parse, in front of the closing brace, to members
whose rendering is that of the entries. -/
theorem parseMembers_marshalEntries (es : List (Text × Text)) (hne : es ≠ [])
    (h : ∀ e ∈ es, ∃ v, parseAt 1 e.2 = some v) :
    ∃ body ms N, marshalEntries es = some body ∧ (∃ q1, body = '"' :: q1) ∧
      (∀ t g, N ≤ g → parseMembers g 1 (body ++ '}' :: t) = some (ms, t)) ∧
      renderMembers ms = es.map renderedEntry := by
  induction es with
  | nil => exact absurd rfl hne
  | cons e es ih =>
    obtain ⟨v, hv⟩ := h e (List.mem_cons_self _ _)
    cases es with
    | nil =>
      refine ⟨'"' :: quoteBody e.1 ++ '"' :: ':' :: compactChars false e.2,
        [(quoteBody e.1, compactChars false e.2, compactValue v)],
        (compactChars false e.2).length + 2, ?_, ⟨_, rfl⟩, ?_, ?_⟩
      · simp only [marshalEntries]
        exact marshalEntry_eq e v hv
      · intro t g hg
        obtain ⟨g1, rfl⟩ : ∃ g1, g = g1 + 1 := ⟨g - 1, by omega⟩
        rw [parseMembers_entry e v hv _ (headNot_cons _ _ _ (by decide)) g1 (by omega),
          skipSpace_of_not_space _ _ (by decide)]
        simp
      · simp [renderMembers, renderedEntry_eq e v hv]
    | cons e1 es1 =>
      obtain ⟨body, ms, N, hbody, _, hparse, hrender⟩ :=
        ih (by simp) fun x hx => h x (List.mem_cons_of_mem _ hx)
      refine ⟨'"' :: quoteBody e.1 ++ '"' :: ':' :: compactChars false e.2 ++ ',' :: body,
        (quoteBody e.1, compactChars false e.2, compactValue v) :: ms,
        max ((compactChars false e.2).length + 1) N + 1, ?_, ⟨_, rfl⟩, ?_, ?_⟩
      · simp [marshalEntries, marshalEntry_eq e v hv, hbody]
      · intro t g hg
        obtain ⟨g1, rfl⟩ : ∃ g1, g = g1 + 1 := ⟨g - 1, by omega⟩
        have hg1 : (compactChars false e.2).length < g1 := by omega
        have hg2 : N ≤ g1 := by omega
        have := parseMembers_entry e v hv (',' :: body ++ '}' :: t)
          (headNot_cons _ _ _ (by decide)) g1 hg1
        simp only [List.cons_append, List.append_assoc] at this ⊢
        rw [this, skipSpace_of_not_space _ _ (by decide)]
        dsimp only
        rw [if_pos rfl, hparse t g1 hg2]
        rfl
      · simp only [renderMembers, List.map_cons, renderedEntry_eq e v hv]
        rw [hrender]
        rfl

/-- The text `json.Marshal` writes for a map whose raw values are valid as values of members
is a JSON document, and its canonical form is the rendering of the entries. -/
theorem canonicalJSON_marshalMap (es : List (Text × Text))
    (h : ∀ e ∈ es, ∃ v, parseAt 1 e.2 = some v) :
    ∃ x, marshalMap (some es) = some x ∧
      Canonical.canonicalJSON x =
        some (renderObject ((es.insertionSort entryLE).map renderedEntry)) := by
  have hS : ∀ e ∈ es.insertionSort entryLE, ∃ v, parseAt 1 e.2 = some v :=
    fun e he => h e ((List.perm_insertionSort entryLE es).subset he)
  cases hS0 : es.insertionSort entryLE with
  | nil =>
    refine ⟨['{', '}'], ?_, ?_⟩
    · simp [marshalMap, hS0, marshalEntries]
    · decide
  | cons e0 S1 =>
    rw [hS0] at hS
    obtain ⟨body, ms, N, hbody, ⟨q1, hq1⟩, hparse, hrender⟩ :=
      parseMembers_marshalEntries (e0 :: S1) (by simp) hS
    refine ⟨'{' :: body ++ ['}'], ?_, ?_⟩
    · simp [marshalMap, hS0, hbody]
    · have hp : parseValue (N + 1) 0 ('{' :: body ++ ['}']) = some (JSON.Value.object ms, []) := by
        have := hparse [] N (Nat.le_refl _)
        rw [hq1] at this ⊢
        simp only [List.cons_append] at this ⊢
        rw [parseValue_succ_cons _ _ _ _ (by decide), if_pos rfl, if_neg (by decide),
          skipSpace_of_not_space _ _ (by decide)]
        dsimp only
        rw [if_neg (by decide), this]
        rfl
      have hparse0 := parse_of_parseValue (N + 1) _ _ _ hp rfl
      simp only [Canonical.canonicalJSON, hparse0, Option.map_some', render, hrender,
        renderObject]

/-- The keys of two maps with the same keys come in the same order in what `json.Marshal`
writes. -/
theorem sorted_keys_eq (a b : List (Text × Text)) (ha : (entryKeys a).Nodup)
    (hb : (entryKeys b).Nodup) (hkeys : ∀ k, k ∈ entryKeys a ↔ k ∈ entryKeys b) :
    entryKeys (a.insertionSort entryLE) = entryKeys (b.insertionSort entryLE) := by
  haveI : IsTotal (Text × Text) entryLE := ⟨fun a b => textLE_total a.1 b.1⟩
  haveI : IsTrans (Text × Text) entryLE := ⟨fun a b c => textLE_trans a.1 b.1 c.1⟩
  have hperm : (entryKeys (a.insertionSort entryLE)).Perm
      (entryKeys (b.insertionSort entryLE)) := by
    have h1 : (entryKeys (a.insertionSort entryLE)).Perm (entryKeys a) :=
      (List.perm_insertionSort entryLE a).map Prod.fst
    have h2 : (entryKeys (b.insertionSort entryLE)).Perm (entryKeys b) :=
      (List.perm_insertionSort entryLE b).map Prod.fst
    have h3 : (entryKeys a).Perm (entryKeys b) :=
      (List.perm_ext_iff_of_nodup ha hb).2 hkeys
    exact h1.trans (h3.trans h2.symm)
  have hsorted : ∀ l : List (Text × Text),
      (entryKeys (l.insertionSort entryLE)).Sorted (fun x y => textLE x y = true) := by
    intro l
    have := List.sorted_insertionSort entryLE l
    unfold List.Sorted entryKeys at *
    rw [List.pairwise_map]
    exact this
  exact List.Perm.eq_of_sorted (fun x y _ _ hxy hyx => textLE_antisymm x y hxy hyx)
    (hsorted a) (hsorted b) hperm

theorem map_renderedEntry_eq (a l : List (Text × Text)) (ha : (entryKeys a).Nodup)
    (hl : ∀ e ∈ l, e ∈ a) :
    l.map renderedEntry =
      (entryKeys l).map fun k => renderedEntry (k, mapIndex (some a) k) := by
  unfold entryKeys
  rw [List.map_map]
  refine List.map_congr_left ?_
  intro e he
  obtain ⟨k, v⟩ := e
  have := (mem_iff_mapLookup a ha k v).1 (hl (k, v) he)
  simp only [Function.comp, mapIndex, this, Option.getD_some]

theorem renderedEntry_eq_of_sameValue (k x y : Text) (h : sameValue x y) :
    renderedEntry (k, x) = renderedEntry (k, y) := by
  unfold sameValue sameAt at h
  split at h
  · next vx vy hx hy => simp only [renderedEntry, hx, hy, h]
  · exact False.elim h

theorem valid_of_entriesAlike (a b : List (Text × Text)) (ha : (entryKeys a).Nodup)
    (h : entriesAlike a b) : ∀ e ∈ a, ∃ v, parseAt 1 e.2 = some v := by
  intro e he
  obtain ⟨k, raw⟩ := e
  have hk : k ∈ entryKeys a ++ entryKeys b :=
    List.mem_append_left _ (List.mem_map_of_mem Prod.fst he)
  have hv := h k hk
  rw [(mem_iff_mapLookup a ha k raw).1 he] at hv
  unfold valuesAlike at hv
  split at hv
  · next x y hx hy =>
    simp only [Option.some.injEq] at hx
    subst hx
    unfold sameValue sameAt at hv
    split at hv
    · next vx vy hvx hvy => exact ⟨vx, hvx⟩
    · exact False.elim hv
  · exact False.elim hv

theorem entriesAlike_symm (a b : List (Text × Text)) (h : entriesAlike a b) :
    entriesAlike b a := by
  intro k hk
  have hv := h k (by simpa [or_comm] using hk)
  unfold valuesAlike at hv ⊢
  split at hv
  · next x y hx hy =>
    rw [hx, hy]
    dsimp only
    unfold sameValue sameAt at hv ⊢
    split at hv
    · next vx vy hvx hvy =>
      rw [hvx, hvy]
      exact hv.symm
    · exact False.elim hv
  · exact False.elim hv

theorem mapLookup_eq_none_of_not_mem (es : List (Text × Text)) (k : Text)
    (h : k ∉ entryKeys es) : mapLookup (some es) k = none := by
  simp only [mapLookup, Option.map_eq_none', List.find?_eq_none, decide_eq_true_eq]
  intro e he hk
  exact h (hk ▸ List.mem_map_of_mem Prod.fst he)

theorem keys_of_entriesAlike (a b : List (Text × Text)) (h : entriesAlike a b) (k : Text)
    (hk : k ∈ entryKeys a) : k ∈ entryKeys b := by
  by_contra hnot
  have hv := h k (List.mem_append_left _ hk)
  rw [mapLookup_eq_none_of_not_mem b k hnot] at hv
  unfold valuesAlike at hv
  split at hv
  · next x y hx hy => exact absurd hy (by simp)
  · exact hv

/-- The texts `json.Marshal` writes for two structurally equal maps are structurally equal
documents. -/
theorem marshalMap_sameText (a b : List (Text × Text)) (ha : (entryKeys a).Nodup)
    (hb : (entryKeys b).Nodup) (h : entriesAlike a b) :
    ∃ x y, marshalMap (some a) = some x ∧ marshalMap (some b) = some y ∧ sameText x y := by
  have h' := entriesAlike_symm a b h
  obtain ⟨x, hx, hcx⟩ := canonicalJSON_marshalMap a (valid_of_entriesAlike a b ha h)
  obtain ⟨y, hy, hcy⟩ := canonicalJSON_marshalMap b (valid_of_entriesAlike b a hb h')
  refine ⟨x, y, hx, hy, ?_⟩
  have hkeys := sorted_keys_eq a b ha hb
    fun k => ⟨keys_of_entriesAlike a b h k, keys_of_entriesAlike b a h' k⟩
  have hrender : (a.insertionSort entryLE).map renderedEntry =
      (b.insertionSort entryLE).map renderedEntry := by
    rw [map_renderedEntry_eq a _ ha fun e he => (List.perm_insertionSort entryLE a).subset he,
      map_renderedEntry_eq b _ hb fun e he => (List.perm_insertionSort entryLE b).subset he,
      ← hkeys]
    refine List.map_congr_left ?_
    intro k hk
    have hka : k ∈ entryKeys a :=
      ((List.perm_insertionSort entryLE a).map Prod.fst).subset hk
    have hv := h k (List.mem_append_left _ hka)
    unfold valuesAlike at hv
    split at hv
    · next ra rb hra hrb =>
      simp only [mapIndex, hra, hrb, Option.getD_some]
      exact renderedEntry_eq_of_sameValue k ra rb hv
    · exact False.elim hv
  rw [hrender] at hcx
  unfold Canonical.canonicalJSON at hcx hcy
  unfold sameText sameAt
  rw [← parse_eq_parseAt, ← parse_eq_parseAt]
  cases hpx : parse x with
  | none => rw [hpx] at hcx; exact absurd hcx (by simp)
  | some vx =>
    cases hpy : parse y with
    | none => rw [hpy] at hcy; exact absurd hcy (by simp)
    | some vy =>
      rw [hpx] at hcx
      rw [hpy] at hcy
      simp only [Option.map_some', Option.some.injEq] at hcx hcy
      dsimp only
      rw [hcx, hcy]

/-! ## The derived identifier -/

theorem deriveEventID_of_hashable (env : Env) (eventJSON roomVerStr : Text)
    (verImpl : RoomVersionImpl) (canonical : Text)
    (hver : env.getRoomVersion roomVerStr = some verImpl)
    (hcanon : hashableEventJSON env verImpl eventJSON = some canonical) :
    ∃ redactedJSON event, verImpl.redactEventJSON eventJSON = some redactedJSON ∧
      unmarshalMap redactedJSON = some event ∧
      deriveEventID env [eventJSON, roomVerStr] =
        encodeByFormat verImpl (mapIndex event eventIDKey) (env.sum256 canonical) := by
  rw [deriveEventID_eq env eventJSON roomVerStr verImpl hver]
  unfold hashableEventJSON hashedMap canonicalSerialization at hcanon
  cases hred : verImpl.redactEventJSON eventJSON with
  | none => simp [hred] at hcanon
  | some r =>
    cases hparse : unmarshalMap r with
    | none => simp [hred, hparse] at hcanon
    | some event =>
      cases hm : marshalMap (withoutKeys event identityKeys) with
      | none => simp [hred, hparse, hm] at hcanon
      | some h =>
        simp only [hred, hparse, hm, Option.some_bind, Option.map_some'] at hcanon
        exact ⟨r, event, rfl, hparse, by simp only [hparse, hm, hcanon]⟩

theorem hashable_of_deriveEventID_ok (env : Env) (eventJSON roomVerStr : Text)
    (verImpl : RoomVersionImpl) (eventID : Text)
    (hver : env.getRoomVersion roomVerStr = some verImpl)
    (hok : deriveEventID env [eventJSON, roomVerStr] = .ok eventID) :
    ∃ canonical, hashableEventJSON env verImpl eventJSON = some canonical := by
  rw [deriveEventID_eq env eventJSON roomVerStr verImpl hver] at hok
  unfold hashableEventJSON hashedMap canonicalSerialization
  cases hred : verImpl.redactEventJSON eventJSON with
  | none => simp [hred] at hok
  | some r =>
    cases hparse : unmarshalMap r with
    | none => simp [hred, hparse] at hok
    | some event =>
      cases hm : marshalMap (withoutKeys event identityKeys) with
      | none => simp [hred, hparse, hm] at hok
      | some h =>
        cases hc : env.canonicalJSON h with
        | none => simp [hred, hparse, hm, hc] at hok
        | some c => exact ⟨c, by simp [hparse, hm, hc]⟩

theorem deriveEventID_cases (env : Env) (eventJSON roomVerStr : Text)
    (verImpl : RoomVersionImpl) (hver : env.getRoomVersion roomVerStr = some verImpl) :
    (hashableEventJSON env verImpl eventJSON = none ∧
        ∃ f, deriveEventID env [eventJSON, roomVerStr] = .error f) ∨
      ∃ redactedJSON event canonical, verImpl.redactEventJSON eventJSON = some redactedJSON ∧
        unmarshalMap redactedJSON = some event ∧
        hashableEventJSON env verImpl eventJSON = some canonical ∧
        deriveEventID env [eventJSON, roomVerStr] =
          encodeByFormat verImpl (mapIndex event eventIDKey) (env.sum256 canonical) := by
  cases hcanon : hashableEventJSON env verImpl eventJSON with
  | some canonical =>
    obtain ⟨r, event, hr, he, hd⟩ :=
      deriveEventID_of_hashable env eventJSON roomVerStr verImpl canonical hver hcanon
    exact Or.inr ⟨r, event, canonical, hr, he, rfl, hd⟩
  | none =>
    refine Or.inl ⟨rfl, ?_⟩
    cases hd : deriveEventID env [eventJSON, roomVerStr] with
    | error f => exact ⟨f, rfl⟩
    | ok eventID =>
      obtain ⟨c, hc⟩ :=
        hashable_of_deriveEventID_ok env eventJSON roomVerStr verImpl eventID hver hd
      rw [hcanon] at hc
      exact absurd hc (by simp)

theorem encodeByFormat_hashDerived (verImpl : RoomVersionImpl) (existing : Text)
    (digest : Digest) (hfmt : verImpl.eventFormat = EventFormatV2)
    (henc : verImpl.eventIDFormat = EventIDFormatV2 ∨ verImpl.eventIDFormat = EventIDFormatV3) :
    encodeByFormat verImpl existing digest =
      .ok ('$' :: Base64.encodeToString (alphabetOf verImpl.eventIDFormat) digest.bytes) := by
  have h12 : ¬ EventFormatV2 = EventFormatV1 := by decide
  have h32 : ¬ EventIDFormatV3 = EventIDFormatV2 := by decide
  rcases henc with h | h
  · simp [encodeByFormat, alphabetOf, hfmt, h, h12]
  · simp [encodeByFormat, alphabetOf, hfmt, h, h12, h32]

/-- Claim C1. Under a rule set whose event format is `EventFormatV2` and whose identifier
format is `EventIDFormatV2` or `EventIDFormatV3`, whenever redaction, parsing and
canonicalization succeed, `eventIDForEvent` returns `$` followed by the unpadded Base64, in
the alphabet the identifier format declares, of the SHA-256 digest of the canonical JSON of
the redacted event without its top-level keys `signatures`, `unsigned` and `event_id`. -/
theorem eventID_hashDerived (env : Env) (eventJSON roomVerStr : Text)
    (verImpl : RoomVersionImpl) (canonical : Text)
    (hver : env.getRoomVersion roomVerStr = some verImpl)
    (hfmt : verImpl.eventFormat = EventFormatV2)
    (henc : verImpl.eventIDFormat = EventIDFormatV2 ∨ verImpl.eventIDFormat = EventIDFormatV3)
    (hcanon : hashableEventJSON env verImpl eventJSON = some canonical) :
    eventIDForEvent env [eventJSON, roomVerStr] =
      '$' :: Base64.encodeToString (alphabetOf verImpl.eventIDFormat)
        (env.sum256 canonical).bytes := by
  obtain ⟨_, event, _, _, hd⟩ :=
    deriveEventID_of_hashable env eventJSON roomVerStr verImpl canonical hver hcanon
  rw [eventIDForEvent, hd, encodeByFormat_hashDerived verImpl _ _ hfmt henc]

/-- The scenario event under room version 4: the identifier is the URL-safe Base64 of the
SHA-256 of the canonical JSON of its `content` and `type`. -/
theorem eventID_hashDerived_witness :
    hashableEventJSON sampleEnv sampleHashURL sampleEvent =
        some "\x7b\"content\":\x7b\"body\":\"hi\"\x7d,\"type\":\"m.room.message\"\x7d".toList ∧
      eventIDForEvent sampleEnv [sampleEvent, "4".toList] =
        '$' :: Base64.encodeToString Base64.encodeURL
          (SHA256.sum256 "\x7b\"content\":\x7b\"body\":\"hi\"\x7d,\"type\":\"m.room.message\"\x7d".toList).bytes :=
  ⟨by decide,
    eventID_hashDerived sampleEnv sampleEvent "4".toList sampleHashURL _ rfl (by decide)
      (by decide) (by decide)⟩

theorem goodAlphabet_alphabetOf (format : EventIDFormat) :
    Base64.GoodAlphabet (alphabetOf format) := by
  unfold alphabetOf
  split
  · exact Base64.goodAlphabet_encodeStd
  · exact Base64.goodAlphabet_encodeURL

theorem encodeByFormat_hashDerived_ok (verImpl : RoomVersionImpl) (existing : Text)
    (digest : Digest) (eventID : Text) (hfmt : verImpl.eventFormat = EventFormatV2)
    (hok : encodeByFormat verImpl existing digest = .ok eventID) :
    (verImpl.eventIDFormat = EventIDFormatV2 ∨ verImpl.eventIDFormat = EventIDFormatV3) ∧
      eventID = '$' :: Base64.encodeToString (alphabetOf verImpl.eventIDFormat) digest.bytes := by
  have h12 : ¬ EventFormatV2 = EventFormatV1 := by decide
  by_cases h2 : verImpl.eventIDFormat = EventIDFormatV2
  · rw [encodeByFormat_hashDerived verImpl existing digest hfmt (Or.inl h2)] at hok
    exact ⟨Or.inl h2, (Except.ok.inj hok).symm⟩
  · by_cases h3 : verImpl.eventIDFormat = EventIDFormatV3
    · rw [encodeByFormat_hashDerived verImpl existing digest hfmt (Or.inr h3)] at hok
      exact ⟨Or.inr h3, (Except.ok.inj hok).symm⟩
    · simp [encodeByFormat, hfmt, h12, h2, h3] at hok

theorem eventIDForEvent_of_ok (env : Env) (args : List Text) (eventID : Text)
    (hok : deriveEventID env args = .ok eventID) : eventIDForEvent env args = eventID := by
  rw [eventIDForEvent, hok]

theorem eventIDForEvent_of_error (env : Env) (args : List Text) (f : Failure)
    (hfail : deriveEventID env args = .error f) : eventIDForEvent env args = [] := by
  rw [eventIDForEvent, hfail]

theorem eventID_of_hashDerived_ok (env : Env) (eventJSON roomVerStr : Text)
    (verImpl : RoomVersionImpl) (eventID : Text)
    (hver : env.getRoomVersion roomVerStr = some verImpl)
    (hfmt : verImpl.eventFormat = EventFormatV2)
    (hok : deriveEventID env [eventJSON, roomVerStr] = .ok eventID) :
    (verImpl.eventIDFormat = EventIDFormatV2 ∨ verImpl.eventIDFormat = EventIDFormatV3) ∧
      ∃ canonical, hashableEventJSON env verImpl eventJSON = some canonical ∧
        eventID = '$' :: Base64.encodeToString (alphabetOf verImpl.eventIDFormat)
          (env.sum256 canonical).bytes := by
  obtain ⟨canonical, hcanon⟩ :=
    hashable_of_deriveEventID_ok env eventJSON roomVerStr verImpl eventID hver hok
  obtain ⟨_, event, _, _, hd⟩ :=
    deriveEventID_of_hashable env eventJSON roomVerStr verImpl canonical hver hcanon
  rw [hd] at hok
  obtain ⟨henc, hform⟩ := encodeByFormat_hashDerived_ok verImpl _ _ eventID hfmt hok
  exact ⟨henc, canonical, hcanon, hform⟩

/-- Claim C5. Under a rule set whose event format is `EventFormatV2`, an identifier that
`eventIDForEvent` derives starts with `$`, contains no `=`, is 44 characters long, and the
part after `$`, decoded with the alphabet the identifier format declares, is the 32-byte
SHA-256 digest of the text that was hashed. -/
theorem eventID_encoding (env : Env) (eventJSON roomVerStr : Text) (verImpl : RoomVersionImpl)
    (eventID : Text)
    (hver : env.getRoomVersion roomVerStr = some verImpl)
    (hfmt : verImpl.eventFormat = EventFormatV2)
    (hok : deriveEventID env [eventJSON, roomVerStr] = .ok eventID) :
    eventIDForEvent env [eventJSON, roomVerStr] = eventID ∧
      (verImpl.eventIDFormat = EventIDFormatV2 ∨ verImpl.eventIDFormat = EventIDFormatV3) ∧
      ∃ canonical, hashableEventJSON env verImpl eventJSON = some canonical ∧
        eventID.head? = some '$' ∧ '=' ∉ eventID ∧ eventID.length = 44 ∧
        Base64.decodeString (alphabetOf verImpl.eventIDFormat) eventID.tail =
          some (env.sum256 canonical).bytes ∧
        (env.sum256 canonical).bytes.length = 32 := by
  obtain ⟨henc, canonical, hcanon, hid⟩ :=
    eventID_of_hashDerived_ok env eventJSON roomVerStr verImpl eventID hver hfmt hok
  refine ⟨eventIDForEvent_of_ok env _ eventID hok, henc, ?_⟩
  have hgood := goodAlphabet_alphabetOf verImpl.eventIDFormat
  refine ⟨canonical, hcanon, ?_, ?_, ?_, ?_, (env.sum256 canonical).size_eq⟩
  · rw [hid]; rfl
  · rw [hid]
    intro hmem
    rcases List.mem_cons.mp hmem with h | h
    · exact absurd h (by decide)
    · exact hgood.no_padding
        (Base64.mem_alphabet_of_mem_encodeToString hgood _ _ h)
  · rw [hid, List.length_cons, Base64.length_encodeToString, (env.sum256 canonical).size_eq]
  · rw [hid, List.tail_cons]
    exact Base64.decodeString_encodeToString hgood _ (env.sum256 canonical).byte_lt

/-- The scenario event under room version 3. -/
theorem eventID_encoding_witness :
    eventIDForEvent sampleEnv [sampleEvent, "3".toList] =
        "$1NVxWj17VCg9pJMbSEh+cJ5k3tNKE8rMkANR6wL4dDw".toList ∧
      (sampleHashStd.eventIDFormat = EventIDFormatV2 ∨
        sampleHashStd.eventIDFormat = EventIDFormatV3) ∧
      ∃ canonical, hashableEventJSON sampleEnv sampleHashStd sampleEvent = some canonical ∧
        "$1NVxWj17VCg9pJMbSEh+cJ5k3tNKE8rMkANR6wL4dDw".toList.head? = some '$' ∧
        '=' ∉ "$1NVxWj17VCg9pJMbSEh+cJ5k3tNKE8rMkANR6wL4dDw".toList ∧
        "$1NVxWj17VCg9pJMbSEh+cJ5k3tNKE8rMkANR6wL4dDw".toList.length = 44 ∧
        Base64.decodeString (alphabetOf sampleHashStd.eventIDFormat)
            "$1NVxWj17VCg9pJMbSEh+cJ5k3tNKE8rMkANR6wL4dDw".toList.tail =
          some (sampleEnv.sum256 canonical).bytes ∧
        (sampleEnv.sum256 canonical).bytes.length = 32 :=
  eventID_encoding sampleEnv sampleEvent "3".toList sampleHashStd
    "$1NVxWj17VCg9pJMbSEh+cJ5k3tNKE8rMkANR6wL4dDw".toList rfl (by decide) (by rfl)

/-! ## Failures -/

/-- Claim C7. For a version tag `GetRoomVersion` does not recognise, `eventIDForEvent` gives
up at the lookup, whatever the event: no rule set is used and the empty string, not an
identifier, is returned. -/
theorem unknown_version_rejected (env : Env) (eventJSON roomVerStr : Text)
    (hver : env.getRoomVersion roomVerStr = none) :
    deriveEventID env [eventJSON, roomVerStr] = .error .roomVersion ∧
      eventIDForEvent env [eventJSON, roomVerStr] = [] := by
  have hd : deriveEventID env [eventJSON, roomVerStr] = .error .roomVersion := by
    simp only [deriveEventID, hver]
  exact ⟨hd, eventIDForEvent_of_error env _ _ hd⟩

/-- The scenario event under a version tag that is not registered. -/
theorem unknown_version_rejected_witness :
    deriveEventID sampleEnv [sampleEvent, "12".toList] = .error .roomVersion ∧
      eventIDForEvent sampleEnv [sampleEvent, "12".toList] = [] :=
  unknown_version_rejected sampleEnv sampleEvent "12".toList rfl

/-- Claim C10. Under a rule set whose event format is `EventFormatV2` and whose identifier
format is neither `EventIDFormatV2` nor `EventIDFormatV3`, and under a rule set whose event
format is neither `EventFormatV1` nor `EventFormatV2`, `eventIDForEvent` fails for every
event: it returns the empty string, never an identifier in some default encoding. -/
theorem unsupported_format_rejected (env : Env) (eventJSON roomVerStr : Text)
    (verImpl : RoomVersionImpl)
    (hver : env.getRoomVersion roomVerStr = some verImpl)
    (hfmt : (verImpl.eventFormat = EventFormatV2 ∧ verImpl.eventIDFormat ≠ EventIDFormatV2 ∧
        verImpl.eventIDFormat ≠ EventIDFormatV3) ∨
      (verImpl.eventFormat ≠ EventFormatV1 ∧ verImpl.eventFormat ≠ EventFormatV2)) :
    (∃ f, deriveEventID env [eventJSON, roomVerStr] = .error f) ∧
      eventIDForEvent env [eventJSON, roomVerStr] = [] := by
  have h12 : ¬ EventFormatV2 = EventFormatV1 := by decide
  have hsw : ∀ existing digest, ∃ f, encodeByFormat verImpl existing digest = .error f := by
    intro existing digest
    rcases hfmt with ⟨h, h2, h3⟩ | ⟨h1, h2⟩
    · exact ⟨.eventIDFormat, by simp [encodeByFormat, h, h12, h2, h3]⟩
    · exact ⟨.eventFormat, by simp [encodeByFormat, h1, h2]⟩
  have hd : ∃ f, deriveEventID env [eventJSON, roomVerStr] = .error f := by
    rcases deriveEventID_cases env eventJSON roomVerStr verImpl hver with
      ⟨_, hf⟩ | ⟨_, event, canonical, _, _, _, hd⟩
    · exact hf
    · rw [hd]
      exact hsw _ _
  obtain ⟨f, hf⟩ := hd
  exact ⟨⟨f, hf⟩, eventIDForEvent_of_error env _ f hf⟩

/-- The scenario event under hash-derived events with the legacy identifier format. -/
theorem unsupported_format_rejected_witness :
    (∃ f, deriveEventID unsupportedEnv [sampleEvent, "4".toList] = .error f) ∧
      eventIDForEvent unsupportedEnv [sampleEvent, "4".toList] = [] :=
  unsupported_format_rejected unsupportedEnv sampleEvent "4".toList
    ⟨sampleRedactEventJSON, EventFormatV2, 1⟩ rfl (Or.inl ⟨rfl, by decide, by decide⟩)

/-! ## The legacy identifier -/

theorem parse_nil : JSON.parse [] = none := rfl

theorem unmarshalString_of_jsonString (raw s : Text) (h : jsonString raw = some s) :
    unmarshalString raw [] = some s := by
  unfold jsonString at h
  unfold unmarshalString
  split at h
  · next body hp => rw [hp]; exact h
  · exact absurd h (by simp)

theorem unmarshalString_of_not_jsonString (raw : Text) (h : jsonString raw = none) :
    unmarshalString raw [] = none ∨ unmarshalString raw [] = some [] := by
  unfold jsonString at h
  unfold unmarshalString
  split
  · next body hp => rw [hp] at h; exact absurd h (by simp)
  · exact Or.inr rfl
  · exact Or.inl rfl

theorem topLevelString_eq (redactedJSON key : Text) (event : RawMap)
    (hparse : unmarshalMap redactedJSON = some event) :
    topLevelString redactedJSON key = (mapLookup event key).bind jsonString := by
  simp only [topLevelString, hparse, Option.some_bind]

theorem unmarshalString_mapIndex_of_topLevelString (redactedJSON key s : Text) (event : RawMap)
    (hparse : unmarshalMap redactedJSON = some event)
    (hid : topLevelString redactedJSON key = some s) :
    unmarshalString (mapIndex event key) [] = some s := by
  rw [topLevelString_eq redactedJSON key event hparse] at hid
  cases hl : mapLookup event key with
  | none => rw [hl] at hid; exact absurd hid (by simp)
  | some raw =>
    rw [hl, Option.some_bind] at hid
    rw [mapIndex, hl, Option.getD_some]
    exact unmarshalString_of_jsonString raw s hid

theorem unmarshalString_mapIndex_of_no_topLevelString (redactedJSON key : Text)
    (event : RawMap) (hparse : unmarshalMap redactedJSON = some event)
    (hid : topLevelString redactedJSON key = none) :
    unmarshalString (mapIndex event key) [] = none ∨
      unmarshalString (mapIndex event key) [] = some [] := by
  rw [topLevelString_eq redactedJSON key event hparse] at hid
  cases hl : mapLookup event key with
  | none =>
    left
    rw [mapIndex, hl, Option.getD_none, unmarshalString, parse_nil]
  | some raw =>
    rw [hl, Option.some_bind] at hid
    rw [mapIndex, hl, Option.getD_some]
    exact unmarshalString_of_not_jsonString raw hid

theorem encodeByFormat_legacy (verImpl : RoomVersionImpl) (existing : Text) (digest : Digest)
    (hfmt : verImpl.eventFormat = EventFormatV1) :
    encodeByFormat verImpl existing digest =
      match unmarshalString existing [] with
      | none => .error .existingEventID
      | some eventID => .ok eventID := by
  simp only [encodeByFormat, hfmt, if_true]

/-- Claim C8. Under a rule set whose event format is `EventFormatV1`, an event whose
`event_id`, as `eventIDForEvent` reads it from the redacted event, is absent or holds a
value that is not a JSON string makes `eventIDForEvent` fail: the empty string is returned
and no identifier. -/
theorem legacy_without_string_id_fails (env : Env) (eventJSON roomVerStr : Text)
    (verImpl : RoomVersionImpl)
    (hver : env.getRoomVersion roomVerStr = some verImpl)
    (hfmt : verImpl.eventFormat = EventFormatV1)
    (hid : ∀ redactedJSON, verImpl.redactEventJSON eventJSON = some redactedJSON →
      topLevelString redactedJSON eventIDKey = none) :
    eventIDForEvent env [eventJSON, roomVerStr] = [] := by
  rcases deriveEventID_cases env eventJSON roomVerStr verImpl hver with
    ⟨_, f, hf⟩ | ⟨r, event, canonical, hr, he, _, hd⟩
  · exact eventIDForEvent_of_error env _ f hf
  · rw [eventIDForEvent, hd, encodeByFormat_legacy verImpl _ _ hfmt]
    rcases unmarshalString_mapIndex_of_no_topLevelString r eventIDKey event he (hid r hr) with
      h | h <;> rw [h]

/-- An event whose `event_id` is the number 5, under room version 1. -/
theorem legacy_without_string_id_fails_witness :
    topLevelString numericIDEvent eventIDKey = none ∧
      eventIDForEvent sampleEnv [numericIDEvent, "1".toList] = [] :=
  ⟨by decide,
    legacy_without_string_id_fails sampleEnv numericIDEvent "1".toList sampleLegacy rfl rfl
      (by
        intro r hr
        have hred : sampleLegacy.redactEventJSON numericIDEvent =
            some "\x7b\"event_id\":5,\"type\":\"m.room.message\"\x7d".toList := by decide
        rw [hred] at hr
        rw [← Option.some.inj hr]
        decide)⟩

/-- Claim C2, as the code has it. Under a rule set whose event format is `EventFormatV1`,
whenever redaction and canonicalization succeed and the `event_id` of the redacted event is
a JSON string `s`, `eventIDForEvent` returns exactly `s`, not a hash-derived value; the
scenario event yields `$legacyABC`. -/
theorem legacy_passthrough (env : Env) (eventJSON roomVerStr : Text)
    (verImpl : RoomVersionImpl) (redactedJSON s : Text)
    (hver : env.getRoomVersion roomVerStr = some verImpl)
    (hfmt : verImpl.eventFormat = EventFormatV1)
    (hred : verImpl.redactEventJSON eventJSON = some redactedJSON)
    (hcanon : hashableEventJSON env verImpl eventJSON ≠ none)
    (hid : topLevelString redactedJSON eventIDKey = some s) :
    eventIDForEvent env [eventJSON, roomVerStr] = s := by
  rcases deriveEventID_cases env eventJSON roomVerStr verImpl hver with
    ⟨hnone, _⟩ | ⟨r, event, canonical, hr, he, _, hd⟩
  · exact absurd hnone hcanon
  · rw [hred] at hr
    rw [← Option.some.inj hr] at he
    rw [eventIDForEvent, hd, encodeByFormat_legacy verImpl _ _ hfmt,
      unmarshalString_mapIndex_of_topLevelString redactedJSON eventIDKey s event he hid]

/-- The scenario event under room version 1 yields `$legacyABC`. -/
theorem legacy_passthrough_witness :
    eventIDForEvent sampleEnv [sampleEvent, "1".toList] = "$legacyABC".toList :=
  legacy_passthrough sampleEnv sampleEvent "1".toList sampleLegacy
    "\x7b\"content\":\x7b\"body\":\"hi\"\x7d,\"event_id\":\"$legacyABC\",\"type\":\"m.room.message\"\x7d".toList
    "$legacyABC".toList rfl rfl (by decide) (by decide) (by decide)

/-- Claim C2 fails as stated. Under room version 1, whose event format is `EventFormatV1`,
an event whose top-level `event_id` is the JSON string `$legacyABC` but whose `type` is a
number is rejected by the redaction, and `eventIDForEvent` returns the empty string. -/
theorem legacy_passthrough_counterexample :
    sampleEnv.getRoomVersion "1".toList = some sampleLegacy ∧
      sampleLegacy.eventFormat = EventFormatV1 ∧
      topLevelString badTypeEvent eventIDKey = some "$legacyABC".toList ∧
      sampleLegacy.redactEventJSON badTypeEvent = none ∧
      eventIDForEvent sampleEnv [badTypeEvent, "1".toList] = [] ∧
      eventIDForEvent sampleEnv [badTypeEvent, "1".toList] ≠ "$legacyABC".toList :=
  ⟨rfl, rfl, by decide, by decide, by decide, by decide⟩

/-! ## The outcome of a failure -/

/-- Claim C6, as the code has it. A failure is reported as the empty string; the outcome
of a derivation that passes every step differs from it exactly when the derived identifier
is not empty, which is so for every derivation that passes under a rule set whose event
format is `EventFormatV2`. -/
theorem failure_outcome (env : Env) (failing passing : List Text) (f : Failure)
    (eventID : Text)
    (hfail : deriveEventID env failing = .error f)
    (hok : deriveEventID env passing = .ok eventID) :
    eventIDForEvent env failing = [] ∧
      (eventIDForEvent env passing ≠ eventIDForEvent env failing ↔ eventID ≠ []) ∧
      ∀ eventJSON roomVerStr verImpl, passing = [eventJSON, roomVerStr] →
        env.getRoomVersion roomVerStr = some verImpl →
        verImpl.eventFormat = EventFormatV2 →
        eventIDForEvent env passing ≠ eventIDForEvent env failing := by
  have h1 := eventIDForEvent_of_error env failing f hfail
  have h2 := eventIDForEvent_of_ok env passing eventID hok
  refine ⟨h1, by rw [h1, h2], ?_⟩
  intro eventJSON roomVerStr verImpl hargs hver hfmt
  subst hargs
  obtain ⟨_, canonical, _, hid⟩ :=
    eventID_of_hashDerived_ok env eventJSON roomVerStr verImpl eventID hver hfmt hok
  rw [h1, h2, hid]
  exact List.cons_ne_nil _ _

/-- The scenario event under room version 4 passes, under the unregistered version 12 it
fails, and the two outcomes differ. -/
theorem failure_outcome_witness :
    eventIDForEvent sampleEnv [sampleEvent, "12".toList] = [] ∧
      (eventIDForEvent sampleEnv [sampleEvent, "4".toList] ≠
          eventIDForEvent sampleEnv [sampleEvent, "12".toList] ↔
        "$1NVxWj17VCg9pJMbSEh-cJ5k3tNKE8rMkANR6wL4dDw".toList ≠ []) ∧
      ∀ eventJSON roomVerStr verImpl, [sampleEvent, "4".toList] = [eventJSON, roomVerStr] →
        sampleEnv.getRoomVersion roomVerStr = some verImpl →
        verImpl.eventFormat = EventFormatV2 →
        eventIDForEvent sampleEnv [sampleEvent, "4".toList] ≠
          eventIDForEvent sampleEnv [sampleEvent, "12".toList] :=
  failure_outcome sampleEnv [sampleEvent, "12".toList] [sampleEvent, "4".toList]
    .roomVersion "$1NVxWj17VCg9pJMbSEh-cJ5k3tNKE8rMkANR6wL4dDw".toList (by rfl) (by rfl)

/-- Claim C6 fails as stated. Under room version 1 an event whose `event_id` is the empty
string passes every step and the empty string is returned; under the unregistered version 12
the derivation fails at the lookup, and the empty string is returned as well. -/
theorem failure_outcome_counterexample :
    deriveEventID sampleEnv [emptyIDEvent, "12".toList] = .error .roomVersion ∧
      deriveEventID sampleEnv [emptyIDEvent, "1".toList] = .ok [] ∧
      eventIDForEvent sampleEnv [emptyIDEvent, "12".toList] =
        eventIDForEvent sampleEnv [emptyIDEvent, "1".toList] :=
  ⟨by rfl, by rfl, by decide⟩

/-! ## Input that is not an object -/

theorem eventIDForEvent_of_not_map (env : Env) (eventJSON roomVerStr : Text)
    (verImpl : RoomVersionImpl) (hver : env.getRoomVersion roomVerStr = some verImpl)
    (hred : ∀ redactedJSON, verImpl.redactEventJSON eventJSON = some redactedJSON →
      unmarshalMap redactedJSON = none) :
    eventIDForEvent env [eventJSON, roomVerStr] = [] := by
  rcases deriveEventID_cases env eventJSON roomVerStr verImpl hver with
    ⟨_, f, hf⟩ | ⟨r, event, _, hr, he, _, _⟩
  · exact eventIDForEvent_of_error env _ f hf
  · rw [hred r hr] at he
    exact absurd he (by simp)

/-- Claim C9 fails on the code. The input `null` does not encode a key/value mapping, yet
`eventIDForEvent` returns an identifier for it whenever the redaction hands `null` back:
decoding `null` into a Go map is not an error, and the nil map is written, and hashed, as
the text `null`.  So it is under room version 4 of the reference environment.  Input that
the redaction rejects, or hands back as invalid JSON or as an array, a string, a number or
a boolean, does make `eventIDForEvent` fail. -/
theorem null_event_yields_identifier :
    (∀ (env : Env) (roomVerStr : Text) (verImpl : RoomVersionImpl) (canonical : Text),
        env.getRoomVersion roomVerStr = some verImpl →
        verImpl.eventFormat = EventFormatV2 → verImpl.eventIDFormat = EventIDFormatV3 →
        verImpl.redactEventJSON "null".toList = some "null".toList →
        env.canonicalJSON "null".toList = some canonical →
        eventIDForEvent env ["null".toList, roomVerStr] =
          '$' :: Base64.encodeToString Base64.encodeURL (env.sum256 canonical).bytes) ∧
      unmarshalMap "null".toList = some none ∧
      unmarshalMap "[1]".toList = none ∧ unmarshalMap "\"a\"".toList = none ∧
      unmarshalMap "1".toList = none ∧ unmarshalMap "true".toList = none ∧
      unmarshalMap "\x7b".toList = none ∧
      (∀ (env : Env) (eventJSON roomVerStr : Text) (verImpl : RoomVersionImpl),
        env.getRoomVersion roomVerStr = some verImpl →
        (∀ redactedJSON, verImpl.redactEventJSON eventJSON = some redactedJSON →
          unmarshalMap redactedJSON = none) →
        eventIDForEvent env [eventJSON, roomVerStr] = []) ∧
      sampleHashURL.redactEventJSON "null".toList = some "null".toList ∧
      eventIDForEvent sampleEnv ["null".toList, "4".toList] =
        "$dCNOmK_nSY-12vHzasLXiswzlGT5UHA7jAGYkvmCuQs".toList := by
  refine ⟨?_, by decide, by decide, by decide, by decide, by decide, by decide,
    eventIDForEvent_of_not_map, by decide, by decide⟩
  intro env roomVerStr verImpl canonical hver hfmt henc hred hcanon
  have hh : hashableEventJSON env verImpl "null".toList = some canonical := by
    have hp : unmarshalMap "null".toList = some none := by decide
    have hm : marshalMap (withoutKeys none identityKeys) = some "null".toList := by decide
    simp only [hashableEventJSON, hashedMap, canonicalSerialization, hred, hp, hm,
      Option.some_bind, Option.map_some', hcanon]
  obtain ⟨_, event, _, _, hd⟩ :=
    deriveEventID_of_hashable env "null".toList roomVerStr verImpl canonical hver hh
  have halpha : alphabetOf verImpl.eventIDFormat = Base64.encodeURL := by
    rw [henc]; decide
  rw [eventIDForEvent, hd, encodeByFormat_hashDerived verImpl _ _ hfmt (Or.inr henc), halpha]

/-! ## Fields that do not enter the identifier -/

theorem encodeByFormat_hashDerived_existing (verImpl : RoomVersionImpl) (x y : Text)
    (digest : Digest) (hfmt : verImpl.eventFormat = EventFormatV2) :
    encodeByFormat verImpl x digest = encodeByFormat verImpl y digest := by
  have h12 : ¬ EventFormatV2 = EventFormatV1 := by decide
  simp only [encodeByFormat, hfmt, h12, if_false]

theorem differOnlyIn_iff (ks : List Text) (event1 event2 : Text) :
    differOnlyIn ks event1 event2 ↔
      ∃ a b, unmarshalMap event1 = some (some a) ∧ unmarshalMap event2 = some (some b) ∧
        agreeOutside ks a b := by
  unfold differOnlyIn
  split
  · next a b h1 h2 =>
    rw [h1, h2]
    constructor
    · exact fun h => ⟨a, b, rfl, rfl, h⟩
    · rintro ⟨a', b', ha, hb, h⟩
      simp only [Option.some.injEq] at ha hb
      rw [ha, hb]
      exact h
  · next hne =>
    constructor
    · exact False.elim
    · rintro ⟨a, b, ha, hb, _⟩
      exact hne a b ha hb

/-- Claim C3. Under a rule set whose event format is `EventFormatV2`, two events whose
redacted forms are JSON objects that differ at most in the presence or the value of the
top-level fields `signatures`, `unsigned` and `event_id` get the same identifier from
`eventIDForEvent`. -/
theorem identifier_ignores_identity_fields (env : Env) (event1 event2 roomVerStr : Text)
    (verImpl : RoomVersionImpl) (redacted1 redacted2 : Text)
    (hver : env.getRoomVersion roomVerStr = some verImpl)
    (hfmt : verImpl.eventFormat = EventFormatV2)
    (hred1 : verImpl.redactEventJSON event1 = some redacted1)
    (hred2 : verImpl.redactEventJSON event2 = some redacted2)
    (hdiff : differOnlyIn identityKeys redacted1 redacted2) :
    eventIDForEvent env [event1, roomVerStr] = eventIDForEvent env [event2, roomVerStr] := by
  obtain ⟨a, b, ha, hb, hagree⟩ := (differOnlyIn_iff _ _ _).mp hdiff
  have hm := marshalMap_withoutKeys_eq identityKeys a b
    (entryKeys_nodup_of_unmarshalMap redacted1 a ha)
    (entryKeys_nodup_of_unmarshalMap redacted2 b hb) hagree
  unfold eventIDForEvent
  rw [deriveEventID_eq env event1 roomVerStr verImpl hver,
    deriveEventID_eq env event2 roomVerStr verImpl hver]
  cases hmb : marshalMap (withoutKeys (some b) identityKeys) with
  | none => simp only [hred1, hred2, ha, hb, hm, hmb]
  | some hashable =>
    cases hc : env.canonicalJSON hashable with
    | none => simp only [hred1, hred2, ha, hb, hm, hmb, hc]
    | some canonical =>
      simp only [hred1, hred2, ha, hb, hm, hmb, hc]
      rw [encodeByFormat_hashDerived_existing verImpl (mapIndex (some a) eventIDKey)
        (mapIndex (some b) eventIDKey) _ hfmt]

set_option maxRecDepth 100000 in
/-- The scenario event, with and without signatures, unsigned data and another identifier,
under room version 4. -/
theorem identifier_ignores_identity_fields_witness :
    differOnlyIn identityKeys signedEvent sampleEvent ∧
      eventIDForEvent sampleEnv [signedEvent, "4".toList] =
        eventIDForEvent sampleEnv [sampleEvent, "4".toList] :=
  ⟨by decide,
    identifier_ignores_identity_fields sampleEnv signedEvent sampleEvent "4".toList
      sampleHashURL
      ("\x7b\"content\":\x7b\"body\":\"hi\"\x7d,\"event_id\":\"$other\"," ++
        "\"signatures\":\x7b\"example.org\":\x7b\"ed25519:1\":\"c2ln\"\x7d\x7d," ++
        "\"type\":\"m.room.message\"\x7d").toList
      "\x7b\"content\":\x7b\"body\":\"hi\"\x7d,\"event_id\":\"$legacyABC\",\"type\":\"m.room.message\"\x7d".toList
      rfl rfl (by decide) (by decide) (by decide)⟩

/-! ## Key order and insignificant space -/

theorem scanNumber_start (s lit rest : Text) (h : JSON.scanNumber s = some (lit, rest)) :
    ∃ c tl, lit = c :: tl ∧ (c = '-' ∨ JSON.isDigit c = true) := by
  unfold JSON.scanNumber at h
  cases s with
  | nil => simp [JSON.scanMinus, JSON.scanInt] at h
  | cons c cs =>
    by_cases hc : c = '-'
    · subst hc
      simp only [JSON.scanMinus, if_true] at h
      split at h
      · exact absurd h (by simp)
      · split at h
        · exact absurd h (by simp)
        · split at h
          · exact absurd h (by simp)
          · simp only [Option.some.injEq, Prod.mk.injEq] at h
            exact ⟨'-', _, by rw [← h.1]; rfl, Or.inl rfl⟩
    · simp only [JSON.scanMinus, if_neg hc] at h
      split at h
      · exact absurd h (by simp)
      · next i s2 hi =>
        split at h
        · exact absurd h (by simp)
        · split at h
          · exact absurd h (by simp)
          · simp only [Option.some.injEq, Prod.mk.injEq] at h
            unfold JSON.scanInt at hi
            simp only at hi
            split at hi
            · next h0 =>
              simp only [Option.some.injEq, Prod.mk.injEq] at hi
              refine ⟨'0', _, by rw [← h.1, ← hi.1]; rfl, Or.inr (by decide)⟩
            · split at hi
              · next hd =>
                simp only [Option.some.injEq, Prod.mk.injEq] at hi
                refine ⟨c, _, by rw [← h.1, ← hi.1]; rfl, Or.inr hd⟩
              · exact absurd hi (by simp)

theorem numberStart_of_parseValue (fuel depth : Nat) (s : Text) (v : JSON.Value) (rest : Text)
    (h : JSON.parseValue fuel depth s = some (v, rest)) : numberStart v := by
  cases fuel with
  | zero => simp [JSON.parseValue] at h
  | succ fuel =>
    unfold JSON.parseValue at h
    split at h
    · exact absurd h (by simp)
    · next c cs _ =>
      split at h
      · split at h
        · exact absurd h (by simp)
        · split at h
          · exact absurd h (by simp)
          · split at h
            · simp only [Option.some.injEq, Prod.mk.injEq] at h
              rw [← h.1]; trivial
            · simp only [Option.map_eq_some'] at h
              obtain ⟨p, _, hp⟩ := h
              simp only [Prod.mk.injEq] at hp
              rw [← hp.1]; trivial
      · split at h
        · split at h
          · exact absurd h (by simp)
          · split at h
            · exact absurd h (by simp)
            · split at h
              · simp only [Option.some.injEq, Prod.mk.injEq] at h
                rw [← h.1]; trivial
              · simp only [Option.map_eq_some'] at h
                obtain ⟨p, _, hp⟩ := h
                simp only [Prod.mk.injEq] at hp
                rw [← hp.1]; trivial
        · split at h
          · simp only [Option.map_eq_some'] at h
            obtain ⟨p, _, hp⟩ := h
            simp only [Prod.mk.injEq] at hp
            rw [← hp.1]; trivial
          · split at h
            · simp only [Option.map_eq_some'] at h
              obtain ⟨p, _, hp⟩ := h
              simp only [Prod.mk.injEq] at hp
              rw [← hp.1]; trivial
            · split at h
              · simp only [Option.map_eq_some'] at h
                obtain ⟨p, _, hp⟩ := h
                simp only [Prod.mk.injEq] at hp
                rw [← hp.1]; trivial
              · split at h
                · simp only [Option.map_eq_some'] at h
                  obtain ⟨p, _, hp⟩ := h
                  simp only [Prod.mk.injEq] at hp
                  rw [← hp.1]; trivial
                · simp only [Option.map_eq_some'] at h
                  obtain ⟨p, hp1, hp⟩ := h
                  simp only [Prod.mk.injEq] at hp
                  rw [← hp.1]
                  exact scanNumber_start _ p.1 p.2 hp1

theorem numberStart_of_parse (s : Text) (v : JSON.Value) (h : JSON.parse s = some v) :
    numberStart v := by
  unfold JSON.parse at h
  split at h
  · next v' rest hp =>
    split at h
    · simp only [Option.some.injEq] at h
      rw [← h]
      exact numberStart_of_parseValue _ _ _ _ _ hp
    · exact absurd h (by simp)
  · exact absurd h (by simp)

theorem not_numberStart (c : Char) (tl : Text) (h1 : c ≠ '-') (h2 : JSON.isDigit c = false) :
    ¬ numberStart (.number (c :: tl)) := by
  rintro ⟨c', rest, hl, hc⟩
  simp only [List.cons.injEq] at hl
  rw [← hl.1] at hc
  rcases hc with hc | hc
  · exact h1 hc
  · rw [h2] at hc; exact absurd hc (by simp)

theorem stringOrNull_eq_of_render_eq (x y : JSON.Value) (hx : numberStart x)
    (hy : numberStart y) (h : Canonical.render x = Canonical.render y) :
    stringOrNull x = stringOrNull y := by
  rcases x with _ | (_ | _) | _ | _ | _ | _ <;> rcases y with _ | (_ | _) | _ | _ | _ | _ <;>
    simp [Canonical.render, stringOrNull] at h ⊢
  all_goals first
    | exact h
    | (subst h; exact absurd hx (not_numberStart _ _ (by decide) (by decide)))
    | (subst h; exact absurd hy (not_numberStart _ _ (by decide) (by decide)))

theorem unmarshalString_eq_stringOrNull (data current : Text) :
    unmarshalString data current =
      ((JSON.parse data).bind stringOrNull).map fun r =>
        match r with
        | some body => JSON.unquote body
        | none => current := by
  unfold unmarshalString
  cases JSON.parse data with
  | none => rfl
  | some v => cases v <;> rfl

theorem unmarshalString_eq_of_sameValue (a b : Text) (h : sameValue a b) :
    unmarshalString a [] = unmarshalString b [] := by
  unfold sameValue sameAt at h
  split at h
  · next x y hx hy =>
    have hx0 : JSON.parse a = some x := JSON.parseAt_pred 0 a x hx
    have hy0 : JSON.parse b = some y := JSON.parseAt_pred 0 b y hy
    rw [unmarshalString_eq_stringOrNull, unmarshalString_eq_stringOrNull, hx0, hy0,
      Option.some_bind, Option.some_bind,
      stringOrNull_eq_of_render_eq x y (numberStart_of_parse a x hx0)
        (numberStart_of_parse b y hy0) h]
  · exact False.elim h

theorem find_filter_of_not_mem (es : List (Text × Text)) (ks : List Text) (k : Text)
    (h : k ∉ ks) :
    (es.filter fun e => e.1 ∉ ks).find? (fun e => e.1 = k) = es.find? fun e => e.1 = k := by
  induction es with
  | nil => rfl
  | cons e es ih =>
    obtain ⟨k1, v1⟩ := e
    by_cases hj : k1 ∈ ks
    · have hk : ¬ k1 = k := fun hk => h (hk ▸ hj)
      rw [List.filter_cons, List.find?_cons]
      simpa [hk, hj] using ih
    · rw [List.filter_cons]
      simp only [hj, not_false_eq_true, decide_True, ↓reduceIte, List.find?_cons]
      split
      · rfl
      · exact ih

theorem mapLookup_withoutKeys_of_not_mem (es : List (Text × Text)) (ks : List Text) (k : Text)
    (h : k ∉ ks) : mapLookup (withoutKeys (some es) ks) k = mapLookup (some es) k := by
  simp only [withoutKeys, Option.map_some', mapLookup, find_filter_of_not_mem es ks k h]

theorem mem_entryKeys_filter (es : List (Text × Text)) (ks : List Text) (k : Text)
    (h : k ∈ entryKeys (es.filter fun e => e.1 ∉ ks)) : k ∈ entryKeys es ∧ k ∉ ks := by
  simp only [entryKeys, List.mem_map, List.mem_filter, decide_eq_true_eq] at h ⊢
  obtain ⟨e, ⟨he, hks⟩, rfl⟩ := h
  exact ⟨⟨e, he, rfl⟩, hks⟩

theorem mapsAlike_withoutKeys (m1 m2 : RawMap) (ks : List Text) (h : mapsAlike m1 m2) :
    mapsAlike (withoutKeys m1 ks) (withoutKeys m2 ks) := by
  cases m1 with
  | none => exact False.elim h
  | some a =>
    cases m2 with
    | none => exact False.elim h
    | some b =>
      intro k hk
      have hk' : (k ∈ entryKeys a ∨ k ∈ entryKeys b) ∧ k ∉ ks := by
        rcases List.mem_append.mp hk with hk | hk
        · exact ⟨Or.inl (mem_entryKeys_filter a ks k hk).1, (mem_entryKeys_filter a ks k hk).2⟩
        · exact ⟨Or.inr (mem_entryKeys_filter b ks k hk).1, (mem_entryKeys_filter b ks k hk).2⟩
      have h1 := mapLookup_withoutKeys_of_not_mem a ks k hk'.2
      have h2 := mapLookup_withoutKeys_of_not_mem b ks k hk'.2
      simp only [withoutKeys, Option.map_some'] at h1 h2
      rw [h1, h2]
      exact h k (List.mem_append.mpr hk'.1)

theorem unmarshalString_mapIndex_eq_of_mapsAlike (m1 m2 : RawMap) (k : Text)
    (h : mapsAlike m1 m2) :
    unmarshalString (mapIndex m1 k) [] = unmarshalString (mapIndex m2 k) [] := by
  cases m1 with
  | none => exact False.elim h
  | some a =>
    cases m2 with
    | none => exact False.elim h
    | some b =>
      by_cases hk : k ∈ entryKeys a ++ entryKeys b
      · have hv := h k hk
        unfold valuesAlike at hv
        split at hv
        · next x y hx hy =>
          rw [mapIndex, mapIndex, hx, hy]
          exact unmarshalString_eq_of_sameValue x y hv
        · exact False.elim hv
      · rw [List.mem_append, not_or] at hk
        rw [mapIndex, mapIndex, mapLookup_eq_none_of_not_mem a k hk.1,
          mapLookup_eq_none_of_not_mem b k hk.2]

theorem encodeByFormat_congr (verImpl : RoomVersionImpl) (x y : Text) (digest : Digest)
    (h : unmarshalString x [] = unmarshalString y []) :
    encodeByFormat verImpl x digest = encodeByFormat verImpl y digest := by
  simp only [encodeByFormat, h]

theorem deriveEventID_ok_iff (env : Env) (eventJSON roomVerStr : Text)
    (verImpl : RoomVersionImpl) (redactedJSON : Text) (event : RawMap) (eventID : Text)
    (hver : env.getRoomVersion roomVerStr = some verImpl)
    (hred : verImpl.redactEventJSON eventJSON = some redactedJSON)
    (hparse : unmarshalMap redactedJSON = some event) :
    deriveEventID env [eventJSON, roomVerStr] = .ok eventID ↔
      ∃ canonical, canonicalSerialization env (withoutKeys event identityKeys) = some canonical ∧
        encodeByFormat verImpl (mapIndex event eventIDKey) (env.sum256 canonical) =
          .ok eventID := by
  rw [deriveEventID_eq env eventJSON roomVerStr verImpl hver]
  simp only [hred, hparse, canonicalSerialization]
  cases hm : marshalMap (withoutKeys event identityKeys) with
  | none => simp
  | some hashable =>
    cases hc : env.canonicalJSON hashable with
    | none => simp [hc]
    | some canonical => simp [hc]

theorem eventIDForEvent_eq_nil_of_no_canonical (env : Env) (eventJSON roomVerStr : Text)
    (verImpl : RoomVersionImpl) (redactedJSON : Text) (event : RawMap)
    (hver : env.getRoomVersion roomVerStr = some verImpl)
    (hred : verImpl.redactEventJSON eventJSON = some redactedJSON)
    (hparse : unmarshalMap redactedJSON = some event)
    (hnone : canonicalSerialization env (withoutKeys event identityKeys) = none) :
    eventIDForEvent env [eventJSON, roomVerStr] = [] := by
  cases hd : deriveEventID env [eventJSON, roomVerStr] with
  | error f => exact eventIDForEvent_of_error env _ f hd
  | ok eventID =>
    obtain ⟨c, hc, _⟩ :=
      (deriveEventID_ok_iff env eventJSON roomVerStr verImpl redactedJSON event eventID hver
        hred hparse).mp hd
    rw [hnone] at hc
    exact absurd hc (by simp)

theorem deriveEventID_eq_encodeByFormat (env : Env) (eventJSON roomVerStr : Text)
    (verImpl : RoomVersionImpl) (redactedJSON : Text) (event : RawMap) (canonical : Text)
    (hver : env.getRoomVersion roomVerStr = some verImpl)
    (hred : verImpl.redactEventJSON eventJSON = some redactedJSON)
    (hparse : unmarshalMap redactedJSON = some event)
    (hsome : canonicalSerialization env (withoutKeys event identityKeys) = some canonical) :
    deriveEventID env [eventJSON, roomVerStr] =
      encodeByFormat verImpl (mapIndex event eventIDKey) (env.sum256 canonical) := by
  rw [deriveEventID_eq env eventJSON roomVerStr verImpl hver]
  simp only [hred, hparse]
  unfold canonicalSerialization at hsome
  cases hm : marshalMap (withoutKeys event identityKeys) with
  | none => rw [hm] at hsome; exact absurd hsome (by simp)
  | some hashable =>
    rw [hm, Option.some_bind] at hsome
    simp only [hsome]

theorem sameEvent_iff (event1 event2 : Text) :
    sameEvent event1 event2 ↔
      ∃ m1 m2, unmarshalMap event1 = some m1 ∧ unmarshalMap event2 = some m2 ∧
        mapsAlike m1 m2 := by
  unfold sameEvent
  split
  · next m1 m2 h1 h2 =>
    rw [h1, h2]
    constructor
    · exact fun h => ⟨m1, m2, rfl, rfl, h⟩
    · rintro ⟨a, b, ha, hb, h⟩
      simp only [Option.some.injEq] at ha hb
      rw [ha, hb]
      exact h
  · next hne =>
    constructor
    · exact False.elim
    · rintro ⟨a, b, ha, hb, _⟩
      exact hne a b ha hb

/-- The reference canonical serialization satisfies the proviso. -/
theorem canonicalProviso_of_reference (env : Env)
    (h : env.canonicalJSON = Canonical.canonicalJSON) : canonicalProviso env := by
  intro a b hab
  unfold sameText sameAt at hab
  rw [h]
  unfold Canonical.canonicalJSON
  rw [JSON.parse_eq_parseAt, JSON.parse_eq_parseAt]
  split at hab
  · next x y hx hy => rw [hx, hy, Option.map_some', Option.map_some', hab]
  · exact False.elim hab

/-- Under the proviso, the canonical serializations of two structurally equal maps, the
steps `json.Marshal` and `CanonicalJSON` of the code, are the same. -/
theorem canonicalSerialization_eq_of_mapsAlike (env : Env) (a b : List (Text × Text))
    (ha : (entryKeys a).Nodup) (hb : (entryKeys b).Nodup) (h : entriesAlike a b)
    (hcanon : canonicalProviso env) :
    canonicalSerialization env (some a) = canonicalSerialization env (some b) := by
  obtain ⟨x, y, hx, hy, hxy⟩ := marshalMap_sameText a b ha hb h
  simp only [canonicalSerialization, hx, hy, Option.some_bind]
  exact hcanon x y hxy

/-- Claim C4, as the code has it. Take two events that the redaction maps to serializations
of the same logical event mapping, differing only in the order of object keys and in
insignificant space, and a canonical serialization that maps structurally equal documents to
identical bytes.  Then `eventIDForEvent` returns the same result for both, under every rule
set; and under `EventFormatV2` with `EventIDFormatV3`, whenever the derivation succeeds, that
result starts with `$` and holds after it only characters of the URL-safe Base64 alphabet and
no `=`. -/
theorem reordered_serializations_same_result (env : Env) (event1 event2 roomVerStr : Text)
    (verImpl : RoomVersionImpl) (redacted1 redacted2 : Text)
    (hver : env.getRoomVersion roomVerStr = some verImpl)
    (hred1 : verImpl.redactEventJSON event1 = some redacted1)
    (hred2 : verImpl.redactEventJSON event2 = some redacted2)
    (hsame : sameEvent redacted1 redacted2)
    (hcanon : canonicalProviso env) :
    eventIDForEvent env [event1, roomVerStr] = eventIDForEvent env [event2, roomVerStr] ∧
      (verImpl.eventFormat = EventFormatV2 → verImpl.eventIDFormat = EventIDFormatV3 →
        ∀ eventID, deriveEventID env [event1, roomVerStr] = .ok eventID →
          eventIDForEvent env [event2, roomVerStr] = eventID ∧ eventID.head? = some '$' ∧
            (∀ c ∈ eventID.tail, c ∈ Base64.encodeURL) ∧ '=' ∉ eventID) := by
  obtain ⟨m1, m2, hp1, hp2, halike⟩ := (sameEvent_iff _ _).mp hsame
  have hc : canonicalSerialization env (withoutKeys m1 identityKeys) =
      canonicalSerialization env (withoutKeys m2 identityKeys) := by
    have halike' := mapsAlike_withoutKeys m1 m2 identityKeys halike
    cases m1 with
    | none => exact False.elim halike
    | some a =>
      cases m2 with
      | none => exact False.elim halike
      | some b =>
        exact canonicalSerialization_eq_of_mapsAlike env _ _
          (entryKeys_filter_nodup _ a (entryKeys_nodup_of_unmarshalMap redacted1 a hp1))
          (entryKeys_filter_nodup _ b (entryKeys_nodup_of_unmarshalMap redacted2 b hp2))
          halike' hcanon
  have hid := unmarshalString_mapIndex_eq_of_mapsAlike m1 m2 eventIDKey halike
  have hsame_derive : deriveEventID env [event1, roomVerStr] =
        deriveEventID env [event2, roomVerStr] ∨
      (eventIDForEvent env [event1, roomVerStr] = [] ∧
        eventIDForEvent env [event2, roomVerStr] = [] ∧
        ∀ eventID, deriveEventID env [event1, roomVerStr] ≠ .ok eventID) := by
    cases hcs : canonicalSerialization env (withoutKeys m1 identityKeys) with
    | none =>
      right
      refine ⟨eventIDForEvent_eq_nil_of_no_canonical env event1 roomVerStr verImpl redacted1 m1
        hver hred1 hp1 hcs, eventIDForEvent_eq_nil_of_no_canonical env event2 roomVerStr verImpl
        redacted2 m2 hver hred2 hp2 (hc ▸ hcs), ?_⟩
      intro eventID hok
      obtain ⟨c, hc', _⟩ :=
        (deriveEventID_ok_iff env event1 roomVerStr verImpl redacted1 m1 eventID hver hred1
          hp1).mp hok
      rw [hcs] at hc'
      exact absurd hc' (by simp)
    | some canonical =>
      left
      rw [deriveEventID_eq_encodeByFormat env event1 roomVerStr verImpl redacted1 m1 canonical
          hver hred1 hp1 hcs,
        deriveEventID_eq_encodeByFormat env event2 roomVerStr verImpl redacted2 m2 canonical
          hver hred2 hp2 (hc ▸ hcs)]
      exact encodeByFormat_congr verImpl _ _ _ hid
  constructor
  · rcases hsame_derive with h | ⟨h1, h2, _⟩
    · rw [eventIDForEvent, eventIDForEvent, h]
    · rw [h1, h2]
  · intro hfmt henc eventID hok
    have hok2 : deriveEventID env [event2, roomVerStr] = .ok eventID := by
      rcases hsame_derive with h | ⟨_, _, h3⟩
      · rw [← h]; exact hok
      · exact absurd hok (h3 eventID)
    obtain ⟨_, canonical, _, hform⟩ :=
      eventID_of_hashDerived_ok env event1 roomVerStr verImpl eventID hver hfmt hok
    have halpha : alphabetOf verImpl.eventIDFormat = Base64.encodeURL := by
      rw [henc]; decide
    rw [halpha] at hform
    refine ⟨eventIDForEvent_of_ok env _ eventID hok2, ?_, ?_, ?_⟩
    · rw [hform]; rfl
    · rw [hform, List.tail_cons]
      exact Base64.mem_alphabet_of_mem_encodeToString Base64.goodAlphabet_encodeURL _
    · rw [hform]
      intro hmem
      rcases List.mem_cons.mp hmem with h | h
      · exact absurd h (by decide)
      · exact Base64.goodAlphabet_encodeURL.no_padding
          (Base64.mem_alphabet_of_mem_encodeToString Base64.goodAlphabet_encodeURL _ _ h)

set_option maxRecDepth 100000 in
/-- The scenario of the specification under room version 4: an event, and the same event
with the keys of the event and of its content reordered and with extra space.  The
redaction maps them to two serializations of one mapping, and both get the same
identifier. -/
theorem reordered_serializations_same_result_witness :
    sameEvent contentEvent contentEventReordered ∧
      sampleEnv.getRoomVersion "4".toList = some sampleHashURL ∧
      sampleHashURL.redactEventJSON contentEvent =
        some ("\x7b\"content\":\x7b\"body\":\"hi\",\"msgtype\":\"m.text\"\x7d," ++
          "\"type\":\"m.room.message\"\x7d").toList ∧
      sampleHashURL.redactEventJSON contentEventReordered =
        some ("\x7b\"content\":\x7b\"msgtype\":\"m.text\",\"body\":\"hi\"\x7d," ++
          "\"type\":\"m.room.message\"\x7d").toList ∧
      sameEvent
        ("\x7b\"content\":\x7b\"body\":\"hi\",\"msgtype\":\"m.text\"\x7d," ++
          "\"type\":\"m.room.message\"\x7d").toList
        ("\x7b\"content\":\x7b\"msgtype\":\"m.text\",\"body\":\"hi\"\x7d," ++
          "\"type\":\"m.room.message\"\x7d").toList ∧
      canonicalProviso sampleEnv ∧
      eventIDForEvent sampleEnv [contentEvent, "4".toList] =
        eventIDForEvent sampleEnv [contentEventReordered, "4".toList] ∧
      eventIDForEvent sampleEnv [contentEventReordered, "4".toList] =
        "$1V5geP4ZSyJHOlxHT-F7_qug04w1dsDhu_H8LDjng28".toList ∧
      "$1V5geP4ZSyJHOlxHT-F7_qug04w1dsDhu_H8LDjng28".toList.head? = some '$' ∧
      (∀ c ∈ "$1V5geP4ZSyJHOlxHT-F7_qug04w1dsDhu_H8LDjng28".toList.tail, c ∈ Base64.encodeURL) ∧
      '=' ∉ "$1V5geP4ZSyJHOlxHT-F7_qug04w1dsDhu_H8LDjng28".toList :=
  have hsame : sameEvent
      ("\x7b\"content\":\x7b\"body\":\"hi\",\"msgtype\":\"m.text\"\x7d," ++
        "\"type\":\"m.room.message\"\x7d").toList
      ("\x7b\"content\":\x7b\"msgtype\":\"m.text\",\"body\":\"hi\"\x7d," ++
        "\"type\":\"m.room.message\"\x7d").toList := by decide
  have h := reordered_serializations_same_result sampleEnv contentEvent contentEventReordered
    "4".toList sampleHashURL
    ("\x7b\"content\":\x7b\"body\":\"hi\",\"msgtype\":\"m.text\"\x7d," ++
      "\"type\":\"m.room.message\"\x7d").toList
    ("\x7b\"content\":\x7b\"msgtype\":\"m.text\",\"body\":\"hi\"\x7d," ++
      "\"type\":\"m.room.message\"\x7d").toList
    rfl (by decide) (by decide) hsame (canonicalProviso_of_reference sampleEnv rfl)
  ⟨by decide, rfl, by decide, by decide, hsame, canonicalProviso_of_reference sampleEnv rfl,
    h.1, h.2 rfl rfl "$1V5geP4ZSyJHOlxHT-F7_qug04w1dsDhu_H8LDjng28".toList (by rfl)⟩

set_option maxRecDepth 100000 in
/-- Claim C4 fails as stated, in both halves, with a canonical serialization that satisfies
the proviso.  First half: a redaction that decodes the event into a Go struct lets the last
of two keys that differ in case only set the field `type`, so two serializations of one
mapping that differ only in the order of their keys get different identifiers.  Second half:
under room version 4, whose event format is `EventFormatV2` and whose identifier format is
`EventIDFormatV3`, two serializations of one event mapping whose `type` is a number are
rejected by the redaction, and the common result of `eventIDForEvent` is the empty string,
which does not start with `$`. -/
theorem reordered_serializations_counterexample :
    (sameEvent caseEvent caseEventReordered ∧ canonicalProviso structEnv ∧
      eventIDForEvent structEnv [caseEvent, "4".toList] =
        "$Ys7tSHLisQfjWjpnYjc_Eez_bwjCVyKtuwJRYuSnp6I".toList ∧
      eventIDForEvent structEnv [caseEventReordered, "4".toList] =
        "$pbqndhrplhXXFjRasiWNIyzYWuXKcc8rpMqyT7OYUYU".toList ∧
      eventIDForEvent structEnv [caseEvent, "4".toList] ≠
        eventIDForEvent structEnv [caseEventReordered, "4".toList]) ∧
    (sameEvent badTypeEvent badTypeEventReordered ∧ canonicalProviso sampleEnv ∧
      sampleEnv.getRoomVersion "4".toList = some sampleHashURL ∧
      sampleHashURL.eventFormat = EventFormatV2 ∧
      sampleHashURL.eventIDFormat = EventIDFormatV3 ∧
      eventIDForEvent sampleEnv [badTypeEvent, "4".toList] =
        eventIDForEvent sampleEnv [badTypeEventReordered, "4".toList] ∧
      (eventIDForEvent sampleEnv [badTypeEvent, "4".toList]).head? ≠ some '$') :=
  have h1 : eventIDForEvent structEnv [caseEvent, "4".toList] =
      "$Ys7tSHLisQfjWjpnYjc_Eez_bwjCVyKtuwJRYuSnp6I".toList := by decide
  have h2 : eventIDForEvent structEnv [caseEventReordered, "4".toList] =
      "$pbqndhrplhXXFjRasiWNIyzYWuXKcc8rpMqyT7OYUYU".toList := by decide
  ⟨⟨by decide, canonicalProviso_of_reference structEnv rfl, h1, h2,
      by rw [h1, h2]; decide⟩,
    ⟨by decide, canonicalProviso_of_reference sampleEnv rfl, rfl, rfl, rfl, by decide,
      by decide⟩⟩

end Tardis
